import Mathlib

/-!
# Polynomial evaluation on ciphertexts (`ckks/polynomial_evaluation.go`)

A shallow embedding of the power-basis builder (`computePowerBasis`), the
coefficient splitter (`splitCoeffs`), the base-case summation
(`evaluatePolyFromPowerBasis`), the recursive evaluator (`recurse`) and the two
public entry points (`EvaluatePolyFast`, `EvaluatePolyEco`).

* `uint64` values are natural numbers; every subtraction, addition and shift
  that can wrap is written with an explicit `% 2^64`.
* `complex128` coefficients are exact complex rationals (`Cplx`); floating-point
  rounding of coefficient arithmetic is not modelled.  The one place where the
  source rounds an integer through `float64` (`math.Ceil(float64(n) / 2)`) is
  modelled bit-exactly by `f64round`.
* The evaluator methods (`MulRelin`, `Rescale`, `Add`, `AddConst`,
  `MultByConstAndAdd`, `NewCiphertext`) are not part of the shown sources; the
  embedding takes them as a record `Ops`.  The contracts of section 6 of the
  specification are stated as properties of such a record (`LevelContract`,
  `ScaleContract`, ...), and theorems about levels and scales hold for every
  record that has them; a few concrete records serve as examples.
* `make` fails for a length that does not fit in `int`; allocation is
  otherwise taken to succeed.
* A Go panic is an `Except.error`; recursion that need not terminate carries a
  fuel argument and reports `Err.fuel` when the fuel runs out.
-/

namespace Lattigo

/-! ## Exact complex numbers -/

/-- Exact stand-in for `complex128`: a complex number with rational parts. -/
@[ext] structure Cplx where
  re : ℚ
  im : ℚ
deriving DecidableEq

namespace Cplx

instance : Zero Cplx := ⟨⟨0, 0⟩⟩
instance : One Cplx := ⟨⟨1, 0⟩⟩
instance : Add Cplx := ⟨fun a b => ⟨a.re + b.re, a.im + b.im⟩⟩
instance : Neg Cplx := ⟨fun a => ⟨-a.re, -a.im⟩⟩
instance : Sub Cplx := ⟨fun a b => ⟨a.re - b.re, a.im - b.im⟩⟩
instance : Mul Cplx :=
  ⟨fun a b => ⟨a.re * b.re - a.im * b.im, a.re * b.im + a.im * b.re⟩⟩

@[simp] theorem zero_re : (0 : Cplx).re = 0 := rfl
@[simp] theorem zero_im : (0 : Cplx).im = 0 := rfl
@[simp] theorem one_re : (1 : Cplx).re = 1 := rfl
@[simp] theorem one_im : (1 : Cplx).im = 0 := rfl
@[simp] theorem add_re (a b : Cplx) : (a + b).re = a.re + b.re := rfl
@[simp] theorem add_im (a b : Cplx) : (a + b).im = a.im + b.im := rfl
@[simp] theorem neg_re (a : Cplx) : (-a).re = -a.re := rfl
@[simp] theorem neg_im (a : Cplx) : (-a).im = -a.im := rfl
@[simp] theorem sub_re (a b : Cplx) : (a - b).re = a.re - b.re := rfl
@[simp] theorem sub_im (a b : Cplx) : (a - b).im = a.im - b.im := rfl
@[simp] theorem mul_re (a b : Cplx) : (a * b).re = a.re * b.re - a.im * b.im := rfl
@[simp] theorem mul_im (a b : Cplx) : (a * b).im = a.re * b.im + a.im * b.re := rfl

instance : CommRing Cplx where
  add_assoc a b c := by ext <;> simp [add_assoc]
  zero_add a := by ext <;> simp
  add_zero a := by ext <;> simp
  add_comm a b := by ext <;> simp [add_comm]
  neg_add_cancel a := by ext <;> simp
  sub_eq_add_neg a b := by ext <;> simp [sub_eq_add_neg]
  mul_assoc a b c := by ext <;> simp <;> ring
  one_mul a := by ext <;> simp
  mul_one a := by ext <;> simp
  left_distrib a b c := by ext <;> simp <;> ring
  right_distrib a b c := by ext <;> simp <;> ring
  mul_comm a b := by ext <;> simp <;> ring
  zero_mul a := by ext <;> simp
  mul_zero a := by ext <;> simp
  nsmul := nsmulRec
  zsmul := zsmulRec

end Cplx

/-- The test `math.Abs(real(c)) > 1e-15 || math.Abs(imag(c)) > 1e-15` of
`evaluatePolyFromPowerBasis`: a coefficient passing it is folded into the sum. -/
def significant (c : Cplx) : Prop := |c.re| > 1e-15 ∨ |c.im| > 1e-15

/-- The comparison `|q| > 1e-15` on numerator and denominator; it is what
makes the threshold test computable on concrete coefficients. -/
def aboveThreshold (q : ℚ) : Bool := decide (q.den < 10 ^ 15 * q.num.natAbs)

theorem aboveThreshold_iff (q : ℚ) : |q| > 1e-15 ↔ aboveThreshold q = true := by
  unfold aboveThreshold
  rw [decide_eq_true_iff]
  have hden : (0 : ℚ) < q.den := by exact_mod_cast q.den_pos
  have habs : |q| = (q.num.natAbs : ℚ) / q.den := by
    conv_lhs => rw [← Rat.num_div_den q]
    rw [abs_div, abs_of_pos hden]
    congr 1
    rw [← Int.cast_abs, ← Int.natCast_natAbs, Int.cast_natCast]
  have h15 : (1e-15 : ℚ) = 1 / 10 ^ 15 := by norm_num
  rw [gt_iff_lt, habs, h15, div_lt_div_iff₀ (by positivity) hden]
  constructor
  · intro h
    have : ((q.den : ℕ) : ℚ) < ((10 ^ 15 * q.num.natAbs : ℕ) : ℚ) := by
      push_cast
      linarith
    exact_mod_cast this
  · intro h
    have : ((q.den : ℕ) : ℚ) < ((10 ^ 15 * q.num.natAbs : ℕ) : ℚ) := by exact_mod_cast h
    push_cast at this
    linarith

instance : DecidablePred significant := fun c =>
  decidable_of_iff (aboveThreshold c.re = true ∨ aboveThreshold c.im = true)
    (by unfold significant; rw [aboveThreshold_iff, aboveThreshold_iff])

/-! ## Machine integers -/

/-- Wrapping `uint64` subtraction `a - b` of two values below `2^64`. -/
def sub64 (a b : Nat) : Nat := if b ≤ a then a - b else a + 2 ^ 64 - b

/-- Wrapping `uint64` addition `a + b`. -/
def add64 (a b : Nat) : Nat := (a + b) % 2 ^ 64

/-- Go's `x << s` on `uint64`: bits shifted past position 63 are lost and a
shift count of 64 or more gives 0. -/
def shl64 (x s : Nat) : Nat := if s < 64 then (x * 2 ^ s) % 2 ^ 64 else 0

/-- Number of binary digits of `x`, looking at no more than `k` of them. -/
def bitLen : Nat → Nat → Nat
  | 0, _ => 0
  | k + 1, x => if x = 0 then 0 else bitLen k (x / 2) + 1

/-- `bits.Len64`: the number of bits needed to write the `uint64` value `x`,
0 for `x = 0`. -/
def len64 (x : Nat) : Nat := bitLen 64 x

/-- The conversion `float64(n)` of a `uint64`: values below `2^53` are exact,
larger ones are rounded to 53 significant bits, ties to even. -/
def f64round (n : Nat) : Nat :=
  if n < 2 ^ 53 then n
  else
    let e := len64 n - 53
    let q := n / 2 ^ e
    let r := n % 2 ^ e
    let h := 2 ^ (e - 1)
    if r < h then q * 2 ^ e
    else if h < r then (q + 1) * 2 ^ e
    else if q % 2 = 0 then q * 2 ^ e
    else (q + 1) * 2 ^ e

/-- The index `a := uint64(math.Ceil(float64(n) / 2))` of `computePowerBasis`.
Halving a `float64` and taking the ceiling are exact. -/
def ceilHalf (n : Nat) : Nat := (f64round n + 1) / 2

/-! ## Errors, maps and slices -/

/-- Failures of the homomorphic primitives named by the specification. -/
inductive OpErr where
  | insufficientLevel
  | levelScaleMismatch
deriving DecidableEq, Repr

/-- Ways in which an evaluation stops without a result.  `fuel` is not a
behaviour of the program: it marks a run of the model that was cut short. -/
inductive Err where
  | op (e : OpErr)
  | unsupportedType
  | indexOutOfRange
  | makeSliceLen
  | nilEntry
  | fuel
deriving DecidableEq, Repr

/-- The map `C map[uint64]*Ciphertext`: an association list with one pair per
key. -/
abbrev Basis (α : Type) := List (Nat × α)

/-- Map read `C[k]`; `none` is Go's `nil`. -/
def Basis.get? {α : Type} (C : Basis α) (k : Nat) : Option α := C.lookup k

/-- Map write `C[k] = v`: an existing entry for `k` is replaced. -/
def Basis.set {α : Type} (C : Basis α) (k : Nat) (v : α) : Basis α :=
  (k, v) :: C.filter (fun p => p.1 != k)

/-- Use of `C[k]` as an operand: a `nil` entry makes the primitive panic. -/
def Basis.fetch {α : Type} (C : Basis α) (k : Nat) : Except Err α :=
  match C.get? k with
  | some v => .ok v
  | none => .error .nilEntry

/-- Slice read `l[i]` with Go's bounds check. -/
def getIdx {β : Type} (l : List β) (i : Nat) : Except Err β :=
  match l[i]? with
  | some v => .ok v
  | none => .error .indexOutOfRange

/-- Slice write `l[i] = v` with Go's bounds check. -/
def setIdx {β : Type} (l : List β) (i : Nat) (v : β) : Except Err (List β) :=
  if i < l.length then .ok (l.set i v) else .error .indexOutOfRange

/-- A counted loop `for i := start; ...; i++` running `count` times and
threading the loop state `s`; an error in the body ends the loop. -/
def forRange {σ : Type} (body : Nat → σ → Except Err σ) : Nat → Nat → σ → Except Err σ
  | _, 0, s => .ok s
  | i, k + 1, s =>
    match body i s with
    | .ok s1 => forRange body (i + 1) k s1
    | .error e => .error e

/-! ## The evaluator's primitives -/

/-- Modelled from the spec: the methods of `Evaluator` used by the polynomial
evaluation (`MulRelin`/`MulRelinNew`, `Rescale`, `Add`, `AddConst`,
`MultByConstAndAdd`) and `NewCiphertext` are not in the shown sources.  Section 6
of the specification lists them; `mulRelin`, `rescale` and `add` can fail, the
constant operations cannot.  `newCiphertext c` is
`NewCiphertext(params, 1, c.Level(), c.Scale())`, the zero ciphertext with the
level and scale of `c`.  `multByConstAndAdd c k acc` is `acc += c * k`. -/
structure Ops (α : Type) where
  mulRelin : α → α → Except OpErr α
  rescale : α → Except OpErr α
  add : α → α → Except OpErr α
  addConst : α → Cplx → α
  multByConstAndAdd : α → Cplx → α → α
  newCiphertext : α → α

/-- A primitive's failure seen from the evaluation. -/
def liftOp {α : Type} : Except OpErr α → Except Err α
  | .ok a => .ok a
  | .error e => .error (.op e)

/-- Modelled from the spec: the plaintext oracle of section 8.  A ciphertext is
the exact number it encrypts, `MulRelin` and `Add` are multiplication and
addition, `Rescale` leaves the value unchanged and nothing fails. -/
def plainOps : Ops Cplx where
  mulRelin a b := .ok (a * b)
  rescale a := .ok a
  add a b := .ok (a + b)
  addConst a k := a + k
  multByConstAndAdd c k acc := acc + c * k
  newCiphertext _ := 0

/-- Modelled from the spec: one record of primitives that keeps only the level
of a ciphertext.  `MulRelin` needs both levels to be at least 1 and yields their
minimum, `Rescale` needs level at least 1 and lowers it by exactly 1 and a new
ciphertext takes the level of `C[1]` (sections 6 and 4.4).  Section 6 does not
say what level `MultByConstAndAdd` leaves in the accumulator: this record
leaves the accumulator's level unchanged.  `Add` checks the levels only, the
scale is not kept.  It is an example, not the reference for the contracts. -/
def levelOps : Ops Nat where
  mulRelin a b := if a = 0 ∨ b = 0 then .error .insufficientLevel else .ok (min a b)
  rescale a := if a = 0 then .error .insufficientLevel else .ok (a - 1)
  add a b := if a = b then .ok a else .error .levelScaleMismatch
  addConst a _ := a
  multByConstAndAdd _ _ acc := acc
  newCiphertext c := c

/-- A counting stub: primitives that keep nothing and never fail. -/
def stubOps : Ops Unit where
  mulRelin _ _ := .ok ()
  rescale _ := .ok ()
  add _ _ := .ok ()
  addConst _ _ := ()
  multByConstAndAdd _ _ _ := ()
  newCiphertext _ := ()

/-- Modelled from the spec: the level contracts of section 6 for `MulRelin` and
`Rescale`, and of section 4.4 for the fresh accumulator, as properties of a
record `ops` whose ciphertexts have the level `lvl`.  `MulRelin` yields the
minimum of the operands' levels, fails with `InsufficientLevel` when one of
them is 0 and not otherwise; `Rescale` lowers the level by exactly 1, fails
with `InsufficientLevel` at level 0 and not otherwise; a new ciphertext takes
the level of the one it is made from. -/
structure LevelContract {α : Type} (ops : Ops α) (lvl : α → Nat) : Prop where
  mul_ok : ∀ u v, 1 ≤ lvl u → 1 ≤ lvl v → ∃ w, ops.mulRelin u v = .ok w
  mul_lvl : ∀ u v w, ops.mulRelin u v = .ok w → lvl w = min (lvl u) (lvl v)
  mul_fail : ∀ u v, lvl u = 0 ∨ lvl v = 0 → ops.mulRelin u v = .error .insufficientLevel
  res_ok : ∀ w, 1 ≤ lvl w → ∃ w1, ops.rescale w = .ok w1
  res_lvl : ∀ w w1, ops.rescale w = .ok w1 → lvl w1 + 1 = lvl w
  res_fail : ∀ w, lvl w = 0 → ops.rescale w = .error .insufficientLevel
  new_lvl : ∀ c, lvl (ops.newCiphertext c) = lvl c

/-- Modelled from the spec: "constant addition and multiply-by-constant-and-
accumulate cost no level" read as: both leave the accumulator at the level it
had. -/
def ConstFree {α : Type} (ops : Ops α) (lvl : α → Nat) : Prop :=
  (∀ a k, lvl (ops.addConst a k) = lvl a) ∧
    ∀ c k acc, lvl (ops.multByConstAndAdd c k acc) = lvl acc

/-- Modelled from the spec: the constant operations cost no level, in the
weakest reading.  `AddConst` leaves the level unchanged; `MultByConstAndAdd`
leaves the accumulator at its level or lowers it, at most down to the level of
the ciphertext that is multiplied in.  Both readings of `contractOps` and the
reading `ConstFree` are instances. -/
def ConstBetween {α : Type} (ops : Ops α) (lvl : α → Nat) : Prop :=
  (∀ a k, lvl (ops.addConst a k) = lvl a) ∧
    ∀ c k acc, min (lvl c) (lvl acc) ≤ lvl (ops.multByConstAndAdd c k acc) ∧
      lvl (ops.multByConstAndAdd c k acc) ≤ lvl acc

/-- Modelled from the spec: `Add` seen on levels only.  A sum, when `Add`
returns one, is at the lower of the operands' levels (their common level when
they are equal); `Add` accepts operands of equal level, and operands of
different level as well when `lenient` holds.  With `lenient := False` this is
the strict contract of section 6 restricted to levels. -/
def AddLevel {α : Type} (ops : Ops α) (lvl : α → Nat) (lenient : Prop) : Prop :=
  (∀ u v w, ops.add u v = .ok w → lvl w = min (lvl u) (lvl v)) ∧
    ∀ u v, lvl u = lvl v ∨ lenient → ∃ w, ops.add u v = .ok w

/-- Modelled from the spec: the scale contracts.  `Rescale` normalizes the
scale to the ambient scale `Δ` (section 6); `Add` requires operands of equal
scale and its only failure is `LevelScaleMismatch` (section 6); a product of
two ciphertexts at the ambient scale is not at the ambient scale, which is why
a multiplication is followed by a rescale (sections 4.2, 4.3 and the
glossary). -/
structure ScaleContract {α σ : Type} (ops : Ops α) (scale : α → σ) (Δ : σ) : Prop where
  res_scale : ∀ w w1, ops.rescale w = .ok w1 → scale w1 = Δ
  mul_scale : ∀ u v w, scale u = Δ → scale v = Δ → ops.mulRelin u v = .ok w → scale w ≠ Δ
  add_scale : ∀ u v w, ops.add u v = .ok w → scale u = scale v
  add_err : ∀ u v e, ops.add u v = .error e → e = .levelScaleMismatch

/-- A ciphertext reduced to its two pieces of metadata (section 3). -/
structure Ct where
  level : Nat
  scale : Nat
deriving DecidableEq, Repr

/-- Modelled from the spec: a record of primitives that keeps level and scale,
with the contracts of section 6 taken strictly.  `MulRelin` fails at level 0,
yields the minimum level and the product of the scales; `Rescale` fails at
level 0, lowers the level by 1 and sets the scale to the ambient scale `Δ`;
`Add` requires equal level and equal scale; `AddConst` changes nothing.  For
`MultByConstAndAdd`, whose level section 6 leaves open, the flag `accMin`
selects between the two readings: the accumulator drops to the lower of the two
levels (`true`) or keeps its level (`false`). -/
def contractOps (accMin : Bool) (Δ : Nat) : Ops Ct where
  mulRelin a b :=
    if a.level = 0 ∨ b.level = 0 then .error .insufficientLevel
    else .ok ⟨min a.level b.level, a.scale * b.scale⟩
  rescale a := if a.level = 0 then .error .insufficientLevel else .ok ⟨a.level - 1, Δ⟩
  add a b :=
    if a.level = b.level ∧ a.scale = b.scale then .ok a else .error .levelScaleMismatch
  addConst a _ := a
  multByConstAndAdd c _ acc := ⟨if accMin then min c.level acc.level else acc.level, acc.scale⟩
  newCiphertext c := ⟨c.level, c.scale⟩

/-- Modelled from the spec: a record of primitives on levels only whose `Add`
accepts operands of different level and returns a sum at the lower one, and
whose `MultByConstAndAdd` puts the accumulator at the lower of the two levels.
`MulRelin` and `Rescale` are as in `levelOps`. -/
def lenientOps : Ops Nat where
  mulRelin a b := if a = 0 ∨ b = 0 then .error .insufficientLevel else .ok (min a b)
  rescale a := if a = 0 then .error .insufficientLevel else .ok (a - 1)
  add a b := .ok (min a b)
  addConst a _ := a
  multByConstAndAdd c _ acc := min c acc
  newCiphertext c := c

/-! ## The power basis -/

/-- The map `C` together with the number of `MulRelinNew` calls made while
filling it. -/
structure PowerBasis (α : Type) where
  C : Basis α
  muls : Nat

/-- `computePowerBasis(n, C, evaluator, evakey)`: when `C[n]` is `nil`, ensure
`C[a]` and `C[b]` for `a = ceil(n/2)`, `b = n >> 1` and store
`Rescale(MulRelinNew(C[a], C[b]))` under `n`.  The first argument is fuel for
the recursion. -/
def computePowerBasis {α : Type} (ops : Ops α) : Nat → Nat → PowerBasis α → Except Err (PowerBasis α)
  | 0, _, _ => .error .fuel
  | fuel + 1, n, s =>
    match s.C.get? n with
    | some _ => .ok s
    | none => do
      let a := ceilHalf n
      let b := n >>> 1
      let s1 ← computePowerBasis ops fuel a s
      let s2 ← computePowerBasis ops fuel b s1
      let ca ← s2.C.fetch a
      let cb ← s2.C.fetch b
      let cn ← liftOp (ops.mulRelin ca cb)
      let cn ← liftOp (ops.rescale cn)
      .ok { C := s2.C.set n cn, muls := s2.muls + 1 }

/-- The fresh map of an evaluation: `C[1] = ct.CopyNew().Ciphertext()` and
nothing else, no multiplication made yet. -/
def seedBasis {α : Type} (ct : α) : PowerBasis α := { C := Basis.set [] 1 ct, muls := 0 }

/-- A sequence of `computePowerBasis` calls on the same map, one per element of
the list, in order. -/
def computePowerBasisCalls {α : Type} (ops : Ops α) (fuel : Nat) :
    List Nat → PowerBasis α → Except Err (PowerBasis α)
  | [], s => .ok s
  | n :: ns, s =>
    match computePowerBasis ops fuel n s with
    | .ok s1 => computePowerBasisCalls ops fuel ns s1
    | .error e => .error e

/-- The two loops shared by `EvaluatePolyFast` and `EvaluatePolyEco`:
`C[1]` is a copy of the input, then `computePowerBasis(i)` for
`i = 2, ..., 1 << L` and `computePowerBasis(1 << i)` for `i = L+1, ..., M-1`. -/
def buildPowerBasis {α : Type} (ops : Ops α) (fuel : Nat) (ct : α) (L M : Nat) :
    Except Err (PowerBasis α) := do
  let s1 ← forRange (fun i s => computePowerBasis ops fuel i s) 2 (shl64 1 L - 1) (seedBasis ct)
  forRange (fun i s => computePowerBasis ops fuel (shl64 1 i) s) (L + 1) (M - (L + 1)) s1

/-- The arguments that `computePowerBasis` is called with: `i` from 2 to
`1 << L` (first loop of the entry points, where `L <= 32`), `1 << i` with
`i < 64` (second loop, where `L < i < M <= 64`), and the two indices `a`, `b`
that `computePowerBasis` computes from its own argument. -/
inductive Receivable : Nat → Prop
  | dense (L i : Nat) : L ≤ 32 → 2 ≤ i → i ≤ shl64 1 L → Receivable i
  | sparse (i : Nat) : i < 64 → Receivable (shl64 1 i)
  | up (n : Nat) : Receivable n → Receivable (ceilHalf n)
  | down (n : Nat) : Receivable n → Receivable (n >>> 1)

/-! ## Splitting and the base case -/

/-- `make([]complex128, n)` for a `uint64` length `n`: a zero-filled slice.  A
length that does not fit in `int` (`n >= 2^63`) panics with
`makeslice: len out of range`; a smaller request is taken to succeed, memory
is not modelled. -/
def makeSlice (n : Nat) : Except Err (List Cplx) :=
  if n < 2 ^ 63 then .ok (List.replicate n (0 : Cplx)) else .error .makeSliceLen

/-- `splitCoeffs(coeffs, degree, maxDegree)`: `coeffsr` takes the entries below
`degree`, `coeffsq` the entries `degree .. maxDegree`; the result is
`(coeffsq, coeffsr)`.  Both slices are made zero-filled and then written entry
by entry, in the order of the source. -/
def splitCoeffs (coeffs : List Cplx) (degree maxDegree : Nat) :
    Except Err (List Cplx × List Cplx) := do
  let coeffsr ← makeSlice degree
  let coeffsr ← forRange (fun i r => do
      let v ← getIdx coeffs i
      setIdx r i v) 0 degree coeffsr
  let coeffsq ← makeSlice (add64 (sub64 maxDegree degree) 1)
  let v ← getIdx coeffs degree
  let coeffsq ← setIdx coeffsq 0 v
  let start := add64 degree 1
  let coeffsq ← forRange (fun i q => do
      let v ← getIdx coeffs i
      setIdx q (sub64 i degree) v) start (add64 maxDegree 1 - start) coeffsq
  .ok (coeffsq, coeffsr)

/-- The loop `for key := len(coeffs) - 1; key > 0; key--` of
`evaluatePolyFromPowerBasis`, started at `key`. -/
def accumulate {α : Type} (ops : Ops α) (coeffs : List Cplx) (C : Basis α) :
    Nat → α → Except Err α
  | 0, res => .ok res
  | key + 1, res => do
    let c ← getIdx coeffs (key + 1)
    if significant c then
      let ck ← C.fetch (key + 1)
      accumulate ops coeffs C key (ops.multByConstAndAdd ck c res)
    else
      accumulate ops coeffs C key res

/-- `evaluatePolyFromPowerBasis(coeffs, C, evaluator, evakey)`: the weighted sum
of the basis entries, skipping coefficients that fail the `1e-15` test, followed
by one `Rescale`. -/
def evaluatePolyFromPowerBasis {α : Type} (ops : Ops α) (coeffs : List Cplx) (C : Basis α) :
    Except Err α := do
  let c1 ← C.fetch 1
  let res := ops.newCiphertext c1
  let c0 ← getIdx coeffs 0
  let res := if significant c0 then ops.addConst res c0 else res
  let res ← accumulate ops coeffs C (sub64 coeffs.length 1) res
  liftOp (ops.rescale res)

/-! ## The recursive evaluator -/

/-- The loop `for 1<<(M-1) > maxDegree { M-- }` of `recurse`.  For `M = 0` the
shift count wraps to `2^64 - 1`, the shift gives 0 and the loop stops. -/
def shrinkM (maxDegree : Nat) : Nat → Nat
  | 0 => 0
  | m + 1 => if maxDegree < shl64 1 m then shrinkM maxDegree m else m + 1

/-- `recurse(maxDegree, L, M, coeffs, C, evaluator, evakey)`.  The first
argument is fuel for the recursion. -/
def recurse {α : Type} (ops : Ops α) :
    Nat → Nat → Nat → Nat → List Cplx → Basis α → Except Err α
  | 0, _, _, _, _, _ => .error .fuel
  | fuel + 1, maxDegree, L, M, coeffs, C =>
    if maxDegree ≤ shl64 1 L then
      evaluatePolyFromPowerBasis ops coeffs C
    else do
      let M1 := shrinkM maxDegree M
      let d := shl64 1 (sub64 M1 1)
      let (coeffsq, coeffsr) ← splitCoeffs coeffs d maxDegree
      let res ← recurse ops fuel (sub64 maxDegree d) L (sub64 M1 1) coeffsq C
      let tmp ← recurse ops fuel (sub64 d 1) L (sub64 M1 1) coeffsr C
      let cd ← C.fetch d
      let res ← liftOp (ops.mulRelin res cd)
      let res ← liftOp (ops.add res tmp)
      liftOp (ops.rescale res)

/-! ## The public entry points -/

/-- The dynamically typed argument `coeffs interface{}`. -/
inductive CoeffsArg where
  | complexes (l : List Cplx)
  | floats (l : List ℚ)
  | other

/-- `convertCoeffs(coeffs)`: the coefficients widened to complex numbers and
`degree = uint64(len(coeffsMap)) - 1`; any other argument type panics. -/
def convertCoeffs : CoeffsArg → Except Err (Nat × List Cplx)
  | .complexes l =>
    let coeffsMap := l.map (fun c => c)
    .ok (sub64 (coeffsMap.length % 2 ^ 64) 1, coeffsMap)
  | .floats l =>
    let coeffsMap := l.map (fun r => (⟨r, 0⟩ : Cplx))
    .ok (sub64 (coeffsMap.length % 2 ^ 64) 1, coeffsMap)
  | .other => .error .unsupportedType

/-- The body of `EvaluatePolyFast(ct, coeffs, evakey)`:
`M = bits.Len64(degree - 1)`, `L = M >> 1`, the two loops that fill `C`, then
`return recurse(...)`.  Besides what `recurse` returns (a result or a panic),
a run that reaches that call hands out the map `C` with the count of
`MulRelinNew` calls made while filling it. -/
def EvaluatePolyFastRun {α : Type} (ops : Ops α) (fuel : Nat) (ct : α) (coeffs : CoeffsArg) :
    Except Err (PowerBasis α × Except Err α) := do
  let (degree, coeffsMap) ← convertCoeffs coeffs
  let M := len64 (sub64 degree 1)
  let L := M >>> 1
  let s ← buildPowerBasis ops fuel ct L M
  .ok (s, recurse ops fuel degree L M coeffsMap s.C)

/-- `EvaluatePolyFast(ct, coeffs, evakey)` as its caller sees it: the result, or
the panic that ended the run. -/
def EvaluatePolyFast {α : Type} (ops : Ops α) (fuel : Nat) (ct : α) (coeffs : CoeffsArg) :
    Except Err α :=
  EvaluatePolyFastRun ops fuel ct coeffs >>= fun run => run.2

/-- The body of `EvaluatePolyEco(ct, coeffs, evakey)`:
`M = bits.Len64(degree - 1)`, `L = 1`, the two loops that fill `C`, then
`return recurse(...)`; the outcome is reported as for `EvaluatePolyFastRun`. -/
def EvaluatePolyEcoRun {α : Type} (ops : Ops α) (fuel : Nat) (ct : α) (coeffs : CoeffsArg) :
    Except Err (PowerBasis α × Except Err α) := do
  let (degree, coeffsMap) ← convertCoeffs coeffs
  let M := len64 (sub64 degree 1)
  let L := 1
  let s ← buildPowerBasis ops fuel ct L M
  .ok (s, recurse ops fuel degree L M coeffsMap s.C)

/-- `EvaluatePolyEco(ct, coeffs, evakey)` as its caller sees it: the result, or
the panic that ended the run. -/
def EvaluatePolyEco {α : Type} (ops : Ops α) (fuel : Nat) (ct : α) (coeffs : CoeffsArg) :
    Except Err α :=
  EvaluatePolyEcoRun ops fuel ct coeffs >>= fun run => run.2

/-! ## Reference polynomial evaluation -/

/-- Direct evaluation `p(x) = Σ c[i] * x^i`. -/
def polyEval (coeffs : List Cplx) (x : Cplx) : Cplx :=
  ∑ i in Finset.range coeffs.length, coeffs.getD i 0 * x ^ i

/-- Direct evaluation of the terms whose coefficient passes the `1e-15` test. -/
def prunedEval (coeffs : List Cplx) (x : Cplx) : Cplx :=
  ∑ i in Finset.range coeffs.length,
    if significant (coeffs.getD i 0) then coeffs.getD i 0 * x ^ i else 0

/-! ## Level accounting -/

/-- The number of levels that a call of `recurse` on `len` coefficients with
the parameters `L` and `M` uses up when the constant operations cost none: 1 in
the base case, the shrunk `M` otherwise. -/
def levelCost (L len M : Nat) : Nat :=
  if len ≤ 2 ^ L + 1 then 1 else shrinkM (len - 1) M

/-- The largest number of levels that a call of `recurse` on `len` coefficients
can use up under `ConstBetween`: in the base case one more than the depth of
the highest power it can touch, otherwise one more than the shrunk `M`. -/
def levelCostMax (L len M : Nat) : Nat :=
  if len ≤ 2 ^ L + 1 then Nat.clog 2 (len - 1) + 1 else shrinkM (len - 1) M + 1

/-! ## The combine step -/

/-- The last three statements of `recurse`:
`MulRelin(res, C[1<<(M-1)], evakey, res)`, `Add(res, tmp, res)`,
`Rescale(res, scale, res)`, on the results `res`, `tmp` of the two sub-calls and
the basis entry `cd`. -/
def combineOneRescale {α : Type} (ops : Ops α) (res cd tmp : α) : Except Err α := do
  let w ← liftOp (ops.mulRelin res cd)
  let w2 ← liftOp (ops.add w tmp)
  liftOp (ops.rescale w2)

/-- Modelled from the spec: the combine step as section 4.3 words it,
`result = Rescale(MulRelin(resHigh, PowerBasis[d]))`, `result = Add(result, resLow)`,
`Rescale(result)`, with a rescale before the addition and one after it. -/
def combineTwoRescales {α : Type} (ops : Ops α) (resHigh cd resLow : α) : Except Err α := do
  let w ← liftOp (ops.mulRelin resHigh cd)
  let w1 ← liftOp (ops.rescale w)
  let w2 ← liftOp (ops.add w1 resLow)
  liftOp (ops.rescale w2)

/-! ## The calls of `recurse` -/

/-- The arguments of a call of `recurse` that change along the recursion:
`maxDegree`, `M` and `coeffs` (`L` and the map `C` are passed on unchanged). -/
structure RecCall where
  maxDegree : Nat
  M : Nat
  coeffs : List Cplx

/-- The sub-calls that the body of `recurse` issues from a call: none in the
base case `maxDegree <= 1 << L`; otherwise, after the loop on `M` and
`splitCoeffs`, one on `coeffsq` with `maxDegree - (1 << (M-1))` and one on
`coeffsr` with `(1 << (M-1)) - 1`, both with `M - 1`.  The second one is listed
whether or not the first one succeeds. -/
def recurseSubcalls (L : Nat) (c : RecCall) : List RecCall :=
  if c.maxDegree ≤ shl64 1 L then []
  else
    match splitCoeffs c.coeffs (shl64 1 (sub64 (shrinkM c.maxDegree c.M) 1)) c.maxDegree with
    | .ok (coeffsq, coeffsr) =>
      [⟨sub64 c.maxDegree (shl64 1 (sub64 (shrinkM c.maxDegree c.M) 1)),
          sub64 (shrinkM c.maxDegree c.M) 1, coeffsq⟩,
        ⟨sub64 (shl64 1 (sub64 (shrinkM c.maxDegree c.M) 1)) 1,
          sub64 (shrinkM c.maxDegree c.M) 1, coeffsr⟩]
    | .error _ => []

/-- The calls of `recurse` made, directly or through further calls, from the
call `top`. -/
def RecReach (L : Nat) (top c : RecCall) : Prop :=
  Relation.ReflTransGen (fun c1 c2 => c2 ∈ recurseSubcalls L c1) top c

/-! ## The uniform sampler -/

/-- The fields of `Ring` that the sampler reads: the degree `N`, the moduli and
their masks. -/
structure Ring where
  N : Nat
  Modulus : List Nat
  Mask : List Nat

/-- A polynomial in RNS form: `Coeffs[j]` is the row of coefficients for the
modulus `j`.  The rows are separate slices. -/
structure Poly where
  Coeffs : List (List Nat)

/-- `UniformSampler`.  The `utils.PRNG` behind it is the stream `prng` of the
bytes it hands out together with the number `pos` of bytes handed out so far;
`randomBufferN` is the byte buffer. -/
structure UniformSampler where
  baseRing : Ring
  prng : Nat → Nat
  pos : Nat
  randomBufferN : List Nat

/-- `NewUniformSampler(prng, baseRing)`: the buffer has `baseRing.N` bytes. -/
def NewUniformSampler (prng : Nat → Nat) (pos : Nat) (baseRing : Ring) : UniformSampler :=
  { baseRing := baseRing, prng := prng, pos := pos,
    randomBufferN := List.replicate baseRing.N 0 }

/-- The bytes that `prng.Read` writes into a buffer of `n` bytes when `pos`
bytes have been handed out before. -/
def prngRead (prng : Nat → Nat) (pos n : Nat) : List Nat :=
  (List.range n).map (fun i => prng (pos + i) % 256)

/-- The call `uniformSampler.prng.Read(uniformSampler.randomBufferN)`. -/
def UniformSampler.refill (u : UniformSampler) : UniformSampler :=
  { u with pos := u.pos + u.randomBufferN.length,
           randomBufferN := prngRead u.prng u.pos u.randomBufferN.length }

/-- `binary.BigEndian.Uint64(b)` on a slice of eight bytes. -/
def be64 (b : List Nat) : Nat := b.foldl (fun acc x => acc * 256 + x % 256) 0

/-- The rejection loop `for { ... }` of `Read` and `ReadLvl` for one
coefficient, with the buffer position `ptr`: refill the buffer when
`ptr == N`, read eight bytes at `ptr`, mask them, advance `ptr` by 8 and stop
when the value is below `qi`.  The slice `randomBufferN[ptr:ptr+8]` is bounds
checked.  The first argument is fuel for the loop. -/
def sampleLoop (qi mask : Nat) : Nat → UniformSampler → Nat → Except Err (Nat × UniformSampler × Nat)
  | 0, _, _ => .error .fuel
  | fuel + 1, u, ptr =>
    let u1 := if ptr = u.baseRing.N then u.refill else u
    let ptr1 := if ptr = u.baseRing.N then 0 else ptr
    if ptr1 + 8 ≤ u1.randomBufferN.length then
      let randomUint := be64 ((u1.randomBufferN.drop ptr1).take 8) &&& mask
      if randomUint < qi then .ok (randomUint, u1, ptr1 + 8)
      else sampleLoop qi mask fuel u1 (ptr1 + 8)
    else .error .indexOutOfRange

/-- The loop `for i := 0; i < N; i++` over the coefficients of the row `ptmp`. -/
def readRow (qi mask fuel : Nat) (u : UniformSampler) (ptr : Nat) (ptmp : List Nat) :
    Except Err (UniformSampler × Nat × List Nat) :=
  forRange (fun i s => do
      let (randomUint, u1, ptr1) ← sampleLoop qi mask fuel s.1 s.2.1
      let ptmp ← setIdx s.2.2 i randomUint
      .ok (u1, ptr1, ptmp)) 0 u.baseRing.N (u, ptr, ptmp)

/-- The loop over the rows `j = 0, ..., rows - 1` shared by `Read` and
`ReadLvl`: `qi = Modulus[j]`, `mask = Mask[j]`, `ptmp := Pol.Coeffs[j]`, then
the loop over the coefficients, whose writes land in `Pol.Coeffs[j]`. -/
def readRows (fuel rows : Nat) (u : UniformSampler) (ptr : Nat) (coeffs : List (List Nat)) :
    Except Err (UniformSampler × Nat × List (List Nat)) :=
  forRange (fun j s => do
      let qi ← getIdx s.1.baseRing.Modulus j
      let mask ← getIdx s.1.baseRing.Mask j
      let ptmp ← getIdx s.2.2 j
      let (u1, ptr1, ptmp) ← readRow qi mask fuel s.1 s.2.1 ptmp
      let coeffs ← setIdx s.2.2 j ptmp
      .ok (u1, ptr1, coeffs)) 0 rows (u, ptr, coeffs)

/-- `uniformSampler.Read(Pol)`: one refill, then the rows
`range Modulus[:len(Pol.Coeffs)]`; a slice bound above the length of `Modulus`
fails. -/
def UniformSampler.Read (u : UniformSampler) (fuel : Nat) (Pol : Poly) :
    Except Err (UniformSampler × Poly) :=
  if Pol.Coeffs.length ≤ u.baseRing.Modulus.length then do
    let (u1, _, coeffs) ← readRows fuel Pol.Coeffs.length u.refill 0 Pol.Coeffs
    .ok (u1, { Coeffs := coeffs })
  else .error .indexOutOfRange

/-- Addition of two `int` values (64 bits, two's complement): a sum outside
`[-2^63, 2^63)` wraps around. -/
def addInt (a b : Int) : Int :=
  if 2 ^ 63 ≤ a + b then a + b - 2 ^ 64
  else if a + b < -(2 ^ 63) then a + b + 2 ^ 64
  else a + b

/-- `uniformSampler.ReadLvl(level, Pol)` for an `int` value `level`: one refill,
then the rows `j = 0; j < level+1; j++`, where `level+1` is the wrapping sum.
The loop runs `level+1` times when that is positive and not at all
otherwise. -/
def UniformSampler.ReadLvl (u : UniformSampler) (fuel : Nat) (level : Int) (Pol : Poly) :
    Except Err (UniformSampler × Poly) := do
  let (u1, _, coeffs) ← readRows fuel (addInt level 1).toNat u.refill 0 Pol.Coeffs
  .ok (u1, { Coeffs := coeffs })

/-- The value `v` was read by the sampler `u0` for the modulus `qi` with mask
`mask`: it is below `qi` and it is the big-endian value of eight consecutive
bytes, at some offset `ptr`, of the buffer as filled by some refill, masked. -/
def Sampled (u0 : UniformSampler) (qi mask v : Nat) : Prop :=
  v < qi ∧ ∃ k ptr, ptr + 8 ≤ u0.randomBufferN.length ∧
    v = be64 (((prngRead u0.prng (u0.pos + k * u0.randomBufferN.length)
      u0.randomBufferN.length).drop ptr).take 8) &&& mask

/-- Row `j` of `coeffs` holds sampled values in its first `N` entries. -/
def RowSampled (u0 : UniformSampler) (coeffs : List (List Nat)) (j : Nat) : Prop :=
  ∃ qi mask row, u0.baseRing.Modulus[j]? = some qi ∧ u0.baseRing.Mask[j]? = some mask ∧
    coeffs[j]? = some row ∧ ∀ i, i < u0.baseRing.N → ∃ v, row[i]? = some v ∧ Sampled u0 qi mask v

/-- The state of the sampler `u` in a run started from `u0`: same ring, same
PRNG, a buffer of the same length that holds the bytes of the latest refill. -/
def SamplerInv (u0 u : UniformSampler) : Prop :=
  u.prng = u0.prng ∧ u.baseRing = u0.baseRing ∧
    u.randomBufferN.length = u0.randomBufferN.length ∧
    ∃ k, u.pos = u0.pos + (k + 1) * u0.randomBufferN.length ∧
      u.randomBufferN
        = prngRead u0.prng (u0.pos + k * u0.randomBufferN.length) u0.randomBufferN.length

/-! # Theorems -/

/-! ## Basic facts: errors and loops -/

@[simp] theorem bind_ok_eq {ε β γ : Type} (a : β) (f : β → Except ε γ) :
    ((Except.ok a : Except ε β) >>= f) = f a := rfl

@[simp] theorem bind_error_eq {ε β γ : Type} (e : ε) (f : β → Except ε γ) :
    ((Except.error e : Except ε β) >>= f) = Except.error e := rfl

@[simp] theorem liftOp_ok {α : Type} (a : α) : liftOp (Except.ok a) = Except.ok a := rfl

@[simp] theorem liftOp_error {α : Type} (e : OpErr) :
    liftOp (Except.error e : Except OpErr α) = Except.error (Err.op e) := rfl

theorem getIdx_of_lt {β : Type} (l : List β) (i : Nat) (h : i < l.length) :
    getIdx l i = .ok l[i] := by
  simp [getIdx, List.getElem?_eq_getElem h]

theorem getIdx_of_ge {β : Type} (l : List β) (i : Nat) (h : l.length ≤ i) :
    getIdx l i = .error .indexOutOfRange := by
  simp [getIdx, List.getElem?_eq_none h]

/-! ## Basic facts: machine integers -/

theorem sub64_eq (a b : Nat) (hb : b ≤ a) (_ha : a < 2 ^ 64) : sub64 a b = a - b := by
  unfold sub64
  rw [if_pos hb]

theorem sub64_zero_one : sub64 0 1 = 2 ^ 64 - 1 := by decide

theorem add64_eq (a b : Nat) (h : a + b < 2 ^ 64) : add64 a b = a + b := by
  unfold add64
  exact Nat.mod_eq_of_lt h

theorem shl64_one (s : Nat) (h : s < 64) : shl64 1 s = 2 ^ s := by
  unfold shl64
  rw [if_pos h, one_mul]
  exact Nat.mod_eq_of_lt (Nat.pow_lt_pow_right (by norm_num) h)

theorem shl64_big (x s : Nat) (h : 64 ≤ s) : shl64 x s = 0 := by
  unfold shl64
  rw [if_neg (by omega)]

theorem bitLen_spec (k : Nat) : ∀ x : Nat, x < 2 ^ k →
    x < 2 ^ bitLen k x ∧ (x ≠ 0 → 2 ^ (bitLen k x - 1) ≤ x) ∧ bitLen k x ≤ k := by
  induction k with
  | zero =>
    intro x hx
    simp at hx
    subst hx
    simp [bitLen]
  | succ k ih =>
    intro x hx
    unfold bitLen
    by_cases h0 : x = 0
    · simp [h0]
    · rw [if_neg h0]
      have hx2 : x / 2 < 2 ^ k := by
        rw [Nat.div_lt_iff_lt_mul (by norm_num)]
        rw [pow_succ] at hx
        exact hx
      obtain ⟨h1, h2, h3⟩ := ih (x / 2) hx2
      refine ⟨?_, ?_, by omega⟩
      · rw [pow_succ]
        omega
      · intro _
        simp only [Nat.add_sub_cancel]
        by_cases hz : x / 2 = 0
        · have : bitLen k (x / 2) = 0 := by
            rw [hz]
            cases k <;> simp [bitLen]
          rw [this]
          simp
          omega
        · have h2' := h2 hz
          have hpos : 0 < bitLen k (x / 2) := by
            rcases Nat.eq_zero_or_pos (bitLen k (x / 2)) with h | h
            · rw [h] at h1
              simp at h1
              omega
            · exact h
          have : bitLen k (x / 2) = (bitLen k (x / 2) - 1) + 1 := by omega
          rw [this, pow_succ]
          omega

theorem len64_lt (x : Nat) (hx : x < 2 ^ 64) : x < 2 ^ len64 x :=
  (bitLen_spec 64 x hx).1

theorem len64_le (x : Nat) (hx : x < 2 ^ 64) (h0 : x ≠ 0) : 2 ^ (len64 x - 1) ≤ x :=
  (bitLen_spec 64 x hx).2.1 h0

theorem len64_le_64 (x : Nat) (hx : x < 2 ^ 64) : len64 x ≤ 64 :=
  (bitLen_spec 64 x hx).2.2


/-! ## `splitCoeffs` -/

theorem setIdx_of_lt {β : Type} (l : List β) (i : Nat) (v : β) (h : i < l.length) :
    setIdx l i v = .ok (l.set i v) := by
  simp [setIdx, h]

theorem copyLoop (coeffs : List Cplx) (g : Nat → Nat) (d : Nat) :
    ∀ (k i : Nat) (r : List Cplx), (∀ j, i ≤ j → j < i + k → g j = j - d) → d ≤ i →
      i + k ≤ coeffs.length → i + k - d ≤ r.length →
      ∃ r', forRange (fun i r => do
          let v ← getIdx coeffs i
          setIdx r (g i) v) i k r = .ok r' ∧ r'.length = r.length ∧
        ∀ j, r'[j]? = if i - d ≤ j ∧ j < i + k - d then coeffs[j + d]? else r[j]? := by
  intro k
  induction k with
  | zero =>
    intro i r _ _ _ _
    refine ⟨r, rfl, rfl, ?_⟩
    intro j
    rw [if_neg (by omega)]
  | succ k ih =>
    intro i r hg hd hlen hr
    have hi : i < coeffs.length := by omega
    have hgi : g i = i - d := hg i (le_refl _) (by omega)
    have hlt : i - d < r.length := by omega
    obtain ⟨r', h1, h2, h3⟩ := ih (i + 1) (r.set (i - d) coeffs[i])
      (fun j hj1 hj2 => hg j (by omega) (by omega)) (by omega) (by omega)
      (by rw [List.length_set]; omega)
    refine ⟨r', ?_, ?_, ?_⟩
    · simp only [forRange, getIdx_of_lt coeffs i hi, bind_ok_eq, hgi, setIdx_of_lt _ _ _ hlt]
      exact h1
    · rw [h2, List.length_set]
    · intro j
      rw [h3 j, List.getElem?_set]
      by_cases hj : i - d = j
      · have hjd : j + d = i := by omega
        rw [if_pos hj, if_pos hlt]
        by_cases hk : i + 1 - d ≤ j ∧ j < i + 1 + k - d
        · omega
        · rw [if_neg hk, if_pos (by omega), hjd, List.getElem?_eq_getElem hi]
      · rw [if_neg hj]
        by_cases hk : i + 1 - d ≤ j ∧ j < i + 1 + k - d
        · rw [if_pos hk, if_pos (by omega)]
        · rw [if_neg hk, if_neg (by omega)]

theorem makeSlice_of_lt (n : Nat) (h : n < 2 ^ 63) :
    makeSlice n = .ok (List.replicate n (0 : Cplx)) := by
  unfold makeSlice
  rw [if_pos h]

theorem makeSlice_of_ge (n : Nat) (h : 2 ^ 63 ≤ n) : makeSlice n = .error .makeSliceLen := by
  unfold makeSlice
  rw [if_neg (by omega)]

/-- The outcome of `splitCoeffs` on in-range arguments: the two parts, unless
one of the two `make` calls is asked for `2^63` entries or more. -/
theorem splitCoeffs_cases (coeffs : List Cplx) (d maxDegree : Nat) (hd : d ≤ maxDegree)
    (hm : maxDegree < coeffs.length) (hlen : coeffs.length < 2 ^ 64) :
    splitCoeffs coeffs d maxDegree
      = if d < 2 ^ 63 ∧ maxDegree - d + 1 < 2 ^ 63 then
          .ok ((coeffs.drop d).take (maxDegree - d + 1), coeffs.take d)
        else .error .makeSliceLen := by
  unfold splitCoeffs
  by_cases hd63 : d < 2 ^ 63
  · rw [makeSlice_of_lt d hd63, bind_ok_eq]
    obtain ⟨r, hr1, hr2, hr3⟩ := copyLoop coeffs (fun i => i) 0 d 0 (List.replicate d 0)
      (fun j _ _ => rfl) (le_refl _) (by omega) (by simp)
    have hr : r = coeffs.take d := by
      apply List.ext_getElem?
      intro j
      rw [hr3 j, List.getElem?_take, List.getElem?_replicate]
      by_cases hj : j < d
      · rw [if_pos (by omega), if_pos hj]
        rfl
      · rw [if_neg (by omega), if_neg hj, if_neg hj]
    rw [hr1]
    simp only [bind_ok_eq]
    have hsub : sub64 maxDegree d = maxDegree - d := sub64_eq _ _ hd (by omega)
    have hsz : add64 (sub64 maxDegree d) 1 = maxDegree - d + 1 := by
      rw [hsub]
      exact add64_eq _ _ (by omega)
    have hst : add64 d 1 = d + 1 := add64_eq _ _ (by omega)
    have hen : add64 maxDegree 1 = maxDegree + 1 := add64_eq _ _ (by omega)
    rw [hsz, hst, hen]
    by_cases hq63 : maxDegree - d + 1 < 2 ^ 63
    · rw [if_pos ⟨hd63, hq63⟩, makeSlice_of_lt _ hq63, bind_ok_eq,
        getIdx_of_lt coeffs d (by omega)]
      rw [bind_ok_eq, setIdx_of_lt _ _ _ (by rw [List.length_replicate]; omega), bind_ok_eq]
      obtain ⟨q, hq1, hq2, hq3⟩ := copyLoop coeffs (fun i => sub64 i d) d
        (maxDegree + 1 - (d + 1))
        (d + 1) ((List.replicate (maxDegree - d + 1) (0 : Cplx)).set 0 coeffs[d])
        (fun j hj1 hj2 => sub64_eq _ _ (by omega) (by omega)) (by omega) (by omega)
        (by rw [List.length_set, List.length_replicate]; omega)
      rw [hq1]
      simp only [bind_ok_eq]
      have hq : q = (coeffs.drop d).take (maxDegree - d + 1) := by
        apply List.ext_getElem?
        intro j
        rw [hq3 j, List.getElem?_take, List.getElem?_drop, List.getElem?_set,
          List.getElem?_replicate, List.length_replicate]
        by_cases hj : j < maxDegree - d + 1
        · rw [if_pos hj]
          by_cases hj0 : j = 0
          · subst hj0
            have hdl : d < coeffs.length := by omega
            simp [List.getElem?_eq_getElem hdl]
          · rw [if_pos (by omega), if_pos hj, Nat.add_comm]
        · have hj0 : ¬ (0 = j) := by omega
          simp [hj, hj0]
          omega
      rw [hq, hr]
    · rw [if_neg (fun h => hq63 h.2), makeSlice_of_ge _ (by omega), bind_error_eq]
  · rw [if_neg (fun h => hd63 h.1), makeSlice_of_ge _ (by omega), bind_error_eq]

theorem splitCoeffs_eq (coeffs : List Cplx) (d maxDegree : Nat) (hd : d ≤ maxDegree)
    (hm : maxDegree < coeffs.length) (hlen : coeffs.length < 2 ^ 63) :
    splitCoeffs coeffs d maxDegree
      = .ok ((coeffs.drop d).take (maxDegree - d + 1), coeffs.take d) := by
  rw [splitCoeffs_cases coeffs d maxDegree hd hm (by omega), if_pos ⟨by omega, by omega⟩]

theorem polyEval_append (a b : List Cplx) (x : Cplx) :
    polyEval (a ++ b) x = polyEval a x + x ^ a.length * polyEval b x := by
  unfold polyEval
  rw [List.length_append, Finset.sum_range_add, Finset.mul_sum]
  congr 1
  · apply Finset.sum_congr rfl
    intro i hi
    rw [Finset.mem_range] at hi
    rw [List.getD_append _ _ _ _ hi]
  · apply Finset.sum_congr rfl
    intro i _
    rw [List.getD_append_right _ _ _ _ (by omega), Nat.add_sub_cancel_left, pow_add]
    ring

/-- C9. For `d ≤ maxDegree < len(coeffs)`, `splitCoeffs(coeffs, d, maxDegree)`
returns a low part `r` of length `d` with `r[i] = coeffs[i]` and a high part `q`
of length `maxDegree - d + 1` with `q[j] = coeffs[d + j]`, so that the polynomial
with coefficients `coeffs[0..maxDegree]` equals `q(x) * x^d + r(x)` for every `x`. -/
theorem splitCoeffs_quotient_remainder (coeffs : List Cplx) (d maxDegree : Nat)
    (hd : d ≤ maxDegree) (hm : maxDegree < coeffs.length) (hlen : coeffs.length < 2 ^ 63) :
    ∃ q r, splitCoeffs coeffs d maxDegree = .ok (q, r) ∧
      r.length = d ∧ (∀ i, i < d → r[i]? = coeffs[i]?) ∧
      q.length = maxDegree - d + 1 ∧ (∀ j, j < maxDegree - d + 1 → q[j]? = coeffs[d + j]?) ∧
      q[0]? = coeffs[d]? ∧
      ∀ x, polyEval (coeffs.take (maxDegree + 1)) x = polyEval q x * x ^ d + polyEval r x := by
  refine ⟨(coeffs.drop d).take (maxDegree - d + 1), coeffs.take d,
    splitCoeffs_eq coeffs d maxDegree hd hm (by omega), ?_, ?_, ?_, ?_, ?_, ?_⟩
  · rw [List.length_take]
    omega
  · intro i hi
    rw [List.getElem?_take, if_pos hi]
  · rw [List.length_take, List.length_drop]
    omega
  · intro j hj
    rw [List.getElem?_take, if_pos hj, List.getElem?_drop]
  · rw [List.getElem?_take, if_pos (Nat.succ_pos _), List.getElem?_drop]
    rfl
  · intro x
    have hsplit : coeffs.take (maxDegree + 1)
        = coeffs.take d ++ (coeffs.drop d).take (maxDegree - d + 1) := by
      have h1 : maxDegree + 1 = d + (maxDegree - d + 1) := by omega
      rw [h1, List.take_add]
    rw [hsplit, polyEval_append, List.length_take, Nat.min_eq_left (by omega)]
    ring

theorem splitCoeffs_quotient_remainder_witness :
    ∃ q r, splitCoeffs [1, 2, 3, 4, 5] 2 3 = .ok (q, r) ∧
      r.length = 2 ∧ (∀ i, i < 2 → r[i]? = ([1, 2, 3, 4, 5] : List Cplx)[i]?) ∧
      q.length = 3 - 2 + 1 ∧
      (∀ j, j < 3 - 2 + 1 → q[j]? = ([1, 2, 3, 4, 5] : List Cplx)[2 + j]?) ∧
      q[0]? = ([1, 2, 3, 4, 5] : List Cplx)[2]? ∧
      ∀ x, polyEval (([1, 2, 3, 4, 5] : List Cplx).take (3 + 1)) x
        = polyEval q x * x ^ 2 + polyEval r x :=
  splitCoeffs_quotient_remainder [1, 2, 3, 4, 5] 2 3 (by decide) (by decide) (by norm_num)

/-! ## `convertCoeffs` -/

theorem convertCoeffs_complexes (l : List Cplx) (hl : l ≠ []) (hlen : l.length < 2 ^ 64) :
    convertCoeffs (.complexes l) = .ok (l.length - 1, l) := by
  have hpos : 0 < l.length := List.length_pos.mpr hl
  simp only [convertCoeffs, List.map_id', Nat.mod_eq_of_lt hlen]
  rw [sub64_eq _ _ hpos hlen]

theorem convertCoeffs_floats (l : List ℚ) (hl : l ≠ []) (hlen : l.length < 2 ^ 64) :
    convertCoeffs (.floats l) = .ok (l.length - 1, l.map (fun r => (⟨r, 0⟩ : Cplx))) := by
  have hpos : 0 < l.length := List.length_pos.mpr hl
  simp only [convertCoeffs, List.length_map, Nat.mod_eq_of_lt hlen]
  rw [sub64_eq _ _ hpos hlen]

/-- C10. For a non-empty sequence of complex numbers or of real numbers,
`convertCoeffs` returns `degree = length - 1` and a complex sequence of the same
length and order whose `i`-th element is the `i`-th input (imaginary part 0 for
real input); for an argument of any other type it fails instead of returning. -/
theorem convertCoeffs_normalizes (cs : List Cplx) (rs : List ℚ) (hcs : cs ≠ []) (hrs : rs ≠ [])
    (hclen : cs.length < 2 ^ 63) (hrlen : rs.length < 2 ^ 63) :
    convertCoeffs (.complexes cs) = .ok (cs.length - 1, cs) ∧
    (∃ out, convertCoeffs (.floats rs) = .ok (rs.length - 1, out) ∧
      out.length = rs.length ∧
      ∀ (i : Nat) (r : ℚ), rs[i]? = some r → out[i]? = some (⟨r, 0⟩ : Cplx)) ∧
    convertCoeffs .other = .error .unsupportedType := by
  refine ⟨convertCoeffs_complexes cs hcs (by omega),
    ⟨rs.map (fun r => (⟨r, 0⟩ : Cplx)), convertCoeffs_floats rs hrs (by omega), ?_, ?_⟩, rfl⟩
  · rw [List.length_map]
  · intro i r hr
    rw [List.getElem?_map, hr]
    rfl

theorem convertCoeffs_normalizes_witness :
    convertCoeffs (.complexes [1, 2]) = .ok (([1, 2] : List Cplx).length - 1, [1, 2]) ∧
    (∃ out, convertCoeffs (.floats [3, 4, 5]) = .ok (([3, 4, 5] : List ℚ).length - 1, out) ∧
      out.length = ([3, 4, 5] : List ℚ).length ∧
      ∀ (i : Nat) (r : ℚ), ([3, 4, 5] : List ℚ)[i]? = some r → out[i]? = some (⟨r, 0⟩ : Cplx)) ∧
    convertCoeffs .other = .error .unsupportedType :=
  convertCoeffs_normalizes [1, 2] [3, 4, 5] (by simp) (by simp) (by norm_num) (by norm_num)

/-! ## The map `C` -/

theorem Basis.get?_filter_ne {α : Type} (C : Basis α) (k j : Nat) (h : j ≠ k) :
    Basis.get? (C.filter (fun p => p.1 != k)) j = Basis.get? C j := by
  induction C with
  | nil => rfl
  | cons p C ih =>
    obtain ⟨a, v⟩ := p
    unfold Basis.get? at ih ⊢
    by_cases hak : a = k
    · subst hak
      have hja : (j == a) = false := by simpa using h
      simp [List.filter_cons, List.lookup_cons, hja, ih]
    · have hne : (a != k) = true := by simpa using hak
      simp only [List.filter_cons, hne, if_true, List.lookup_cons]
      rw [ih]

theorem Basis.get?_filter_self {α : Type} (C : Basis α) (k : Nat) :
    Basis.get? (C.filter (fun p => p.1 != k)) k = none := by
  induction C with
  | nil => rfl
  | cons p C ih =>
    obtain ⟨a, v⟩ := p
    unfold Basis.get? at ih ⊢
    by_cases hak : a = k
    · subst hak
      simp [List.filter_cons, ih]
    · have hne : (a != k) = true := by simpa using hak
      have hka : (k == a) = false := by simpa using fun h : k = a => hak h.symm
      simp only [List.filter_cons, hne, if_true, List.lookup_cons, hka]
      exact ih

theorem Basis.get?_set {α : Type} (C : Basis α) (k j : Nat) (v : α) :
    Basis.get? (Basis.set C k v) j = if j = k then some v else Basis.get? C j := by
  by_cases h : j = k
  · subst h
    simp [Basis.set, Basis.get?, List.lookup_cons]
  · rw [if_neg h]
    have hjk : (j == k) = false := by simpa using h
    have := Basis.get?_filter_ne C k j h
    unfold Basis.get? at this ⊢
    simp only [Basis.set, List.lookup_cons, hjk]
    exact this

theorem Basis.filter_of_get?_none {α : Type} (C : Basis α) (k : Nat)
    (h : Basis.get? C k = none) : C.filter (fun p => p.1 != k) = C := by
  induction C with
  | nil => rfl
  | cons p C ih =>
    obtain ⟨a, v⟩ := p
    unfold Basis.get? at ih h
    by_cases hak : k = a
    · subst hak
      simp [List.lookup_cons] at h
    · have hka : (k == a) = false := by simpa using hak
      have hne : (a != k) = true := by simpa using fun h : a = k => hak h.symm
      simp only [List.lookup_cons, hka] at h
      simp only [List.filter_cons, hne, if_true]
      rw [ih h]

theorem Basis.length_set {α : Type} (C : Basis α) (k : Nat) (v : α)
    (h : Basis.get? C k = none) : (Basis.set C k v).length = C.length + 1 := by
  simp [Basis.set, Basis.filter_of_get?_none C k h]

theorem Basis.get?_none_of_not_mem {α : Type} (C : Basis α) (k : Nat)
    (h : k ∉ C.map Prod.fst) : Basis.get? C k = none := by
  induction C with
  | nil => rfl
  | cons p C ih =>
    obtain ⟨a, v⟩ := p
    simp only [List.map_cons, List.mem_cons, not_or] at h
    have hka : (k == a) = false := by simpa using h.1
    unfold Basis.get? at ih ⊢
    simp only [List.lookup_cons, hka]
    exact ih h.2

theorem Basis.not_mem_of_get?_none {α : Type} (C : Basis α) (k : Nat)
    (h : Basis.get? C k = none) : k ∉ C.map Prod.fst := by
  induction C with
  | nil => simp
  | cons p C ih =>
    obtain ⟨a, v⟩ := p
    unfold Basis.get? at ih h
    by_cases hak : k = a
    · subst hak
      simp [List.lookup_cons] at h
    · have hka : (k == a) = false := by simpa using hak
      simp only [List.lookup_cons, hka] at h
      simp only [List.map_cons, List.mem_cons, not_or]
      exact ⟨hak, ih h⟩

theorem Basis.nodup_set {α : Type} (C : Basis α) (k : Nat) (v : α)
    (hC : (C.map Prod.fst).Nodup) (h : Basis.get? C k = none) :
    ((Basis.set C k v).map Prod.fst).Nodup := by
  simp only [Basis.set, Basis.filter_of_get?_none C k h, List.map_cons, List.nodup_cons]
  exact ⟨Basis.not_mem_of_get?_none C k h, hC⟩

theorem Basis.fetch_of_get? {α : Type} (C : Basis α) (k : Nat) (v : α)
    (h : Basis.get? C k = some v) : Basis.fetch C k = .ok v := by
  simp [Basis.fetch, h]

/-! ## `ceilHalf` -/

theorem ceilHalf_small (n : Nat) (h : n < 2 ^ 53) : ceilHalf n = (n + 1) / 2 := by
  unfold ceilHalf f64round
  rw [if_pos h]

theorem ceilHalf_pow : ∀ i, i < 64 → 1 ≤ i → ceilHalf (2 ^ i) = 2 ^ (i - 1) := by
  decide

theorem f64round_bounds (n : Nat) (h53 : 2 ^ 53 ≤ n) (h64 : n < 2 ^ 64) :
    n ≤ f64round n + 2048 ∧ f64round n ≤ n + 2048 := by
  have hlen1 : len64 n ≤ 64 := len64_le_64 n h64
  have he : 2 ^ (len64 n - 53) ≤ 2048 := by
    calc 2 ^ (len64 n - 53) ≤ 2 ^ 11 := Nat.pow_le_pow_right (by norm_num) (by omega)
      _ = 2048 := by norm_num
  have hpos : 0 < 2 ^ (len64 n - 53) := Nat.pow_pos (by norm_num)
  have hdm := Nat.div_add_mod n (2 ^ (len64 n - 53))
  have hml := Nat.mod_lt n hpos
  have hmul : (n / 2 ^ (len64 n - 53) + 1) * 2 ^ (len64 n - 53)
      = n / 2 ^ (len64 n - 53) * 2 ^ (len64 n - 53) + 2 ^ (len64 n - 53) := by ring
  have hcomm : 2 ^ (len64 n - 53) * (n / 2 ^ (len64 n - 53))
      = n / 2 ^ (len64 n - 53) * 2 ^ (len64 n - 53) := Nat.mul_comm _ _
  unfold f64round
  rw [if_neg (by omega)]
  simp only []
  split_ifs <;> omega

theorem ceilHalf_lt (n : Nat) (h2 : 2 ≤ n) (h64 : n < 2 ^ 64) :
    1 ≤ ceilHalf n ∧ ceilHalf n < n := by
  by_cases h : n < 2 ^ 53
  · rw [ceilHalf_small n h]
    omega
  · have hb := f64round_bounds n (by omega) h64
    unfold ceilHalf
    omega

theorem half_lt (n : Nat) (h2 : 2 ≤ n) : 1 ≤ n >>> 1 ∧ n >>> 1 < n := by
  rw [Nat.shiftRight_eq_div_pow]
  omega

/-! ## `computePowerBasis` -/

theorem computePowerBasis_present {α : Type} (ops : Ops α) (fuel n : Nat) (s : PowerBasis α)
    (v : α) (h : s.C.get? n = some v) : computePowerBasis ops (fuel + 1) n s = .ok s := by
  simp [computePowerBasis, h]

theorem computePowerBasis_absent {α : Type} (ops : Ops α) (fuel n : Nat) (s : PowerBasis α)
    (h : s.C.get? n = none) :
    computePowerBasis ops (fuel + 1) n s =
      (computePowerBasis ops fuel (ceilHalf n) s >>= fun s1 =>
        computePowerBasis ops fuel (n >>> 1) s1 >>= fun s2 =>
          s2.C.fetch (ceilHalf n) >>= fun ca =>
            s2.C.fetch (n >>> 1) >>= fun cb =>
              liftOp (ops.mulRelin ca cb) >>= fun cn =>
                liftOp (ops.rescale cn) >>= fun cn1 =>
                  .ok { C := s2.C.set n cn1, muls := s2.muls + 1 }) := by
  simp only [computePowerBasis, h]

/-- The working lemma for `computePowerBasis`.  `Inv k v` is a property of the
entry `v` stored under `k` that one multiply-and-rescale step carries from the
two operands to the product; `Good` singles out the arguments for which it
does.  A call either returns a basis that extends the old one by entries with
that property, or stops with the failure of a primitive. -/
theorem computePowerBasis_spec {α : Type} (ops : Ops α) (Inv : Nat → α → Prop)
    (Good : Nat → Prop)
    (hclose : ∀ n, 2 ≤ n → Good n → Good (ceilHalf n) ∧ Good (n >>> 1))
    (hstep : ∀ n u v w w1, 2 ≤ n → Good n → Inv (ceilHalf n) u → Inv (n >>> 1) v →
      ops.mulRelin u v = .ok w → ops.rescale w = .ok w1 → Inv n w1)
    (Fail : Nat → OpErr → Prop)
    (hfail : ∀ n u v oe, 2 ≤ n → Good n → Inv (ceilHalf n) u → Inv (n >>> 1) v →
      (ops.mulRelin u v = .error oe ∨
        ∃ w, ops.mulRelin u v = .ok w ∧ ops.rescale w = .error oe) → Fail n oe) :
    ∀ (fuel n : Nat) (s : PowerBasis α), 1 ≤ n → n ≤ fuel → n < 2 ^ 64 → Good n →
      (∃ v, s.C.get? 1 = some v) → (∀ k v, s.C.get? k = some v → Inv k v) →
      (s.C.map Prod.fst).Nodup →
      (∃ s1, computePowerBasis ops fuel n s = .ok s1 ∧
        (∃ v, s1.C.get? n = some v) ∧
        (∀ k v, s.C.get? k = some v → s1.C.get? k = some v) ∧
        (∀ k v, s1.C.get? k = some v → Inv k v) ∧
        (s1.C.map Prod.fst).Nodup ∧
        s1.C.length + s.muls = s.C.length + s1.muls ∧
        (∀ k, s1.C.get? k ≠ none → s.C.get? k ≠ none ∨ k ≤ n)) ∨
      (∃ oe, computePowerBasis ops fuel n s = .error (.op oe) ∧ ∃ m, m ≤ n ∧ Fail m oe) := by
  intro fuel
  induction fuel with
  | zero =>
    intro n s hn1 hnf
    omega
  | succ fuel ih =>
    intro n s hn1 hnf hn64 hG h1 hInv hnd
    cases hget : s.C.get? n with
    | some v =>
      left
      exact ⟨s, computePowerBasis_present ops fuel n s v hget, ⟨v, hget⟩, fun _ _ h => h,
        hInv, hnd, rfl, fun k hk => Or.inl hk⟩
    | none =>
      have hn2 : 2 ≤ n := by
        obtain ⟨v, hv⟩ := h1
        by_contra hlt
        have h1n : n = 1 := by omega
        rw [h1n, hv] at hget
        cases hget
      obtain ⟨ha1, ha2⟩ := ceilHalf_lt n hn2 hn64
      obtain ⟨hb1, hb2⟩ := half_lt n hn2
      obtain ⟨hGa, hGb⟩ := hclose n hn2 hG
      rw [computePowerBasis_absent ops fuel n s hget]
      rcases ih (ceilHalf n) s ha1 (by omega) (by omega) hGa h1 hInv hnd with
        ⟨s1, e1, ⟨va, hva⟩, hpres1, hInv1, hnd1, hlen1, hnew1⟩ | ⟨oe, e1, m, hm, hf⟩
      · rw [e1, bind_ok_eq]
        obtain ⟨v1, hv1⟩ := h1
        rcases ih (n >>> 1) s1 hb1 (by omega) (by omega) hGb ⟨v1, hpres1 1 v1 hv1⟩ hInv1 hnd1 with
          ⟨s2, e2, ⟨vb, hvb⟩, hpres2, hInv2, hnd2, hlen2, hnew2⟩ | ⟨oe, e2, m, hm, hf⟩
        · rw [e2, bind_ok_eq, Basis.fetch_of_get? _ _ va (hpres2 _ _ hva), bind_ok_eq,
            Basis.fetch_of_get? _ _ vb hvb, bind_ok_eq]
          have hn_none : s2.C.get? n = none := by
            by_contra hne
            rcases hnew2 n hne with h | h
            · rcases hnew1 n h with h | h
              · exact h hget
              · omega
            · omega
          cases hm : ops.mulRelin va vb with
          | error oe =>
            right
            exact ⟨oe, rfl, n, le_refl _, hfail n va vb oe hn2 hG (hInv2 _ _ (hpres2 _ _ hva))
              (hInv2 _ _ hvb) (Or.inl hm)⟩
          | ok w =>
            cases hr : ops.rescale w with
            | error oe =>
              right
              exact ⟨oe, by simp [hr], n, le_refl _, hfail n va vb oe hn2 hG
                (hInv2 _ _ (hpres2 _ _ hva)) (hInv2 _ _ hvb) (Or.inr ⟨w, hm, hr⟩)⟩
            | ok w1 =>
              left
              refine ⟨{ C := s2.C.set n w1, muls := s2.muls + 1 }, by simp [hr], ?_, ?_, ?_, ?_,
                ?_, ?_⟩
              · exact ⟨w1, by simp [Basis.get?_set]⟩
              · intro k v hk
                have hk2 := hpres2 k v (hpres1 k v hk)
                have hkn : k ≠ n := by
                  intro h
                  rw [h, hn_none] at hk2
                  cases hk2
                simp only [Basis.get?_set, if_neg hkn]
                exact hk2
              · intro k v hk
                simp only [Basis.get?_set] at hk
                by_cases hkn : k = n
                · rw [if_pos hkn] at hk
                  have hvw : w1 = v := Option.some.inj hk
                  rw [hkn, ← hvw]
                  exact hstep n va vb w w1 hn2 hG (hInv2 _ _ (hpres2 _ _ hva)) (hInv2 _ _ hvb) hm hr
                · rw [if_neg hkn] at hk
                  exact hInv2 k v hk
              · exact Basis.nodup_set _ _ _ hnd2 hn_none
              · simp only [Basis.length_set _ _ _ hn_none]
                omega
              · intro k hk
                simp only [Basis.get?_set] at hk
                by_cases hkn : k = n
                · right
                  omega
                · rw [if_neg hkn] at hk
                  rcases hnew2 k hk with h | h
                  · rcases hnew1 k h with h | h
                    · exact Or.inl h
                    · right
                      omega
                  · right
                    omega
        · right
          exact ⟨oe, by rw [e2]; rfl, m, by omega, hf⟩
      · right
        exact ⟨oe, by rw [e1]; rfl, m, by omega, hf⟩

theorem seedBasis_get? {α : Type} (ct : α) (k : Nat) :
    (seedBasis ct).C.get? k = if k = 1 then some ct else none := by
  unfold seedBasis
  rw [Basis.get?_set]
  rfl

theorem seedBasis_nodup {α : Type} (ct : α) : ((seedBasis ct).C.map Prod.fst).Nodup := by
  simp [seedBasis, Basis.set]

theorem computePowerBasis_total {α : Type} (ops : Ops α)
    (hmul : ∀ u v, ∃ w, ops.mulRelin u v = .ok w) (hres : ∀ w, ∃ w1, ops.rescale w = .ok w1)
    (fuel n : Nat) (s : PowerBasis α) (hn1 : 1 ≤ n) (hnf : n ≤ fuel) (hn64 : n < 2 ^ 64)
    (h1 : ∃ v, s.C.get? 1 = some v) (hnd : (s.C.map Prod.fst).Nodup) :
    ∃ s1, computePowerBasis ops fuel n s = .ok s1 ∧
      (∃ v, s1.C.get? 1 = some v) ∧
      (∀ k v, s.C.get? k = some v → s1.C.get? k = some v) ∧
      (s1.C.map Prod.fst).Nodup ∧
      s1.C.length + s.muls = s.C.length + s1.muls := by
  rcases computePowerBasis_spec ops (fun _ _ => True) (fun _ => True)
      (fun _ _ _ => ⟨trivial, trivial⟩) (fun _ _ _ _ _ _ _ _ _ _ _ => trivial)
      (fun _ _ => False)
      (by
        intro m u v oe _ _ _ _ hf
        rcases hf with huv | ⟨w, _, hw⟩
        · obtain ⟨w, hw⟩ := hmul u v
          rw [hw] at huv
          cases huv
        · obtain ⟨w1, hw1⟩ := hres w
          rw [hw1] at hw
          cases hw)
      fuel n s hn1 hnf hn64 trivial h1 (fun _ _ _ => trivial) hnd with
    ⟨s1, e1, _, hpres, _, hnd1, hlen, _⟩ | ⟨oe, _, m, _, hf⟩
  · obtain ⟨v1, hv1⟩ := h1
    exact ⟨s1, e1, ⟨v1, hpres 1 v1 hv1⟩, hpres, hnd1, hlen⟩
  · exact absurd hf id

theorem computePowerBasisCalls_total {α : Type} (ops : Ops α)
    (hmul : ∀ u v, ∃ w, ops.mulRelin u v = .ok w) (hres : ∀ w, ∃ w1, ops.rescale w = .ok w1)
    (fuel : Nat) : ∀ (ns : List Nat) (s : PowerBasis α),
      (∀ n ∈ ns, 1 ≤ n ∧ n ≤ fuel ∧ n < 2 ^ 64) →
      (∃ v, s.C.get? 1 = some v) → (s.C.map Prod.fst).Nodup →
      ∃ s1, computePowerBasisCalls ops fuel ns s = .ok s1 ∧
        (∃ v, s1.C.get? 1 = some v) ∧ (s1.C.map Prod.fst).Nodup ∧
        s1.C.length + s.muls = s.C.length + s1.muls := by
  intro ns
  induction ns with
  | nil =>
    intro s _ h1 hnd
    exact ⟨s, rfl, h1, hnd, rfl⟩
  | cons n ns ih =>
    intro s hns h1 hnd
    obtain ⟨hn1, hnf, hn64⟩ := hns n (List.mem_cons_self _ _)
    obtain ⟨s1, e1, h11, _, hnd1, hlen1⟩ :=
      computePowerBasis_total ops hmul hres fuel n s hn1 hnf hn64 h1 hnd
    obtain ⟨s2, e2, h12, hnd2, hlen2⟩ :=
      ih s1 (fun m hm => hns m (List.mem_cons_of_mem _ hm)) h11 hnd1
    refine ⟨s2, ?_, h12, hnd2, by omega⟩
    simp only [computePowerBasisCalls, e1]
    exact e2

/-- C8. With primitives that do not fail (a counting stub), any sequence of
`computePowerBasis` calls with arguments at least 1 on a map that holds only
exponent 1 returns a map with one pair per key in which the number of
`MulRelinNew` calls made equals the number of entries minus 1; and one more call
returns a map in which every entry present before is still there, unchanged. -/
theorem computePowerBasis_once_per_exponent {α : Type} (ops : Ops α)
    (hmul : ∀ u v, ∃ w, ops.mulRelin u v = .ok w) (hres : ∀ w, ∃ w1, ops.rescale w = .ok w1)
    (fuel : Nat) (ct : α) (ns : List Nat) (hns : ∀ n ∈ ns, 1 ≤ n ∧ n ≤ fuel ∧ n < 2 ^ 64) :
    ∃ s, computePowerBasisCalls ops fuel ns (seedBasis ct) = .ok s ∧
      (s.C.map Prod.fst).Nodup ∧ s.muls = s.C.length - 1 ∧
      ∀ n, 1 ≤ n → n ≤ fuel → n < 2 ^ 64 →
        ∃ s1, computePowerBasis ops fuel n s = .ok s1 ∧
          (∀ k v, s.C.get? k = some v → s1.C.get? k = some v) ∧
          (s1.C.map Prod.fst).Nodup ∧ s1.muls = s1.C.length - 1 := by
  obtain ⟨s, e, h1, hnd, hlen⟩ := computePowerBasisCalls_total ops hmul hres fuel ns
    (seedBasis ct) hns ⟨ct, by simp [seedBasis_get?]⟩ (seedBasis_nodup ct)
  have hseed : (seedBasis ct).C.length = 1 ∧ (seedBasis ct).muls = 0 := by
    simp [seedBasis, Basis.set]
  refine ⟨s, e, hnd, by omega, ?_⟩
  intro n hn1 hnf hn64
  obtain ⟨s1, e1, _, hpres, hnd1, hlen1⟩ :=
    computePowerBasis_total ops hmul hres fuel n s hn1 hnf hn64 h1 hnd
  exact ⟨s1, e1, hpres, hnd1, by omega⟩

theorem computePowerBasis_once_per_exponent_witness :
    ∃ s, computePowerBasisCalls plainOps 16 [5, 3, 8, 5] (seedBasis (2 : Cplx)) = .ok s ∧
      (s.C.map Prod.fst).Nodup ∧ s.muls = s.C.length - 1 ∧
      ∀ n, 1 ≤ n → n ≤ 16 → n < 2 ^ 64 →
        ∃ s1, computePowerBasis plainOps 16 n s = .ok s1 ∧
          (∀ k v, s.C.get? k = some v → s1.C.get? k = some v) ∧
          (s1.C.map Prod.fst).Nodup ∧ s1.muls = s1.C.length - 1 :=
  computePowerBasis_once_per_exponent plainOps (fun u v => ⟨u * v, rfl⟩) (fun w => ⟨w, rfl⟩)
    16 2 [5, 3, 8, 5] (by decide)

/-- A loop of `computePowerBasis` calls with arguments `f i`, `i = start, ...`:
the lemma `computePowerBasis_spec` carried through the loop. -/
theorem forRange_computePowerBasis {α : Type} (ops : Ops α) (Inv : Nat → α → Prop)
    (Good : Nat → Prop)
    (hclose : ∀ n, 2 ≤ n → Good n → Good (ceilHalf n) ∧ Good (n >>> 1))
    (hstep : ∀ n u v w w1, 2 ≤ n → Good n → Inv (ceilHalf n) u → Inv (n >>> 1) v →
      ops.mulRelin u v = .ok w → ops.rescale w = .ok w1 → Inv n w1)
    (Fail : Nat → OpErr → Prop)
    (hfail : ∀ n u v oe, 2 ≤ n → Good n → Inv (ceilHalf n) u → Inv (n >>> 1) v →
      (ops.mulRelin u v = .error oe ∨
        ∃ w, ops.mulRelin u v = .ok w ∧ ops.rescale w = .error oe) → Fail n oe)
    (fuel : Nat) (f : Nat → Nat) :
    ∀ (k i : Nat) (s : PowerBasis α),
      (∀ j, i ≤ j → j < i + k → 1 ≤ f j ∧ f j ≤ fuel ∧ f j < 2 ^ 64 ∧ Good (f j)) →
      (∃ v, s.C.get? 1 = some v) → (∀ k v, s.C.get? k = some v → Inv k v) →
      (s.C.map Prod.fst).Nodup →
      (∃ s1, forRange (fun i s => computePowerBasis ops fuel (f i) s) i k s = .ok s1 ∧
        (∀ j, i ≤ j → j < i + k → ∃ v, s1.C.get? (f j) = some v) ∧
        (∀ k v, s.C.get? k = some v → s1.C.get? k = some v) ∧
        (∀ k v, s1.C.get? k = some v → Inv k v) ∧
        (s1.C.map Prod.fst).Nodup ∧
        s1.C.length + s.muls = s.C.length + s1.muls) ∨
      (∃ oe, forRange (fun i s => computePowerBasis ops fuel (f i) s) i k s = .error (.op oe) ∧
        ∃ j m, i ≤ j ∧ j < i + k ∧ m ≤ f j ∧ Fail m oe) := by
  intro k
  induction k with
  | zero =>
    intro i s _ _ hInv hnd
    left
    exact ⟨s, rfl, fun j h1 h2 => by omega, fun _ _ h => h, hInv, hnd, rfl⟩
  | succ k ih =>
    intro i s hf h1 hInv hnd
    obtain ⟨hf1, hf2, hf3, hf4⟩ := hf i (le_refl _) (by omega)
    rcases computePowerBasis_spec ops Inv Good hclose hstep Fail hfail fuel (f i) s hf1 hf2 hf3
        hf4 h1 hInv hnd with
      ⟨s1, e1, hp1, hpres1, hInv1, hnd1, hlen1, _⟩ | ⟨oe, e1, m, hm, hfl⟩
    · obtain ⟨v1, hv1⟩ := h1
      rcases ih (i + 1) s1 (fun j hj1 hj2 => hf j (by omega) (by omega))
          ⟨v1, hpres1 1 v1 hv1⟩ hInv1 hnd1 with
        ⟨s2, e2, hp2, hpres2, hInv2, hnd2, hlen2⟩ | ⟨oe, e2, j, m, hj1, hj2, hm, hfl⟩
      · left
        refine ⟨s2, ?_, ?_, fun k v h => hpres2 k v (hpres1 k v h), hInv2, hnd2, by omega⟩
        · simp only [forRange, e1]
          exact e2
        · intro j hj1 hj2
          by_cases hji : j = i
          · obtain ⟨v, hv⟩ := hp1
            exact ⟨v, by rw [hji]; exact hpres2 _ _ hv⟩
          · exact hp2 j (by omega) (by omega)
      · right
        refine ⟨oe, ?_, j, m, by omega, by omega, hm, hfl⟩
        simp only [forRange, e1]
        exact e2
    · right
      refine ⟨oe, ?_, i, m, le_refl _, by omega, hm, hfl⟩
      simp only [forRange, e1]

/-- The two loops of `EvaluatePolyFast` / `EvaluatePolyEco`: either a primitive
fails, or the map holds every exponent `1 ..  2^L` and every `2^i` with
`L < i < M`, each entry with the property `Inv`. -/
theorem buildPowerBasis_spec {α : Type} (ops : Ops α) (Inv : Nat → α → Prop)
    (Good : Nat → Prop)
    (hclose : ∀ n, 2 ≤ n → Good n → Good (ceilHalf n) ∧ Good (n >>> 1))
    (hstep : ∀ n u v w w1, 2 ≤ n → Good n → Inv (ceilHalf n) u → Inv (n >>> 1) v →
      ops.mulRelin u v = .ok w → ops.rescale w = .ok w1 → Inv n w1)
    (Fail : Nat → OpErr → Prop)
    (hfail : ∀ n u v oe, 2 ≤ n → Good n → Inv (ceilHalf n) u → Inv (n >>> 1) v →
      (ops.mulRelin u v = .error oe ∨
        ∃ w, ops.mulRelin u v = .ok w ∧ ops.rescale w = .error oe) → Fail n oe)
    (fuel : Nat) (ct : α) (L M : Nat) (hfuel : 2 ^ 64 ≤ fuel) (hL : L < 64) (hM : M ≤ 64)
    (hct : Inv 1 ct) (hdense : ∀ n, 2 ≤ n → n ≤ 2 ^ L → Good n)
    (hsparse : ∀ i, L < i → i < M → Good (2 ^ i)) :
    (∃ s, buildPowerBasis ops fuel ct L M = .ok s ∧
      s.C.get? 1 = some ct ∧
      (∀ n, 1 ≤ n → n ≤ 2 ^ L → ∃ v, s.C.get? n = some v) ∧
      (∀ i, L < i → i < M → ∃ v, s.C.get? (2 ^ i) = some v) ∧
      (∀ k v, s.C.get? k = some v → Inv k v) ∧
      (s.C.map Prod.fst).Nodup ∧ s.C.length = s.muls + 1) ∨
    (∃ oe, buildPowerBasis ops fuel ct L M = .error (.op oe) ∧
      ∃ m, (m ≤ 2 ^ L ∨ ∃ i, L < i ∧ i < M ∧ m ≤ 2 ^ i) ∧ Fail m oe) := by
  have hLpow : shl64 1 L = 2 ^ L := shl64_one L hL
  have hLlt : 2 ^ L < 2 ^ 64 := Nat.pow_lt_pow_right (by norm_num) hL
  have hLpos : 0 < 2 ^ L := Nat.pow_pos (by norm_num)
  have hseed1 : (seedBasis ct).C.get? 1 = some ct := by simp [seedBasis_get?]
  have hseedInv : ∀ k v, (seedBasis ct).C.get? k = some v → Inv k v := by
    intro k v hk
    rw [seedBasis_get?] at hk
    by_cases h : k = 1
    · rw [if_pos h] at hk
      rw [h, ← Option.some.inj hk]
      exact hct
    · rw [if_neg h] at hk
      cases hk
  have hseedlen : (seedBasis ct).C.length = 1 ∧ (seedBasis ct).muls = 0 := by
    simp [seedBasis, Basis.set]
  unfold buildPowerBasis
  rw [hLpow]
  rcases forRange_computePowerBasis ops Inv Good hclose hstep Fail hfail fuel (fun i => i)
      (2 ^ L - 1) 2
      (seedBasis ct)
      (fun j hj1 hj2 => by
        dsimp only
        exact ⟨by omega, by omega, by omega, hdense j hj1 (by omega)⟩)
      ⟨ct, hseed1⟩ hseedInv (seedBasis_nodup ct) with
    ⟨s1, e1, hp1, hpres1, hInv1, hnd1, hlen1⟩ | ⟨oe, e1, j, m, hj1, hj2, hm, hfl⟩
  · rw [e1, bind_ok_eq]
    have hpow64 : ∀ i, i < M → 2 ^ i < 2 ^ 64 := fun i hi =>
      Nat.pow_lt_pow_right (by norm_num) (by omega)
    rcases forRange_computePowerBasis ops Inv Good hclose hstep Fail hfail fuel
        (fun i => shl64 1 i)
        (M - (L + 1)) (L + 1) s1
        (fun j hj1 hj2 => by
          have hj : j < M := by omega
          dsimp only
          rw [shl64_one j (by omega)]
          exact ⟨Nat.pow_pos (by norm_num), by have := hpow64 j hj; omega, hpow64 j hj,
            hsparse j (by omega) hj⟩)
        ⟨ct, hpres1 1 ct hseed1⟩ hInv1 hnd1 with
      ⟨s2, e2, hp2, hpres2, hInv2, hnd2, hlen2⟩ | ⟨oe, e2, j, m, hj1, hj2, hm, hfl⟩
    · left
      refine ⟨s2, e2, hpres2 1 ct (hpres1 1 ct hseed1), ?_, ?_, hInv2, hnd2, by omega⟩
      · intro n hn1 hn2
        by_cases h1 : n = 1
        · exact ⟨ct, by rw [h1]; exact hpres2 1 ct (hpres1 1 ct hseed1)⟩
        · obtain ⟨v, hv⟩ := hp1 n (by omega) (by omega)
          exact ⟨v, hpres2 _ _ hv⟩
      · intro i hi1 hi2
        obtain ⟨v, hv⟩ := hp2 i (by omega) (by omega)
        rw [shl64_one i (by omega)] at hv
        exact ⟨v, hv⟩
    · right
      rw [shl64_one j (by omega)] at hm
      exact ⟨oe, e2, m, Or.inr ⟨j, by omega, by omega, hm⟩, hfl⟩
  · right
    refine ⟨oe, ?_, m, Or.inl (by omega), hfl⟩
    rw [e1]
    rfl

/-! ## `recurse` -/

theorem shrinkM_spec (n : Nat) : ∀ M, M ≤ 64 → n ≤ 2 ^ M →
    shrinkM n M ≤ M ∧ n ≤ 2 ^ shrinkM n M ∧ (1 ≤ shrinkM n M → 2 ^ (shrinkM n M - 1) ≤ n) := by
  intro M
  induction M with
  | zero =>
    intro _ hn
    exact ⟨le_refl _, hn, fun h => by simp [shrinkM] at h⟩
  | succ m ih =>
    intro hM hn
    unfold shrinkM
    rw [shl64_one m (by omega)]
    by_cases h : n < 2 ^ m
    · rw [if_pos h]
      obtain ⟨h1, h2, h3⟩ := ih (by omega) (by omega)
      exact ⟨by omega, h2, h3⟩
    · rw [if_neg h]
      exact ⟨le_refl _, hn, fun _ => by simpa using Nat.le_of_not_lt h⟩

theorem shrinkM_facts (n L M : Nat) (hM : M ≤ 64) (hn : n ≤ 2 ^ M) (hL : 2 ^ L < n) :
    1 ≤ shrinkM n M ∧ L < shrinkM n M ∧ shrinkM n M ≤ M ∧
      2 ^ (shrinkM n M - 1) ≤ n ∧ n ≤ 2 * 2 ^ (shrinkM n M - 1) ∧
      0 < 2 ^ (shrinkM n M - 1) := by
  have hLpos : 0 < 2 ^ L := Nat.pow_pos (by norm_num)
  obtain ⟨hs1, hs2, hs3⟩ := shrinkM_spec n M hM hn
  have hM1 : 1 ≤ shrinkM n M := by
    by_contra h0
    have hz : shrinkM n M = 0 := by omega
    rw [hz] at hs2
    simp at hs2
    omega
  have hLM : L < shrinkM n M := by
    have : 2 ^ L < 2 ^ shrinkM n M := by omega
    exact (Nat.pow_lt_pow_iff_right (by norm_num)).mp this
  have hdbl : 2 ^ shrinkM n M = 2 * 2 ^ (shrinkM n M - 1) := by
    have : shrinkM n M = (shrinkM n M - 1) + 1 := by omega
    conv_lhs => rw [this, pow_succ]
    omega
  exact ⟨hM1, hLM, hs1, hs3 hM1, by omega, Nat.pow_pos (by norm_num)⟩

theorem recurse_base {α : Type} (ops : Ops α) (fuel n L M : Nat) (coeffs : List Cplx)
    (C : Basis α) (h : n ≤ shl64 1 L) :
    recurse ops (fuel + 1) n L M coeffs C = evaluatePolyFromPowerBasis ops coeffs C := by
  simp only [recurse, if_pos h]

theorem recurse_step {α : Type} (ops : Ops α) (fuel n L M : Nat) (coeffs : List Cplx)
    (C : Basis α) (h : ¬ n ≤ shl64 1 L) :
    recurse ops (fuel + 1) n L M coeffs C =
      (splitCoeffs coeffs (shl64 1 (sub64 (shrinkM n M) 1)) n >>= fun qr =>
        recurse ops fuel (sub64 n (shl64 1 (sub64 (shrinkM n M) 1))) L (sub64 (shrinkM n M) 1)
            qr.1 C >>= fun res =>
          recurse ops fuel (sub64 (shl64 1 (sub64 (shrinkM n M) 1)) 1) L (sub64 (shrinkM n M) 1)
              qr.2 C >>= fun tmp =>
            C.fetch (shl64 1 (sub64 (shrinkM n M) 1)) >>= fun cd =>
              liftOp (ops.mulRelin res cd) >>= fun w =>
                liftOp (ops.add w tmp) >>= fun w2 => liftOp (ops.rescale w2)) := by
  simp only [recurse, if_neg h]

/-- The working lemma for `recurse`.  `Out M coeffs r` describes an outcome `r`
(a result or a failure) of a call with parameter `M` on the coefficient list
`coeffs`.  If the base case has such an outcome and the combine step turns such
outcomes of the two sub-calls into such an outcome, then every call has one; in
particular a call does not run out of fuel, index a slice out of range or read
a missing map entry unless `Out` allows it. -/
theorem recurse_spec {α : Type} (ops : Ops α) (C : Basis α) (L M0 : Nat) (hL : L < 64)
    (hM0 : M0 ≤ 64) (Out : Nat → List Cplx → Except Err α → Prop)
    (hdense : ∃ v, C.get? (2 ^ L) = some v)
    (hsparse : ∀ i, L < i → i < M0 → ∃ v, C.get? (2 ^ i) = some v)
    (hbase : ∀ M coeffs, coeffs ≠ [] → coeffs.length ≤ 2 ^ L + 1 →
      Out M coeffs (evaluatePolyFromPowerBasis ops coeffs C))
    (hcomb : ∀ n M coeffs rH rL cd, M ≤ M0 → n ≤ 2 ^ M → 2 ^ L < n → coeffs.length = n + 1 →
      Out (shrinkM n M - 1) (coeffs.drop (2 ^ (shrinkM n M - 1))) rH →
      Out (shrinkM n M - 1) (coeffs.take (2 ^ (shrinkM n M - 1))) rL →
      C.get? (2 ^ (shrinkM n M - 1)) = some cd →
      Out M coeffs (rH >>= fun res => rL >>= fun tmp =>
        liftOp (ops.mulRelin res cd) >>= fun w =>
          liftOp (ops.add w tmp) >>= fun w2 => liftOp (ops.rescale w2))) :
    ∀ (fuel n M : Nat) (coeffs : List Cplx), M ≤ M0 → M < fuel → n ≤ 2 ^ M →
      coeffs.length = n + 1 → n + 1 < 2 ^ 63 →
      Out M coeffs (recurse ops fuel n L M coeffs C) := by
  intro fuel
  induction fuel with
  | zero =>
    intro n M coeffs _ hf
    omega
  | succ fuel ih =>
    intro n M coeffs hMM0 hMf hn hlen hn64
    have hLpow : shl64 1 L = 2 ^ L := shl64_one L hL
    by_cases hb : n ≤ shl64 1 L
    · rw [recurse_base ops fuel n L M coeffs C hb]
      rw [hLpow] at hb
      exact hbase M coeffs (by intro h; rw [h] at hlen; simp at hlen) (by omega)
    · rw [recurse_step ops fuel n L M coeffs C hb]
      rw [hLpow] at hb
      obtain ⟨hM1, hLM, hs1, hs3, hdbl, hdpos⟩ := shrinkM_facts n L M (by omega) hn (by omega)
      have hsub : sub64 (shrinkM n M) 1 = shrinkM n M - 1 := sub64_eq _ _ hM1 (by omega)
      have hd : shl64 1 (shrinkM n M - 1) = 2 ^ (shrinkM n M - 1) := shl64_one _ (by omega)
      rw [hsub, hd, sub64_eq n _ hs3 (by omega), sub64_eq _ 1 hdpos (by omega),
        splitCoeffs_eq coeffs _ n hs3 (by omega) (by omega), bind_ok_eq]
      have htake : (coeffs.drop (2 ^ (shrinkM n M - 1))).take (n - 2 ^ (shrinkM n M - 1) + 1)
          = coeffs.drop (2 ^ (shrinkM n M - 1)) := by
        apply List.take_of_length_le
        rw [List.length_drop]
        omega
      have hcd : ∃ cd, C.get? (2 ^ (shrinkM n M - 1)) = some cd := by
        by_cases hLe : shrinkM n M - 1 = L
        · rw [hLe]
          exact hdense
        · exact hsparse _ (by omega) (by omega)
      obtain ⟨cd, hcd⟩ := hcd
      simp only [htake, Basis.fetch_of_get? _ _ cd hcd, bind_ok_eq]
      exact hcomb n M coeffs _ _ cd hMM0 hn (by omega) hlen
        (ih (n - 2 ^ (shrinkM n M - 1)) (shrinkM n M - 1)
          (coeffs.drop (2 ^ (shrinkM n M - 1))) (by omega) (by omega) (by omega)
          (by rw [List.length_drop]; omega) (by omega))
        (ih (2 ^ (shrinkM n M - 1) - 1) (shrinkM n M - 1)
          (coeffs.take (2 ^ (shrinkM n M - 1))) (by omega) (by omega) (by omega)
          (by rw [List.length_take]; omega) (by omega))
        hcd

/-! ## The base case -/

theorem accumulate_spec {α : Type} (ops : Ops α) (coeffs : List Cplx) (C : Basis α)
    (Q : Nat → α → Prop)
    (hQ : ∀ key res c ck, coeffs[key + 1]? = some c → C.get? (key + 1) = some ck →
      Q (key + 1) res →
      Q key (if significant c then ops.multByConstAndAdd ck c res else res)) :
    ∀ (key : Nat) (res : α), key < coeffs.length →
      (∀ k, 1 ≤ k → k ≤ key → ∃ v, C.get? k = some v) → Q key res →
      ∃ r, accumulate ops coeffs C key res = .ok r ∧ Q 0 r := by
  intro key
  induction key with
  | zero =>
    intro res _ _ hq
    exact ⟨res, rfl, hq⟩
  | succ key ih =>
    intro res hlt hC hq
    obtain ⟨ck, hck⟩ := hC (key + 1) (by omega) (le_refl _)
    have hc : coeffs[key + 1]? = some coeffs[key + 1] := List.getElem?_eq_getElem hlt
    have hnext := hQ key res _ ck hc hck hq
    simp only [accumulate, getIdx_of_lt coeffs (key + 1) hlt, bind_ok_eq]
    by_cases hs : significant coeffs[key + 1]
    · rw [if_pos hs] at hnext ⊢
      rw [Basis.fetch_of_get? _ _ ck hck, bind_ok_eq]
      exact ih _ (by omega) (fun k h1 h2 => hC k h1 (by omega)) hnext
    · rw [if_neg hs] at hnext ⊢
      exact ih _ (by omega) (fun k h1 h2 => hC k h1 (by omega)) hnext

theorem evaluatePolyFromPowerBasis_eq {α : Type} (ops : Ops α) (coeffs : List Cplx) (C : Basis α)
    (c1 : α) (h1 : C.get? 1 = some c1) (hne : coeffs ≠ []) (hlen : coeffs.length < 2 ^ 64) :
    evaluatePolyFromPowerBasis ops coeffs C =
      (accumulate ops coeffs C (coeffs.length - 1)
          (if significant (coeffs.getD 0 0) then ops.addConst (ops.newCiphertext c1)
            (coeffs.getD 0 0) else ops.newCiphertext c1) >>= fun res =>
        liftOp (ops.rescale res)) := by
  have hpos : 0 < coeffs.length := List.length_pos.mpr hne
  have h0 : coeffs.getD 0 0 = coeffs[0] := by
    rw [List.getD_eq_getElem?_getD, List.getElem?_eq_getElem hpos]
    rfl
  simp only [evaluatePolyFromPowerBasis, Basis.fetch_of_get? _ _ c1 h1, bind_ok_eq,
    getIdx_of_lt coeffs 0 hpos, sub64_eq _ 1 hpos hlen, h0]

/-! ## The plaintext oracle -/

theorem prunedEval_append (a b : List Cplx) (x : Cplx) :
    prunedEval (a ++ b) x = prunedEval a x + x ^ a.length * prunedEval b x := by
  unfold prunedEval
  rw [List.length_append, Finset.sum_range_add, Finset.mul_sum]
  congr 1
  · apply Finset.sum_congr rfl
    intro i hi
    rw [Finset.mem_range] at hi
    rw [List.getD_append _ _ _ _ hi]
  · apply Finset.sum_congr rfl
    intro i _
    rw [List.getD_append_right _ _ _ _ (by omega), Nat.add_sub_cancel_left, pow_add]
    split_ifs
    · ring
    · simp

theorem evaluatePolyFromPowerBasis_plain (x : Cplx) (coeffs : List Cplx) (C : Basis Cplx)
    (hne : coeffs ≠ []) (hlen : coeffs.length < 2 ^ 64) (h1 : C.get? 1 = some x)
    (hC : ∀ k, 1 ≤ k → k < coeffs.length → C.get? k = some (x ^ k)) :
    evaluatePolyFromPowerBasis plainOps coeffs C = .ok (prunedEval coeffs x) := by
  have hpos : 0 < coeffs.length := List.length_pos.mpr hne
  rw [evaluatePolyFromPowerBasis_eq plainOps coeffs C x h1 hne hlen]
  obtain ⟨r, hr, hq⟩ := accumulate_spec plainOps coeffs C
    (fun key res => res + ∑ i in Finset.range key,
        (if significant (coeffs.getD (i + 1) 0) then coeffs.getD (i + 1) 0 * x ^ (i + 1) else 0)
      = prunedEval coeffs x)
    (by
      intro key res c ck hc hck hq
      by_cases hk : key + 1 < coeffs.length
      · have hckx : ck = x ^ (key + 1) := by
          have := hC (key + 1) (by omega) hk
          rw [this] at hck
          exact (Option.some.inj hck).symm
        have hgd : coeffs.getD (key + 1) 0 = c := by
          rw [List.getD_eq_getElem?_getD, hc]
          rfl
        rw [Finset.sum_range_succ, hgd] at hq
        rw [← hq]
        split_ifs
        · simp only [plainOps, hckx]
          ring
        · ring
      · rw [List.getElem?_eq_none (by omega)] at hc
        cases hc)
    (coeffs.length - 1)
    (if significant (coeffs.getD 0 0) then
      plainOps.addConst (plainOps.newCiphertext x) (coeffs.getD 0 0)
      else plainOps.newCiphertext x)
    (by omega) (fun k hk1 hk2 => ⟨_, hC k hk1 (by omega)⟩)
    (by
      have hsplit : coeffs.length = (coeffs.length - 1) + 1 := by omega
      have htot : prunedEval coeffs x
          = ∑ i in Finset.range (coeffs.length - 1),
              (if significant (coeffs.getD (i + 1) 0) then
                coeffs.getD (i + 1) 0 * x ^ (i + 1) else 0)
            + (if significant (coeffs.getD 0 0) then coeffs.getD 0 0 * x ^ 0 else 0) := by
        unfold prunedEval
        conv_lhs => rw [hsplit, Finset.sum_range_succ']
      dsimp only
      rw [htot]
      simp only [pow_zero, mul_one]
      split_ifs
      · simp only [plainOps]
        ring
      · simp only [plainOps]
        ring)
  rw [hr, bind_ok_eq]
  simp only [Finset.range_zero, Finset.sum_empty, add_zero] at hq
  rw [← hq]
  rfl

/-- Arguments on which `ceilHalf(n) + (n >> 1) = n`: those below `2^53`, where
`float64(n)` is exact, and the powers of two. -/
theorem ceilHalf_add_half (n : Nat) (h2 : 2 ≤ n)
    (hG : n < 2 ^ 53 ∨ ∃ i, i < 64 ∧ n = 2 ^ i) :
    ceilHalf n + n >>> 1 = n ∧
      (ceilHalf n < 2 ^ 53 ∨ ∃ i, i < 64 ∧ ceilHalf n = 2 ^ i) ∧
      (n >>> 1 < 2 ^ 53 ∨ ∃ i, i < 64 ∧ n >>> 1 = 2 ^ i) := by
  rw [Nat.shiftRight_eq_div_pow]
  by_cases hs : n < 2 ^ 53
  · rw [ceilHalf_small n hs]
    exact ⟨by omega, Or.inl (by omega), Or.inl (by omega)⟩
  · rcases hG with h | ⟨i, hi, hn⟩
    · exact absurd h hs
    · have hi1 : 1 ≤ i := by
        by_contra h0
        have : i = 0 := by omega
        rw [this] at hn
        omega
      have hpow : 2 ^ i = 2 * 2 ^ (i - 1) := by
        have : i = (i - 1) + 1 := by omega
        conv_lhs => rw [this, pow_succ]
        omega
      rw [hn, ceilHalf_pow i hi hi1]
      refine ⟨by omega, Or.inr ⟨i - 1, by omega, rfl⟩, Or.inr ⟨i - 1, by omega, by omega⟩⟩

theorem plain_step (x : Cplx) (n : Nat) (u v w w1 : Cplx) (h2 : 2 ≤ n)
    (hG : n < 2 ^ 53 ∨ ∃ i, i < 64 ∧ n = 2 ^ i) (hu : u = x ^ ceilHalf n)
    (hv : v = x ^ (n >>> 1)) (hm : plainOps.mulRelin u v = .ok w)
    (hr : plainOps.rescale w = .ok w1) : w1 = x ^ n := by
  have hsum := (ceilHalf_add_half n h2 hG).1
  simp only [plainOps] at hm hr
  cases hm
  cases hr
  rw [hu, hv, ← pow_add, hsum]

theorem recurse_plain (x : Cplx) (C : Basis Cplx) (L M0 : Nat) (hL : L < 64) (hM0 : M0 ≤ 64)
    (h1 : C.get? 1 = some x)
    (hdense : ∀ k, 1 ≤ k → k ≤ 2 ^ L → ∃ v, C.get? k = some v)
    (hsparse : ∀ i, L < i → i < M0 → ∃ v, C.get? (2 ^ i) = some v)
    (hInv : ∀ k v, C.get? k = some v → v = x ^ k)
    (fuel n M : Nat) (coeffs : List Cplx) (hM : M ≤ M0) (hf : M < fuel) (hn : n ≤ 2 ^ M)
    (hlen : coeffs.length = n + 1) (h64 : n + 1 < 2 ^ 63) :
    recurse plainOps fuel n L M coeffs C = .ok (prunedEval coeffs x) := by
  have hLpos : 0 < 2 ^ L := Nat.pow_pos (by norm_num)
  have hL63 : 2 ^ L ≤ 2 ^ 63 := Nat.pow_le_pow_right (by norm_num) (by omega)
  exact recurse_spec plainOps C L M0 hL hM0 (fun _ cs r => r = .ok (prunedEval cs x))
    (hdense _ hLpos (le_refl _)) hsparse
    (by
      intro M cs hne hlen
      refine evaluatePolyFromPowerBasis_plain x cs C hne (by omega) h1 ?_
      intro k hk1 hk2
      obtain ⟨v, hv⟩ := hdense k hk1 (by omega)
      rw [hv, hInv k v hv])
    (by
      intro n M cs rH rL cd hMM0 hn hLn hlen hPh hPl hcd
      obtain ⟨_, _, _, hdn, _, _⟩ := shrinkM_facts n L M (by omega) hn hLn
      have hsplit : cs = cs.take (2 ^ (shrinkM n M - 1)) ++ cs.drop (2 ^ (shrinkM n M - 1)) :=
        (List.take_append_drop _ _).symm
      have htl : (cs.take (2 ^ (shrinkM n M - 1))).length = 2 ^ (shrinkM n M - 1) := by
        rw [List.length_take]
        omega
      rw [hPh, hPl, hInv _ _ hcd]
      conv_rhs => rw [hsplit, prunedEval_append, htl]
      show Except.ok _ = Except.ok _
      congr 1
      ring)
    fuel n M coeffs hM hf hn hlen h64

theorem convertCoeffs_degree (arg : CoeffsArg) (deg : Nat) (cs : List Cplx)
    (h : convertCoeffs arg = .ok (deg, cs)) : deg = sub64 (cs.length % 2 ^ 64) 1 := by
  cases arg with
  | complexes l =>
    simp only [convertCoeffs, Except.ok.injEq, Prod.mk.injEq] at h
    rw [← h.1, ← h.2]
  | floats l =>
    simp only [convertCoeffs, Except.ok.injEq, Prod.mk.injEq] at h
    rw [← h.1, ← h.2]
  | other => cases h

theorem len64_max : len64 (2 ^ 64 - 1) = 64 := by decide

/-- The parameters computed at the head of `EvaluatePolyFast` and
`EvaluatePolyEco` from a non-empty coefficient list. -/
theorem degree_facts (arg : CoeffsArg) (deg : Nat) (cs : List Cplx)
    (h : convertCoeffs arg = .ok (deg, cs)) (hne : cs ≠ []) (hlen : cs.length < 2 ^ 63) :
    cs.length = deg + 1 ∧ deg + 1 < 2 ^ 63 ∧ len64 (sub64 deg 1) ≤ 64 ∧
      deg ≤ 2 ^ len64 (sub64 deg 1) ∧
      (1 ≤ deg → sub64 deg 1 = deg - 1) ∧ (deg = 0 → len64 (sub64 deg 1) = 64) := by
  have hpos : 0 < cs.length := List.length_pos.mpr hne
  have hdeg : deg = cs.length - 1 := by
    rw [convertCoeffs_degree arg deg cs h, Nat.mod_eq_of_lt (by omega), sub64_eq _ 1 hpos (by omega)]
  by_cases h0 : deg = 0
  · have hM : len64 (sub64 deg 1) = 64 := by
      rw [h0, sub64_zero_one]
      exact len64_max
    refine ⟨by omega, by omega, by omega, ?_, fun h => by omega, fun _ => hM⟩
    rw [h0]
    exact Nat.zero_le _
  · have hs : sub64 deg 1 = deg - 1 := sub64_eq _ 1 (by omega) (by omega)
    have hlt := len64_lt (deg - 1) (by omega)
    refine ⟨by omega, by omega, ?_, ?_, fun _ => hs, fun h => absurd h h0⟩
    · rw [hs]
      exact len64_le_64 _ (by omega)
    · rw [hs]
      omega

theorem evaluatePoly_plain (fuel : Nat) (hfuel : 2 ^ 64 ≤ fuel) (x : Cplx) (arg : CoeffsArg)
    (deg : Nat) (cs : List Cplx) (hconv : convertCoeffs arg = .ok (deg, cs)) (hne : cs ≠ [])
    (hlen : cs.length < 2 ^ 63) (L : Nat) (hL : L ≤ 32) :
    (buildPowerBasis plainOps fuel x L (len64 (sub64 deg 1)) >>= fun s =>
      recurse plainOps fuel deg L (len64 (sub64 deg 1)) cs s.C) = .ok (prunedEval cs x) := by
  obtain ⟨hlen1, h64, hM, hdM, _, _⟩ := degree_facts arg deg cs hconv hne hlen
  have hL53 : 2 ^ L < 2 ^ 53 := Nat.pow_lt_pow_right (by norm_num) (by omega)
  rcases buildPowerBasis_spec plainOps (fun k v => v = x ^ k)
      (fun n => n < 2 ^ 53 ∨ ∃ i, i < 64 ∧ n = 2 ^ i)
      (fun n h2 hG => (ceilHalf_add_half n h2 hG).2)
      (fun n u v w w1 h2 hG hu hv hm hr => plain_step x n u v w w1 h2 hG hu hv hm hr)
      (fun _ _ => False)
      (by
        intro m u v oe _ _ _ _ hf
        rcases hf with huv | ⟨w, _, hw⟩
        · cases huv
        · cases hw)
      fuel x L (len64 (sub64 deg 1)) hfuel (by omega) hM (by simp)
      (fun n _ hn => Or.inl (by omega))
      (fun i _ hi => Or.inr ⟨i, by omega, rfl⟩) with
    ⟨s, e, hs1, hsd, hss, hsInv, _, _⟩ | ⟨oe, _, m, _, hfail⟩
  · rw [e, bind_ok_eq]
    exact recurse_plain x s.C L _ (by omega) hM hs1 hsd hss hsInv fuel deg _ cs (le_refl _)
      (by omega) hdM hlen1 h64
  · exact absurd hfail id

theorem evaluatePolyFast_eq {α : Type} (ops : Ops α) (fuel : Nat) (ct : α) (arg : CoeffsArg)
    (deg : Nat) (cs : List Cplx) (hconv : convertCoeffs arg = .ok (deg, cs)) :
    EvaluatePolyFast ops fuel ct arg =
      (buildPowerBasis ops fuel ct (len64 (sub64 deg 1) >>> 1) (len64 (sub64 deg 1)) >>= fun s =>
        recurse ops fuel deg (len64 (sub64 deg 1) >>> 1) (len64 (sub64 deg 1)) cs s.C) := by
  simp only [EvaluatePolyFast, EvaluatePolyFastRun, hconv, bind_ok_eq]
  cases buildPowerBasis ops fuel ct (len64 (sub64 deg 1) >>> 1) (len64 (sub64 deg 1)) <;> rfl

theorem evaluatePolyEco_eq {α : Type} (ops : Ops α) (fuel : Nat) (ct : α) (arg : CoeffsArg)
    (deg : Nat) (cs : List Cplx) (hconv : convertCoeffs arg = .ok (deg, cs)) :
    EvaluatePolyEco ops fuel ct arg =
      (buildPowerBasis ops fuel ct 1 (len64 (sub64 deg 1)) >>= fun s =>
        recurse ops fuel deg 1 (len64 (sub64 deg 1)) cs s.C) := by
  simp only [EvaluatePolyEco, EvaluatePolyEcoRun, hconv, bind_ok_eq]
  cases buildPowerBasis ops fuel ct 1 (len64 (sub64 deg 1)) <;> rfl

theorem half_le_32 (M : Nat) (hM : M ≤ 64) : M >>> 1 ≤ 32 := by
  rw [Nat.shiftRight_eq_div_pow]
  omega

theorem evaluatePoly_pruned (fuel : Nat) (hfuel : 2 ^ 64 ≤ fuel) (x : Cplx) (arg : CoeffsArg)
    (deg : Nat) (cs : List Cplx) (hconv : convertCoeffs arg = .ok (deg, cs)) (hne : cs ≠ [])
    (hlen : cs.length < 2 ^ 63) :
    EvaluatePolyFast plainOps fuel x arg = .ok (prunedEval cs x) ∧
      EvaluatePolyEco plainOps fuel x arg = .ok (prunedEval cs x) := by
  have hM := (degree_facts arg deg cs hconv hne hlen).2.2.1
  rw [evaluatePolyFast_eq plainOps fuel x arg deg cs hconv,
    evaluatePolyEco_eq plainOps fuel x arg deg cs hconv]
  exact ⟨evaluatePoly_plain fuel hfuel x arg deg cs hconv hne hlen _ (half_le_32 _ hM),
    evaluatePoly_plain fuel hfuel x arg deg cs hconv hne hlen 1 (by omega)⟩

theorem prunedEval_eq_polyEval (cs : List Cplx) (x : Cplx)
    (hcs : ∀ c ∈ cs, c = 0 ∨ significant c) : prunedEval cs x = polyEval cs x := by
  unfold prunedEval polyEval
  apply Finset.sum_congr rfl
  intro i hi
  rw [Finset.mem_range] at hi
  have hmem : cs.getD i 0 ∈ cs := by
    rw [List.getD_eq_getElem?_getD, List.getElem?_eq_getElem hi]
    exact List.getElem_mem hi
  rcases hcs _ hmem with h | h
  · rw [h]
    simp
  · rw [if_pos h]

theorem significant_one : significant 1 := by
  left
  show |(1 : ℚ)| > 1e-15
  rw [abs_one]
  norm_num

/-- C1. In the plaintext model (a ciphertext is the exact number it encrypts,
`MulRelin`, `Add`, `AddConst`, `MultByConstAndAdd` are multiplication and
addition, `Rescale` is the identity), for every `x` and every non-empty
coefficient vector whose entries are each exactly zero or pass the `1e-15` test,
`EvaluatePolyFast` and `EvaluatePolyEco` both return `Σ c[i] * x^i`; degree 0 is
included. -/
theorem evaluatePoly_plaintext_oracle (fuel : Nat) (hfuel : 2 ^ 64 ≤ fuel) (x : Cplx)
    (arg : CoeffsArg) (deg : Nat) (cs : List Cplx)
    (hconv : convertCoeffs arg = .ok (deg, cs)) (hne : cs ≠ []) (hlen : cs.length < 2 ^ 63)
    (hcs : ∀ c ∈ cs, c = 0 ∨ significant c) :
    EvaluatePolyFast plainOps fuel x arg = .ok (polyEval cs x) ∧
      EvaluatePolyEco plainOps fuel x arg = .ok (polyEval cs x) := by
  rw [← prunedEval_eq_polyEval cs x hcs]
  exact evaluatePoly_pruned fuel hfuel x arg deg cs hconv hne hlen

theorem evaluatePoly_plaintext_oracle_witness :
    EvaluatePolyFast plainOps (2 ^ 64) ⟨2, 1⟩ (.complexes [1, 0, 1, 1, 0, 1])
        = .ok (polyEval [1, 0, 1, 1, 0, 1] ⟨2, 1⟩) ∧
      EvaluatePolyEco plainOps (2 ^ 64) ⟨2, 1⟩ (.complexes [1, 0, 1, 1, 0, 1])
        = .ok (polyEval [1, 0, 1, 1, 0, 1] ⟨2, 1⟩) :=
  evaluatePoly_plaintext_oracle (2 ^ 64) (le_refl _) ⟨2, 1⟩ (.complexes [1, 0, 1, 1, 0, 1]) 5
    [1, 0, 1, 1, 0, 1] (convertCoeffs_complexes _ (by simp) (by norm_num)) (by simp)
    (by norm_num)
    (by
      intro c hc
      simp only [List.mem_cons, List.mem_singleton, List.not_mem_nil, or_false] at hc
      rcases hc with h | h | h | h | h | h
      · exact Or.inr (h ▸ significant_one)
      · exact Or.inl h
      · exact Or.inr (h ▸ significant_one)
      · exact Or.inr (h ▸ significant_one)
      · exact Or.inl h
      · exact Or.inr (h ▸ significant_one))

/-- C4. In the exact plaintext model, for every `x` and every non-empty
coefficient vector, entries below the `1e-15` threshold included,
`EvaluatePolyFast` and `EvaluatePolyEco` return the same value (the sum of the
terms whose coefficient passes the threshold test). -/
theorem evaluatePoly_strategies_agree (fuel : Nat) (hfuel : 2 ^ 64 ≤ fuel) (x : Cplx)
    (arg : CoeffsArg) (deg : Nat) (cs : List Cplx)
    (hconv : convertCoeffs arg = .ok (deg, cs)) (hne : cs ≠ []) (hlen : cs.length < 2 ^ 63) :
    ∃ r, EvaluatePolyFast plainOps fuel x arg = .ok r ∧
      EvaluatePolyEco plainOps fuel x arg = .ok r ∧ r = prunedEval cs x := by
  obtain ⟨hF, hE⟩ := evaluatePoly_pruned fuel hfuel x arg deg cs hconv hne hlen
  exact ⟨_, hF, hE, rfl⟩

theorem evaluatePoly_strategies_agree_witness :
    ∃ r, EvaluatePolyFast plainOps (2 ^ 64) 3 (.floats [1, 1e-16, 0, 5, 1e-15]) = .ok r ∧
      EvaluatePolyEco plainOps (2 ^ 64) 3 (.floats [1, 1e-16, 0, 5, 1e-15]) = .ok r ∧
      r = prunedEval [⟨1, 0⟩, ⟨1e-16, 0⟩, ⟨0, 0⟩, ⟨5, 0⟩, ⟨1e-15, 0⟩] 3 :=
  evaluatePoly_strategies_agree (2 ^ 64) (le_refl _) 3 (.floats [1, 1e-16, 0, 5, 1e-15]) 4
    [⟨1, 0⟩, ⟨1e-16, 0⟩, ⟨0, 0⟩, ⟨5, 0⟩, ⟨1e-15, 0⟩]
    (convertCoeffs_floats _ (by simp) (by norm_num)) (by simp) (by norm_num)

/-! ## Safety of the lookups -/

theorem evaluatePoly_safe {α : Type} (ops : Ops α) (fuel : Nat) (hfuel : 2 ^ 64 ≤ fuel) (ct : α)
    (arg : CoeffsArg) (deg : Nat) (cs : List Cplx) (hconv : convertCoeffs arg = .ok (deg, cs))
    (hne : cs ≠ []) (hlen : cs.length < 2 ^ 63) (L : Nat) (hL : L ≤ 32) :
    (∃ r, (buildPowerBasis ops fuel ct L (len64 (sub64 deg 1)) >>= fun s =>
      recurse ops fuel deg L (len64 (sub64 deg 1)) cs s.C) = .ok r) ∨
    (∃ oe, (buildPowerBasis ops fuel ct L (len64 (sub64 deg 1)) >>= fun s =>
      recurse ops fuel deg L (len64 (sub64 deg 1)) cs s.C) = .error (.op oe)) := by
  obtain ⟨hlen1, h64, hM, hdM, _, _⟩ := degree_facts arg deg cs hconv hne hlen
  have hLpos : 0 < 2 ^ L := Nat.pow_pos (by norm_num)
  have hL32 : 2 ^ L ≤ 2 ^ 32 := Nat.pow_le_pow_right (by norm_num) hL
  rcases buildPowerBasis_spec ops (fun _ _ => True) (fun _ => True)
      (fun _ _ _ => ⟨trivial, trivial⟩) (fun _ _ _ _ _ _ _ _ _ _ _ => trivial)
      (fun _ _ => True) (fun _ _ _ _ _ _ _ _ _ => trivial)
      fuel ct L (len64 (sub64 deg 1)) hfuel (by omega) hM trivial
      (fun _ _ _ => trivial) (fun _ _ _ => trivial) with
    ⟨s, e, hs1, hsd, hss, _, _, _⟩ | ⟨oe, e, _⟩
  · rw [e, bind_ok_eq]
    exact recurse_spec ops s.C L _ (by omega) hM
      (fun _ _ r => (∃ v, r = .ok v) ∨ ∃ oe, r = .error (.op oe))
      (hsd _ hLpos (le_refl _)) hss
      (by
        intro M coeffs hcne hclen
        rw [evaluatePolyFromPowerBasis_eq ops coeffs s.C ct hs1 hcne (by omega)]
        obtain ⟨r, hr, _⟩ := accumulate_spec ops coeffs s.C (fun _ _ => True)
          (fun _ _ _ _ _ _ _ => trivial) (coeffs.length - 1)
          (if significant (coeffs.getD 0 0) then
            ops.addConst (ops.newCiphertext ct) (coeffs.getD 0 0)
            else ops.newCiphertext ct)
          (by have := List.length_pos.mpr hcne; omega)
          (fun k hk1 hk2 => hsd k hk1 (by omega)) trivial
        rw [hr, bind_ok_eq]
        cases hres : ops.rescale r with
        | ok r1 => exact Or.inl ⟨r1, rfl⟩
        | error oe => exact Or.inr ⟨oe, rfl⟩)
      (by
        intro n M coeffs rH rL cd _ _ _ _ hH hLo _
        rcases hH with ⟨rh, hrh⟩ | ⟨oe, hrh⟩
        · rcases hLo with ⟨rl, hrl⟩ | ⟨oe, hrl⟩
          · rw [hrh, hrl, bind_ok_eq, bind_ok_eq]
            cases hm : ops.mulRelin rh cd with
            | error oe => exact Or.inr ⟨oe, rfl⟩
            | ok w =>
              cases ha : ops.add w rl with
              | error oe => exact Or.inr ⟨oe, by simp [ha]⟩
              | ok w2 =>
                cases hr : ops.rescale w2 with
                | error oe => exact Or.inr ⟨oe, by simp [ha, hr]⟩
                | ok r => exact Or.inl ⟨r, by simp [ha, hr]⟩
          · rw [hrh, hrl]
            exact Or.inr ⟨oe, rfl⟩
        · rw [hrh]
          exact Or.inr ⟨oe, rfl⟩)
      fuel deg _ cs (le_refl _) (by omega) hdM hlen1 h64
  · right
    exact ⟨oe, by rw [e]; rfl⟩

/-- C7. For every polynomial of degree at least 1, both strategies and any
behaviour of the primitives, every exponent looked up in the power basis during
`recurse` and `evaluatePolyFromPowerBasis` is present in the map built by the
two loops: an evaluation either returns a result or stops because a primitive
failed, it never reads a missing (`nil`) entry. -/
theorem evaluatePoly_basis_complete {α : Type} (ops : Ops α) (fuel : Nat)
    (hfuel : 2 ^ 64 ≤ fuel) (ct : α) (arg : CoeffsArg) (deg : Nat) (cs : List Cplx)
    (hconv : convertCoeffs arg = .ok (deg, cs)) (hne : cs ≠ []) (_hdeg : 1 ≤ deg)
    (hlen : cs.length < 2 ^ 63) :
    ((∃ r, EvaluatePolyFast ops fuel ct arg = .ok r) ∨
        (∃ oe, EvaluatePolyFast ops fuel ct arg = .error (.op oe))) ∧
      ((∃ r, EvaluatePolyEco ops fuel ct arg = .ok r) ∨
        (∃ oe, EvaluatePolyEco ops fuel ct arg = .error (.op oe))) ∧
      EvaluatePolyFast ops fuel ct arg ≠ .error .nilEntry ∧
      EvaluatePolyEco ops fuel ct arg ≠ .error .nilEntry := by
  have hM := (degree_facts arg deg cs hconv hne hlen).2.2.1
  have hF := evaluatePoly_safe ops fuel hfuel ct arg deg cs hconv hne hlen _ (half_le_32 _ hM)
  have hE := evaluatePoly_safe ops fuel hfuel ct arg deg cs hconv hne hlen 1 (by omega)
  rw [← evaluatePolyFast_eq ops fuel ct arg deg cs hconv] at hF
  rw [← evaluatePolyEco_eq ops fuel ct arg deg cs hconv] at hE
  refine ⟨hF, hE, ?_, ?_⟩
  · rcases hF with ⟨r, h⟩ | ⟨oe, h⟩ <;> rw [h] <;> simp
  · rcases hE with ⟨r, h⟩ | ⟨oe, h⟩ <;> rw [h] <;> simp

theorem evaluatePoly_basis_complete_witness :
    ((∃ r, EvaluatePolyFast levelOps (2 ^ 64) 7 (.floats [1, 2, 3, 4, 5, 6]) = .ok r) ∨
        (∃ oe, EvaluatePolyFast levelOps (2 ^ 64) 7 (.floats [1, 2, 3, 4, 5, 6])
          = .error (.op oe))) ∧
      ((∃ r, EvaluatePolyEco levelOps (2 ^ 64) 7 (.floats [1, 2, 3, 4, 5, 6]) = .ok r) ∨
        (∃ oe, EvaluatePolyEco levelOps (2 ^ 64) 7 (.floats [1, 2, 3, 4, 5, 6])
          = .error (.op oe))) ∧
      EvaluatePolyFast levelOps (2 ^ 64) 7 (.floats [1, 2, 3, 4, 5, 6]) ≠ .error .nilEntry ∧
      EvaluatePolyEco levelOps (2 ^ 64) 7 (.floats [1, 2, 3, 4, 5, 6]) ≠ .error .nilEntry :=
  evaluatePoly_basis_complete levelOps (2 ^ 64) (le_refl _) 7 (.floats [1, 2, 3, 4, 5, 6]) 5
    ([1, 2, 3, 4, 5, 6].map (fun r => (⟨r, 0⟩ : Cplx)))
    (convertCoeffs_floats _ (by simp) (by norm_num)) (by simp) (by norm_num) (by norm_num)

/-! ## Facts on `clog`, `shrinkM` and the Fast strategy for small degrees -/

theorem clog_ceilHalf (n : Nat) (h2 : 2 ≤ n) (hG : n < 2 ^ 53 ∨ ∃ i, i < 64 ∧ n = 2 ^ i) :
    Nat.clog 2 n = Nat.clog 2 (ceilHalf n) + 1 ∧
      Nat.clog 2 (n >>> 1) ≤ Nat.clog 2 (ceilHalf n) := by
  have hsum := (ceilHalf_add_half n h2 hG).1
  rw [Nat.shiftRight_eq_div_pow] at hsum ⊢
  have ha : ceilHalf n = (n + 2 - 1) / 2 := by omega
  constructor
  · rw [Nat.clog_of_two_le (by norm_num) h2, ha]
  · exact Nat.clog_mono_right 2 (by omega)

theorem shrinkM_eq (n M : Nat) (hM : M ≤ 64) (hM1 : 1 ≤ M) (hn : 2 ^ (M - 1) ≤ n) :
    shrinkM n M = M := by
  obtain ⟨m, rfl⟩ : ∃ m, M = m + 1 := ⟨M - 1, by omega⟩
  unfold shrinkM
  rw [shl64_one m (by omega), if_neg]
  simp only [Nat.add_sub_cancel] at hn
  omega

theorem len64_pred_eq_clog (deg : Nat) (h1 : 1 ≤ deg) (h64 : deg < 2 ^ 64) :
    len64 (deg - 1) = Nat.clog 2 deg := by
  by_cases hd : deg = 1
  · subst hd
    rw [Nat.clog_one_right]
    rfl
  · have hlt := len64_lt (deg - 1) (by omega)
    have hle := len64_le (deg - 1) (by omega) (by omega)
    have hpos : 1 ≤ len64 (deg - 1) := by
      by_contra h0
      have hz : len64 (deg - 1) = 0 := by omega
      rw [hz] at hlt
      simp at hlt
      omega
    have hup : Nat.clog 2 deg ≤ len64 (deg - 1) :=
      (Nat.le_pow_iff_clog_le (by norm_num)).mp (by omega)
    have hlo : len64 (deg - 1) - 1 < Nat.clog 2 deg :=
      (Nat.pow_lt_iff_lt_clog (by norm_num)).mp (by omega)
    omega

theorem evaluatePolyFast_eq_eco {α : Type} (ops : Ops α) (fuel : Nat) (ct : α) (arg : CoeffsArg)
    (deg : Nat) (cs : List Cplx) (hconv : convertCoeffs arg = .ok (deg, cs)) (h3 : 3 ≤ deg)
    (h8 : deg ≤ 8) : EvaluatePolyFast ops fuel ct arg = EvaluatePolyEco ops fuel ct arg := by
  have hL : len64 (sub64 deg 1) >>> 1 = 1 := by
    interval_cases deg <;> rfl
  rw [evaluatePolyFast_eq ops fuel ct arg deg cs hconv,
    evaluatePolyEco_eq ops fuel ct arg deg cs hconv, hL]

/-! ## The parameters `M` and `L` -/

/-- C11. For every polynomial of degree greater than 1, the `M` that
`EvaluatePolyFast` and `EvaluatePolyEco` compute, the bit length of
`degree - 1`, satisfies `2^(M-1) < degree ≤ 2^M`, that is `M = ⌈log2 degree⌉`. -/
theorem evaluatePoly_depth_parameter {α : Type} (ops : Ops α) (fuel : Nat) (ct : α)
    (arg : CoeffsArg) (deg : Nat) (cs : List Cplx) (hconv : convertCoeffs arg = .ok (deg, cs))
    (hne : cs ≠ []) (hlen : cs.length < 2 ^ 63) (hdeg : 1 < deg) :
    ∃ M, M = len64 (sub64 deg 1) ∧
      EvaluatePolyFast ops fuel ct arg =
        (buildPowerBasis ops fuel ct (M >>> 1) M >>= fun s =>
          recurse ops fuel deg (M >>> 1) M cs s.C) ∧
      EvaluatePolyEco ops fuel ct arg =
        (buildPowerBasis ops fuel ct 1 M >>= fun s => recurse ops fuel deg 1 M cs s.C) ∧
      2 ^ (M - 1) < deg ∧ deg ≤ 2 ^ M ∧ M = Nat.clog 2 deg := by
  obtain ⟨_, h64, _, hdM, hsub, _⟩ := degree_facts arg deg cs hconv hne hlen
  have hMc : len64 (sub64 deg 1) = Nat.clog 2 deg := by
    rw [hsub (by omega)]
    exact len64_pred_eq_clog deg (by omega) (by omega)
  refine ⟨len64 (sub64 deg 1), rfl, evaluatePolyFast_eq ops fuel ct arg deg cs hconv,
    evaluatePolyEco_eq ops fuel ct arg deg cs hconv, ?_, hdM, hMc⟩
  rw [hMc]
  exact @Nat.pow_pred_clog_lt_self 2 (by norm_num) deg hdeg

theorem evaluatePoly_depth_parameter_witness :
    ∃ M, M = len64 (sub64 5 1) ∧
      EvaluatePolyFast plainOps 100 3 (.floats [1, 2, 3, 4, 5, 6]) =
        (buildPowerBasis plainOps 100 3 (M >>> 1) M >>= fun s =>
          recurse plainOps 100 5 (M >>> 1) M
            ([1, 2, 3, 4, 5, 6].map (fun r => (⟨r, 0⟩ : Cplx))) s.C) ∧
      EvaluatePolyEco plainOps 100 3 (.floats [1, 2, 3, 4, 5, 6]) =
        (buildPowerBasis plainOps 100 3 1 M >>= fun s =>
          recurse plainOps 100 5 1 M ([1, 2, 3, 4, 5, 6].map (fun r => (⟨r, 0⟩ : Cplx))) s.C) ∧
      2 ^ (M - 1) < 5 ∧ 5 ≤ 2 ^ M ∧ M = Nat.clog 2 5 :=
  evaluatePoly_depth_parameter plainOps 100 3 (.floats [1, 2, 3, 4, 5, 6]) 5
    ([1, 2, 3, 4, 5, 6].map (fun r => (⟨r, 0⟩ : Cplx)))
    (convertCoeffs_floats _ (by simp) (by norm_num)) (by simp) (by norm_num) (by norm_num)

/-- C12 (amended). With `M` the bit length of `degree - 1`: the Fast strategy's
`L = M >> 1` satisfies `1 ≤ L ≤ M` when the degree is 0 or at least 3, and is 0
for degree 1 and 2; the Economical strategy's `L = 1` satisfies `L ≤ M` for
every degree except 1, where `M = 0`. -/
theorem evaluatePoly_baby_step_width (arg : CoeffsArg) (deg : Nat) (cs : List Cplx)
    (hconv : convertCoeffs arg = .ok (deg, cs)) (hne : cs ≠ []) (hlen : cs.length < 2 ^ 63) :
    (deg = 0 ∨ 3 ≤ deg →
        1 ≤ len64 (sub64 deg 1) >>> 1 ∧ len64 (sub64 deg 1) >>> 1 ≤ len64 (sub64 deg 1)) ∧
      (deg = 1 ∨ deg = 2 → len64 (sub64 deg 1) >>> 1 = 0) ∧
      (deg ≠ 1 → 1 ≤ len64 (sub64 deg 1)) ∧
      (deg = 1 → len64 (sub64 deg 1) = 0) := by
  obtain ⟨_, h64, hM, hdM, hsub, h0⟩ := degree_facts arg deg cs hconv hne hlen
  have hshift : len64 (sub64 deg 1) >>> 1 = len64 (sub64 deg 1) / 2 := by
    rw [Nat.shiftRight_eq_div_pow]
  have hM2 : 3 ≤ deg → 2 ≤ len64 (sub64 deg 1) := by
    intro h3
    by_contra hlt
    have : 2 ^ len64 (sub64 deg 1) ≤ 2 ^ 1 := Nat.pow_le_pow_right (by norm_num) (by omega)
    omega
  refine ⟨?_, ?_, ?_, ?_⟩
  · rintro (h | h)
    · rw [hshift, h0 h]
      decide
    · have := hM2 h
      rw [hshift]
      omega
  · rintro (h | h) <;> subst h <;> rfl
  · intro h1
    by_cases hz : deg = 0
    · rw [h0 hz]
      decide
    · by_contra hlt
      have hMz : len64 (sub64 deg 1) = 0 := by omega
      rw [hMz] at hdM
      simp at hdM
      omega
  · intro h
    subst h
    rfl

theorem evaluatePoly_baby_step_width_witness :
    (5 = 0 ∨ 3 ≤ 5 →
        1 ≤ len64 (sub64 5 1) >>> 1 ∧ len64 (sub64 5 1) >>> 1 ≤ len64 (sub64 5 1)) ∧
      (5 = 1 ∨ 5 = 2 → len64 (sub64 5 1) >>> 1 = 0) ∧
      (5 ≠ 1 → 1 ≤ len64 (sub64 5 1)) ∧
      (5 = 1 → len64 (sub64 5 1) = 0) :=
  evaluatePoly_baby_step_width (.floats [1, 2, 3, 4, 5, 6]) 5
    ([1, 2, 3, 4, 5, 6].map (fun r => (⟨r, 0⟩ : Cplx)))
    (convertCoeffs_floats _ (by simp) (by norm_num)) (by simp) (by norm_num)

/-- C12, counterexample. For the degree-2 polynomial `1 + x + x^2`,
`M = bits.Len64(1) = 1` and the Fast strategy takes `L = M >> 1 = 0`, below 1;
for the degree-1 polynomial `1 + x`, `M = 0` and the Economical strategy's
`L = 1` is above `M`. -/
theorem baby_step_width_out_of_range :
    convertCoeffs (.floats [1, 1, 1]) = .ok (2, [⟨1, 0⟩, ⟨1, 0⟩, ⟨1, 0⟩]) ∧
      len64 (sub64 2 1) = 1 ∧ len64 (sub64 2 1) >>> 1 = 0 ∧
      convertCoeffs (.floats [1, 1]) = .ok (1, [⟨1, 0⟩, ⟨1, 0⟩]) ∧
      len64 (sub64 1 1) = 0 ∧ ¬ (1 ≤ len64 (sub64 1 1)) :=
  ⟨rfl, rfl, rfl, rfl, rfl, by decide⟩

/-! ## The combine step -/

/-- C16 (amended). In every recursive-case call, with `d = 2^(M-1)` after the
shrink loop, `resHigh` and `resLow` the results of the two sub-calls and
`PowerBasis[d]` present, the value returned by `recurse` is
`Rescale(Add(MulRelin(resHigh, PowerBasis[d]), resLow))`: the product is added
without a rescale of its own and the sum is rescaled once, so the combine step
applies exactly one rescale. -/
theorem recurse_combine_step {α : Type} (ops : Ops α) (fuel n L M : Nat) (cs q r : List Cplx)
    (C : Basis α) (resHigh resLow cd : α) (hrec : ¬ n ≤ shl64 1 L)
    (hsplit : splitCoeffs cs (shl64 1 (sub64 (shrinkM n M) 1)) n = .ok (q, r))
    (hH : recurse ops fuel (sub64 n (shl64 1 (sub64 (shrinkM n M) 1))) L
      (sub64 (shrinkM n M) 1) q C = .ok resHigh)
    (hLo : recurse ops fuel (sub64 (shl64 1 (sub64 (shrinkM n M) 1)) 1) L
      (sub64 (shrinkM n M) 1) r C = .ok resLow)
    (hcd : C.get? (shl64 1 (sub64 (shrinkM n M) 1)) = some cd) :
    recurse ops (fuel + 1) n L M cs C = combineOneRescale ops resHigh cd resLow ∧
      combineOneRescale ops resHigh cd resLow =
        (liftOp (ops.mulRelin resHigh cd) >>= fun w =>
          liftOp (ops.add w resLow) >>= fun w2 => liftOp (ops.rescale w2)) := by
  refine ⟨?_, rfl⟩
  rw [recurse_step ops fuel n L M cs C hrec, hsplit, bind_ok_eq, hH, bind_ok_eq, hLo, bind_ok_eq,
    Basis.fetch_of_get? _ _ cd hcd, bind_ok_eq]
  rfl

theorem recurse_combine_step_witness :
    recurse levelOps (1 + 1) 3 1 2 [1, 1, 1, 1] [(2, 4), (1, 5)]
        = combineOneRescale levelOps 4 4 4 ∧
      combineOneRescale levelOps 4 4 4 =
        (liftOp (levelOps.mulRelin 4 4) >>= fun w =>
          liftOp (levelOps.add w 4) >>= fun w2 => liftOp (levelOps.rescale w2)) :=
  recurse_combine_step levelOps 1 3 1 2 [1, 1, 1, 1] [1, 1] [1, 1] [(2, 4), (1, 5)] 4 4 4
    (by decide) rfl rfl rfl rfl

/-- C16, counterexample. On levels, for the degree-3 polynomial
`1 + x + x^2 + x^3` with `PowerBasis[1]` at level 5 and `PowerBasis[2]` at level
4, both sub-calls return level 4 and `recurse` returns level 3, whereas the
two-rescale formula does not give a result: the rescaled product is at level 3
and the low part at level 4. -/
theorem recurse_combine_not_two_rescales :
    recurse levelOps 1 1 1 1 [1, 1] [(2, 4), (1, 5)] = .ok 4 ∧
      recurse levelOps 2 3 1 2 [1, 1, 1, 1] [(2, 4), (1, 5)] = .ok 3 ∧
      combineTwoRescales levelOps 4 4 4 = .error (.op .levelScaleMismatch) ∧
      recurse levelOps 2 3 1 2 [1, 1, 1, 1] [(2, 4), (1, 5)] ≠ combineTwoRescales levelOps 4 4 4 :=
  ⟨rfl, rfl, rfl, by
    intro h
    have h1 : recurse levelOps 2 3 1 2 [1, 1, 1, 1] [(2, 4), (1, 5)] = .ok 3 := rfl
    have h2 : combineTwoRescales levelOps 4 4 4 = .error (.op .levelScaleMismatch) := rfl
    rw [h1, h2] at h
    cases h⟩

/-! ## Pruning in the base case -/

theorem significant_1e14 : significant ⟨1e-14, 0⟩ := by
  left
  show |(1e-14 : ℚ)| > 1e-15
  rw [abs_of_pos (by norm_num)]
  norm_num

theorem not_significant_1e15 : ¬ significant ⟨1e-15, 0⟩ := by
  intro h
  rcases h with h | h
  · have h1 : |(1e-15 : ℚ)| > 1e-15 := h
    rw [abs_of_pos (by norm_num)] at h1
    exact absurd h1 (lt_irrefl _)
  · have h1 : |(0 : ℚ)| > 1e-15 := h
    rw [abs_zero] at h1
    norm_num at h1

theorem prunedEval_single (cs : List Cplx) (x : Cplx) (j : Nat) (hj : j < cs.length)
    (hothers : ∀ i, i < cs.length → i ≠ j → ¬ significant (cs.getD i 0))
    (hsig : significant (cs.getD j 0)) : prunedEval cs x = cs.getD j 0 * x ^ j := by
  unfold prunedEval
  rw [Finset.sum_eq_single j]
  · rw [if_pos hsig]
  · intro i hi hij
    rw [Finset.mem_range] at hi
    rw [if_neg (hothers i hi hij)]
  · intro hnot
    rw [Finset.mem_range] at hnot
    exact absurd hj hnot

/-- C18. For a non-empty coefficient list of length at most `2^L + 1` and a
basis holding `x^k` for `1 ≤ k ≤ 2^L`, `evaluatePolyFromPowerBasis` in the
plaintext model returns the sum of exactly the terms `coeffs[k] * x^k` whose
coefficient has `|re| > 1e-15` or `|im| > 1e-15`; a list with a single such
entry yields that single monomial; the coefficient `1e-14` is kept and the
coefficient `1e-15` is skipped. -/
theorem evaluatePolyFromPowerBasis_pruning (x : Cplx) (L : Nat) (cs : List Cplx)
    (C : Basis Cplx) (hL : L < 64) (hne : cs ≠ []) (hlen : cs.length ≤ 2 ^ L + 1)
    (h1 : C.get? 1 = some x) (hC : ∀ k, 1 ≤ k → k ≤ 2 ^ L → C.get? k = some (x ^ k)) :
    evaluatePolyFromPowerBasis plainOps cs C
        = .ok (∑ k in Finset.range cs.length,
            if significant (cs.getD k 0) then cs.getD k 0 * x ^ k else 0) ∧
      (∀ j, j < cs.length → (∀ i, i < cs.length → i ≠ j → ¬ significant (cs.getD i 0)) →
        significant (cs.getD j 0) →
        evaluatePolyFromPowerBasis plainOps cs C = .ok (cs.getD j 0 * x ^ j)) ∧
      significant ⟨1e-14, 0⟩ ∧ ¬ significant ⟨1e-15, 0⟩ := by
  have hL63 : 2 ^ L ≤ 2 ^ 63 := Nat.pow_le_pow_right (by norm_num) (by omega)
  have hmain := evaluatePolyFromPowerBasis_plain x cs C hne (by omega) h1
    (fun k hk1 hk2 => hC k hk1 (by omega))
  refine ⟨hmain, ?_, significant_1e14, not_significant_1e15⟩
  intro j hj hothers hsig
  rw [hmain, prunedEval_single cs x j hj hothers hsig]

theorem evaluatePolyFromPowerBasis_pruning_witness :
    evaluatePolyFromPowerBasis plainOps [⟨1e-16, 0⟩, ⟨1e-14, 0⟩, ⟨1e-15, 0⟩]
          [(2, (3 : Cplx) ^ 2), (1, 3)]
        = .ok (∑ k in Finset.range ([⟨1e-16, 0⟩, ⟨1e-14, 0⟩, ⟨1e-15, 0⟩] : List Cplx).length,
            if significant (([⟨1e-16, 0⟩, ⟨1e-14, 0⟩, ⟨1e-15, 0⟩] : List Cplx).getD k 0) then
              ([⟨1e-16, 0⟩, ⟨1e-14, 0⟩, ⟨1e-15, 0⟩] : List Cplx).getD k 0 * (3 : Cplx) ^ k
            else 0) ∧
      (∀ j, j < ([⟨1e-16, 0⟩, ⟨1e-14, 0⟩, ⟨1e-15, 0⟩] : List Cplx).length →
        (∀ i, i < ([⟨1e-16, 0⟩, ⟨1e-14, 0⟩, ⟨1e-15, 0⟩] : List Cplx).length → i ≠ j →
          ¬ significant (([⟨1e-16, 0⟩, ⟨1e-14, 0⟩, ⟨1e-15, 0⟩] : List Cplx).getD i 0)) →
        significant (([⟨1e-16, 0⟩, ⟨1e-14, 0⟩, ⟨1e-15, 0⟩] : List Cplx).getD j 0) →
        evaluatePolyFromPowerBasis plainOps [⟨1e-16, 0⟩, ⟨1e-14, 0⟩, ⟨1e-15, 0⟩]
            [(2, (3 : Cplx) ^ 2), (1, 3)]
          = .ok (([⟨1e-16, 0⟩, ⟨1e-14, 0⟩, ⟨1e-15, 0⟩] : List Cplx).getD j 0 * (3 : Cplx) ^ j)) ∧
      significant ⟨1e-14, 0⟩ ∧ ¬ significant ⟨1e-15, 0⟩ :=
  evaluatePolyFromPowerBasis_pruning 3 1 [⟨1e-16, 0⟩, ⟨1e-14, 0⟩, ⟨1e-15, 0⟩]
    [(2, (3 : Cplx) ^ 2), (1, 3)] (by norm_num) (by simp) (by norm_num)
    (by simp [Basis.get?, List.lookup])
    (by
      intro k hk1 hk2
      have hk : k = 1 ∨ k = 2 := by
        norm_num at hk2
        omega
      rcases hk with h | h <;> subst h <;> simp [Basis.get?, List.lookup])

/-! ## Termination of `recurse` -/

theorem accumulate_ne_fuel {α : Type} (ops : Ops α) (coeffs : List Cplx) (C : Basis α) :
    ∀ (key : Nat) (res : α), accumulate ops coeffs C key res ≠ .error .fuel := by
  intro key
  induction key with
  | zero =>
    intro res h
    cases h
  | succ key ih =>
    intro res
    simp only [accumulate]
    cases hg : getIdx coeffs (key + 1) with
    | error e =>
      have he : e = .indexOutOfRange := by
        unfold getIdx at hg
        split at hg <;> cases hg
        rfl
      rw [he]
      intro h
      cases h
    | ok c =>
      rw [bind_ok_eq]
      by_cases hs : significant c
      · rw [if_pos hs]
        cases hf : C.fetch (key + 1) with
        | error e =>
          have he : e = .nilEntry := by
            unfold Basis.fetch at hf
            split at hf <;> cases hf
            rfl
          rw [he]
          intro h
          cases h
        | ok ck =>
          rw [bind_ok_eq]
          exact ih _
      · rw [if_neg hs]
        exact ih _

theorem fetch_ne_fuel {α : Type} (C : Basis α) (k : Nat) : C.fetch k ≠ .error .fuel := by
  unfold Basis.fetch
  split <;> intro h <;> cases h

theorem liftOp_ne_fuel {α : Type} (r : Except OpErr α) : liftOp r ≠ .error .fuel := by
  cases r <;> intro h <;> cases h

theorem bind_ne_fuel {β γ : Type} (r : Except Err β) (f : β → Except Err γ)
    (hr : r ≠ .error .fuel) (hf : ∀ b, f b ≠ .error .fuel) : (r >>= f) ≠ .error .fuel := by
  cases r with
  | error e =>
    intro h
    apply hr
    cases h
    rfl
  | ok b => exact hf b

theorem evaluatePolyFromPowerBasis_ne_fuel {α : Type} (ops : Ops α) (coeffs : List Cplx)
    (C : Basis α) : evaluatePolyFromPowerBasis ops coeffs C ≠ .error .fuel := by
  unfold evaluatePolyFromPowerBasis
  refine bind_ne_fuel _ _ (fetch_ne_fuel C 1) (fun c1 => ?_)
  refine bind_ne_fuel _ _ ?_ (fun c0 => ?_)
  · unfold getIdx
    split <;> intro h <;> cases h
  · exact bind_ne_fuel _ _ (accumulate_ne_fuel ops coeffs C _ _) (fun _ => liftOp_ne_fuel _)

theorem recurse_fuel_independent {α : Type} (ops : Ops α) (L : Nat) (hL : L < 64) (C : Basis α) :
    ∀ (f1 f2 n M : Nat) (cs : List Cplx), M ≤ 64 → M < f1 → M < f2 → n ≤ 2 ^ M →
      cs.length = n + 1 → n + 1 < 2 ^ 64 →
      recurse ops f1 n L M cs C = recurse ops f2 n L M cs C ∧
        recurse ops f1 n L M cs C ≠ .error .fuel := by
  intro f1
  induction f1 with
  | zero =>
    intro f2 n M cs _ h
    omega
  | succ f ih =>
    intro f2 n M cs hM hf1 hf2 hn hlen hn64
    obtain ⟨g, rfl⟩ : ∃ g, f2 = g + 1 := ⟨f2 - 1, by omega⟩
    have hLpow : shl64 1 L = 2 ^ L := shl64_one L hL
    by_cases hb : n ≤ shl64 1 L
    · rw [recurse_base ops f n L M cs C hb, recurse_base ops g n L M cs C hb]
      exact ⟨rfl, evaluatePolyFromPowerBasis_ne_fuel ops cs C⟩
    · rw [recurse_step ops f n L M cs C hb, recurse_step ops g n L M cs C hb]
      rw [hLpow] at hb
      obtain ⟨hM1, hLM, hs1, hs3, hdbl, hdpos⟩ := shrinkM_facts n L M hM hn (by omega)
      have hsub : sub64 (shrinkM n M) 1 = shrinkM n M - 1 := sub64_eq _ _ hM1 (by omega)
      have hd : shl64 1 (shrinkM n M - 1) = 2 ^ (shrinkM n M - 1) := shl64_one _ (by omega)
      rw [hsub, hd, sub64_eq n _ hs3 (by omega), sub64_eq _ 1 hdpos (by omega),
        splitCoeffs_cases cs _ n hs3 (by omega) (by omega)]
      by_cases hmk : 2 ^ (shrinkM n M - 1) < 2 ^ 63 ∧ n - 2 ^ (shrinkM n M - 1) + 1 < 2 ^ 63
      · rw [if_pos hmk, bind_ok_eq, bind_ok_eq]
        have htake : (cs.drop (2 ^ (shrinkM n M - 1))).take (n - 2 ^ (shrinkM n M - 1) + 1)
            = cs.drop (2 ^ (shrinkM n M - 1)) := by
          apply List.take_of_length_le
          rw [List.length_drop]
          omega
        simp only [htake]
        obtain ⟨hHe, hHf⟩ := ih g (n - 2 ^ (shrinkM n M - 1)) (shrinkM n M - 1)
          (cs.drop (2 ^ (shrinkM n M - 1))) (by omega) (by omega) (by omega) (by omega)
          (by rw [List.length_drop]; omega) (by omega)
        obtain ⟨hLe, hLf⟩ := ih g (2 ^ (shrinkM n M - 1) - 1) (shrinkM n M - 1)
          (cs.take (2 ^ (shrinkM n M - 1))) (by omega) (by omega) (by omega) (by omega)
          (by rw [List.length_take]; omega) (by omega)
        rw [← hHe, ← hLe]
        refine ⟨rfl, ?_⟩
        refine bind_ne_fuel _ _ hHf (fun res => ?_)
        refine bind_ne_fuel _ _ hLf (fun tmp => ?_)
        refine bind_ne_fuel _ _ (fetch_ne_fuel C _) (fun cd => ?_)
        refine bind_ne_fuel _ _ (liftOp_ne_fuel _) (fun w => ?_)
        exact bind_ne_fuel _ _ (liftOp_ne_fuel _) (fun w2 => liftOp_ne_fuel _)
      · rw [if_neg hmk, bind_error_eq, bind_error_eq]
        exact ⟨rfl, fun h => by cases h⟩

/-- C19. For every call `recurse(maxDegree, L, M, coeffs)` with
`maxDegree ≤ 2^M`, `len(coeffs) = maxDegree + 1` and `L < 64`, `M ≤ 64` (as in
every call issued by `EvaluatePolyFast` / `EvaluatePolyEco`), the recursion
terminates with nesting depth at most `M`: the run that allows `M` nested calls
below the first one (fuel `M + 1`) does not run out of fuel, whatever the
primitives and the map hold, and allowing more changes nothing. -/
theorem recurse_terminates {α : Type} (ops : Ops α) (C : Basis α) (n L M : Nat)
    (cs : List Cplx) (hL : L < 64) (hM : M ≤ 64) (hn : n ≤ 2 ^ M) (hlen : cs.length = n + 1)
    (hn64 : n + 1 < 2 ^ 64) :
    recurse ops (M + 1) n L M cs C ≠ .error .fuel ∧
      ∀ fuel, M < fuel → recurse ops fuel n L M cs C = recurse ops (M + 1) n L M cs C := by
  refine ⟨(recurse_fuel_independent ops L hL C (M + 1) (M + 1) n M cs hM (by omega) (by omega)
    hn hlen hn64).2, fun fuel hf => ?_⟩
  exact (recurse_fuel_independent ops L hL C fuel (M + 1) n M cs hM hf (by omega) hn hlen
    hn64).1

theorem recurse_terminates_witness :
    recurse levelOps (3 + 1) 5 1 3 [1, 2, 3, 4, 5, 6] [(4, 3), (2, 4), (1, 5)] ≠ .error .fuel ∧
      ∀ fuel, 3 < fuel →
        recurse levelOps fuel 5 1 3 [1, 2, 3, 4, 5, 6] [(4, 3), (2, 4), (1, 5)]
          = recurse levelOps (3 + 1) 5 1 3 [1, 2, 3, 4, 5, 6] [(4, 3), (2, 4), (1, 5)] :=
  recurse_terminates levelOps [(4, 3), (2, 4), (1, 5)] 5 1 3 [1, 2, 3, 4, 5, 6] (by norm_num)
    (by norm_num) (by norm_num) rfl (by norm_num)

/-! ## The split boundary -/

/-- What holds of the arguments of every call of `recurse` in an evaluation. -/
theorem recCall_split (L : Nat) (hL : L < 64) (c : RecCall) (hM : c.M ≤ 64)
    (hn : c.maxDegree ≤ 2 ^ c.M) (hlen : c.coeffs.length = c.maxDegree + 1)
    (h64 : c.maxDegree + 1 < 2 ^ 63) (hrec : ¬ c.maxDegree ≤ shl64 1 L) :
    ∃ d q r, d = shl64 1 (sub64 (shrinkM c.maxDegree c.M) 1) ∧
      d = 2 ^ (shrinkM c.maxDegree c.M - 1) ∧ 1 ≤ d ∧ d ≤ c.maxDegree ∧
      c.maxDegree ≤ 2 * d ∧ sub64 (shrinkM c.maxDegree c.M) 1 ≤ 64 ∧
      splitCoeffs c.coeffs d c.maxDegree = .ok (q, r) ∧
      q.length = c.maxDegree - d + 1 ∧ r.length = d ∧
      sub64 c.maxDegree d = c.maxDegree - d ∧ sub64 d 1 = d - 1 ∧
      d ≤ 2 ^ sub64 (shrinkM c.maxDegree c.M) 1 := by
  rw [shl64_one L hL] at hrec
  obtain ⟨hM1, _, hMle, hlow, hhigh, hpos⟩ :=
    shrinkM_facts c.maxDegree L c.M hM hn (by omega)
  have hsub : sub64 (shrinkM c.maxDegree c.M) 1 = shrinkM c.maxDegree c.M - 1 :=
    sub64_eq _ 1 hM1 (lt_of_le_of_lt (le_trans hMle hM) (by norm_num))
  have hd : shl64 1 (sub64 (shrinkM c.maxDegree c.M) 1) = 2 ^ (shrinkM c.maxDegree c.M - 1) := by
    rw [hsub, shl64_one _ (by omega)]
  refine ⟨_, (c.coeffs.drop (2 ^ (shrinkM c.maxDegree c.M - 1))).take
      (c.maxDegree - 2 ^ (shrinkM c.maxDegree c.M - 1) + 1),
    c.coeffs.take (2 ^ (shrinkM c.maxDegree c.M - 1)), rfl, hd, ?_, ?_, ?_, ?_, ?_, ?_, ?_, ?_,
    ?_, ?_⟩
  · rw [hd]; omega
  · rw [hd]; omega
  · rw [hd]; omega
  · rw [hsub]; omega
  · rw [hd]
    exact splitCoeffs_eq c.coeffs _ c.maxDegree hlow (by omega) (by omega)
  · rw [hd, List.length_take, List.length_drop]
    omega
  · rw [hd, List.length_take]
    omega
  · rw [hd]
    exact sub64_eq _ _ hlow (by omega)
  · rw [hd]
    exact sub64_eq _ 1 hpos (by omega)
  · rw [hd, hsub]

theorem recCall_invariant (L : Nat) (hL : L < 64) (top c : RecCall) (hreach : RecReach L top c)
    (hM : top.M ≤ 64) (hn : top.maxDegree ≤ 2 ^ top.M)
    (hlen : top.coeffs.length = top.maxDegree + 1) (h64 : top.maxDegree + 1 < 2 ^ 63) :
    c.M ≤ 64 ∧ c.maxDegree ≤ 2 ^ c.M ∧ c.coeffs.length = c.maxDegree + 1 ∧
      c.maxDegree + 1 < 2 ^ 63 := by
  induction hreach with
  | refl => exact ⟨hM, hn, hlen, h64⟩
  | @tail c1 c2 _ hstep ih =>
    obtain ⟨iM, ihn, ilen, i64⟩ := ih
    unfold recurseSubcalls at hstep
    by_cases hrec : c1.maxDegree ≤ shl64 1 L
    · rw [if_pos hrec] at hstep
      cases hstep
    · rw [if_neg hrec] at hstep
      obtain ⟨d, q, r, hd, _, hd1, hdn, hn2, hM1, hsplit, hq, hr, hs1, hs2, hdM⟩ :=
        recCall_split L hL c1 iM ihn ilen i64 hrec
      rw [← hd, hsplit] at hstep
      simp only [List.mem_cons, List.mem_singleton, List.not_mem_nil, or_false] at hstep
      rcases hstep with rfl | rfl
      · exact ⟨hM1, by simp only []; omega, by simp only []; omega, by simp only []; omega⟩
      · exact ⟨hM1, by simp only []; omega, by simp only []; omega, by simp only []; omega⟩

/-- C17. In every recursive-case call of `recurse` made during
`EvaluatePolyFast` (`L = M >> 1`) or `EvaluatePolyEco` (`L = 1`) on a non-empty
coefficient list, the boundary `d = 1 << (M-1)` taken after the loop on `M`
satisfies `1 <= d <= maxDegree`; `splitCoeffs` succeeds, the high part has
length `maxDegree - d + 1 >= 1`, the low part has length `d`, and each of the
two sub-calls receives a list of length its own `maxDegree` plus one. -/
theorem recurse_split_boundary (arg : CoeffsArg) (deg : Nat) (cs : List Cplx)
    (hconv : convertCoeffs arg = .ok (deg, cs)) (hne : cs ≠ []) (hlen : cs.length < 2 ^ 63)
    (L : Nat) (hL : L = 1 ∨ L = len64 (sub64 deg 1) >>> 1) (c : RecCall)
    (hreach : RecReach L ⟨deg, len64 (sub64 deg 1), cs⟩ c)
    (hrec : ¬ c.maxDegree ≤ shl64 1 L) :
    ∃ d q r, d = shl64 1 (sub64 (shrinkM c.maxDegree c.M) 1) ∧
      d = 2 ^ (shrinkM c.maxDegree c.M - 1) ∧ 1 ≤ d ∧ d ≤ c.maxDegree ∧
      splitCoeffs c.coeffs d c.maxDegree = .ok (q, r) ∧
      q.length = c.maxDegree - d + 1 ∧ 1 ≤ q.length ∧ r.length = d ∧
      recurseSubcalls L c
        = [⟨sub64 c.maxDegree d, sub64 (shrinkM c.maxDegree c.M) 1, q⟩,
            ⟨sub64 d 1, sub64 (shrinkM c.maxDegree c.M) 1, r⟩] ∧
      q.length = sub64 c.maxDegree d + 1 ∧ r.length = sub64 d 1 + 1 := by
  obtain ⟨hlen1, h64, hM, hn, _, _⟩ := degree_facts arg deg cs hconv hne hlen
  have hL64 : L < 64 := by
    rcases hL with rfl | rfl
    · norm_num
    · have := half_le_32 _ hM
      omega
  obtain ⟨iM, ihn, ilen, i64⟩ :=
    recCall_invariant L hL64 ⟨deg, len64 (sub64 deg 1), cs⟩ c hreach hM hn hlen1 h64
  obtain ⟨d, q, r, hd, hd2, hd1, hdn, _, _, hsplit, hq, hr, hs1, hs2, _⟩ :=
    recCall_split L hL64 c iM ihn ilen i64 hrec
  refine ⟨d, q, r, hd, hd2, hd1, hdn, hsplit, hq, by omega, hr, ?_, by omega, by omega⟩
  unfold recurseSubcalls
  rw [if_neg hrec, ← hd, hsplit]

theorem recurse_split_boundary_witness :
    ∃ d q r, d = shl64 1 (sub64 (shrinkM 3 2) 1) ∧
      d = 2 ^ (shrinkM 3 2 - 1) ∧ 1 ≤ d ∧ d ≤ 3 ∧
      splitCoeffs [1, 2, 3, 4] d 3 = .ok (q, r) ∧
      q.length = 3 - d + 1 ∧ 1 ≤ q.length ∧ r.length = d ∧
      recurseSubcalls 1 ⟨3, 2, [1, 2, 3, 4]⟩
        = [⟨sub64 3 d, sub64 (shrinkM 3 2) 1, q⟩, ⟨sub64 d 1, sub64 (shrinkM 3 2) 1, r⟩] ∧
      q.length = sub64 3 d + 1 ∧ r.length = sub64 d 1 + 1 :=
  recurse_split_boundary (.complexes [1, 2, 3, 4, 5, 6]) 5 [1, 2, 3, 4, 5, 6] rfl (by simp)
    (by norm_num) 1 (Or.inl rfl) ⟨3, 2, [1, 2, 3, 4]⟩
    (Relation.ReflTransGen.single (List.Mem.tail _ (List.Mem.head _))) (by decide)

/-! ## The arguments of `computePowerBasis` -/

/-- Every argument that `computePowerBasis` is called with is below `2^53`,
where `float64(n)` is exact, or a power of two, which `float64` represents. -/
theorem receivable_good (n : Nat) (h : Receivable n) :
    n < 2 ^ 53 ∨ ∃ i, i < 64 ∧ n = 2 ^ i := by
  induction h with
  | dense L i hL _ hi =>
    left
    rw [shl64_one L (by omega)] at hi
    have : 2 ^ L ≤ 2 ^ 32 := Nat.pow_le_pow_right (by norm_num) hL
    have h53 : (2 : Nat) ^ 32 < 2 ^ 53 := by norm_num
    omega
  | sparse i hi =>
    right
    exact ⟨i, hi, shl64_one i hi⟩
  | up n _ ih =>
    by_cases h2 : 2 ≤ n
    · exact (ceilHalf_add_half n h2 ih).2.1
    · left
      rw [ceilHalf_small n (by have : (2 : Nat) ≤ 2 ^ 53 := by norm_num
                               omega)]
      have : (2 : Nat) ≤ 2 ^ 53 := by norm_num
      omega
  | down n _ ih =>
    by_cases h2 : 2 ≤ n
    · exact (ceilHalf_add_half n h2 ih).2.2
    · left
      rw [Nat.shiftRight_eq_div_pow]
      have : (2 : Nat) ≤ 2 ^ 53 := by norm_num
      omega

theorem receivable_halves (n : Nat) (h : Receivable n) (h2 : 2 ≤ n) :
    ceilHalf n = (n + 1) / 2 ∧ n >>> 1 = n / 2 ∧ ceilHalf n + n >>> 1 = n ∧
      ceilHalf n < n ∧ n >>> 1 < n ∧ n < 2 ^ 64 := by
  have hG := receivable_good n h
  have hsum := (ceilHalf_add_half n h2 hG).1
  have hsh : n >>> 1 = n / 2 := by rw [Nat.shiftRight_eq_div_pow, pow_one]
  have h64 : n < 2 ^ 64 := by
    rcases hG with h | ⟨i, hi, rfl⟩
    · have : (2 : Nat) ^ 53 < 2 ^ 64 := by norm_num
      omega
    · exact Nat.pow_lt_pow_right (by norm_num) hi
  refine ⟨by omega, hsh, hsum, by omega, by omega, h64⟩

/-- C14. For every `n ≥ 1` that `computePowerBasis` is called with, and every
basis that contains exponent 1 and in which every present entry `k` holds `x^k`
(plaintext model): the call terminates (fuel `n` is enough); for `n > 1` the
two indices it recurses on are `a = ⌈n/2⌉` and `b = ⌊n/2⌋`, with `a + b = n`
and `a, b < n`; afterwards the basis contains `n`, every entry present before
is kept, and every present entry `k` holds `x^k`. -/
theorem computePowerBasis_total_correct (x : Cplx) (n fuel : Nat) (s : PowerBasis Cplx)
    (hn1 : 1 ≤ n) (hrecv : Receivable n) (hfuel : n ≤ fuel) (h1 : s.C.get? 1 = some x)
    (hinv : ∀ k v, s.C.get? k = some v → v = x ^ k) (hnd : (s.C.map Prod.fst).Nodup) :
    (1 < n → ceilHalf n = (n + 1) / 2 ∧ n >>> 1 = n / 2 ∧ ceilHalf n + n >>> 1 = n ∧
        ceilHalf n < n ∧ n >>> 1 < n) ∧
      ∃ s1, computePowerBasis plainOps fuel n s = .ok s1 ∧ s1.C.get? n = some (x ^ n) ∧
        (∀ k v, s.C.get? k = some v → s1.C.get? k = some v) ∧
        (∀ k v, s1.C.get? k = some v → v = x ^ k) ∧ (s1.C.map Prod.fst).Nodup := by
  have hG := receivable_good n hrecv
  have h64 : n < 2 ^ 64 := by
    rcases hG with h | ⟨i, hi, rfl⟩
    · have : (2 : Nat) ^ 53 < 2 ^ 64 := by norm_num
      omega
    · exact Nat.pow_lt_pow_right (by norm_num) hi
  constructor
  · intro hn
    obtain ⟨ha, hb, hsum, hlt1, hlt2, _⟩ := receivable_halves n hrecv (by omega)
    exact ⟨ha, hb, hsum, hlt1, hlt2⟩
  · rcases computePowerBasis_spec plainOps (fun k v => v = x ^ k)
        (fun n => n < 2 ^ 53 ∨ ∃ i, i < 64 ∧ n = 2 ^ i)
        (fun n h2 hG => (ceilHalf_add_half n h2 hG).2)
        (fun n u v w w1 h2 hG hu hv hm hr => plain_step x n u v w w1 h2 hG hu hv hm hr)
        (fun _ _ => False)
        (by
          intro m u v oe _ _ _ _ hf
          rcases hf with huv | ⟨w, _, hw⟩
          · cases huv
          · cases hw)
        fuel n s hn1 hfuel h64 hG ⟨x, h1⟩ hinv hnd with
      ⟨s1, e, ⟨v, hv⟩, hpres, hInv1, hnd1, _, _⟩ | ⟨_, _, _, _, hf⟩
    · refine ⟨s1, e, ?_, hpres, hInv1, hnd1⟩
      rw [hv, hInv1 n v hv]
    · exact absurd hf id

theorem computePowerBasis_total_correct_witness :
    (1 < 5 → ceilHalf 5 = (5 + 1) / 2 ∧ 5 >>> 1 = 5 / 2 ∧ ceilHalf 5 + 5 >>> 1 = 5 ∧
        ceilHalf 5 < 5 ∧ 5 >>> 1 < 5) ∧
      ∃ s1, computePowerBasis plainOps 5 5 (seedBasis (3 : Cplx)) = .ok s1 ∧
        s1.C.get? 5 = some ((3 : Cplx) ^ 5) ∧
        (∀ k v, (seedBasis (3 : Cplx)).C.get? k = some v → s1.C.get? k = some v) ∧
        (∀ k v, s1.C.get? k = some v → v = (3 : Cplx) ^ k) ∧ (s1.C.map Prod.fst).Nodup :=
  computePowerBasis_total_correct 3 5 5 (seedBasis 3) (by norm_num)
    (Receivable.dense 3 5 (by norm_num) (by norm_num) (by decide)) (le_refl _)
    (by simp [seedBasis_get?])
    (by
      intro k v hk
      rw [seedBasis_get?] at hk
      by_cases h : k = 1
      · rw [if_pos h] at hk
        rw [h, ← Option.some.inj hk, pow_one]
      · rw [if_neg h] at hk
        cases hk)
    (seedBasis_nodup 3)

/-- The restriction to the arguments of actual calls matters: at `2^53 + 1`,
which no call passes, the conversion through `float64` loses the last bit and
the two indices add up to `2^53`. -/
theorem ceilHalf_above_float_range :
    ceilHalf (2 ^ 53 + 1) = 2 ^ 52 ∧ (2 ^ 53 + 1) >>> 1 = 2 ^ 52 ∧ ¬ Receivable (2 ^ 53 + 1) := by
  refine ⟨by decide, by decide, fun h => ?_⟩
  rcases receivable_good _ h with h | ⟨i, _, h⟩
  · omega
  · by_cases h0 : i = 0
    · rw [h0] at h
      norm_num at h
    · obtain ⟨j, rfl⟩ : ∃ j, i = j + 1 := ⟨i - 1, by omega⟩
      rw [pow_succ] at h
      omega

/-! ## Levels in the power basis -/

theorem levelOps_contract : LevelContract levelOps (fun l => l) where
  mul_ok u v hu hv := ⟨min u v, by
    simp only [levelOps]
    rw [if_neg (by omega)]⟩
  mul_lvl u v w h := by
    simp only [levelOps] at h
    split_ifs at h
    cases h
    rfl
  mul_fail u v h := by
    simp only [levelOps]
    rw [if_pos h]
  res_ok w hw := ⟨w - 1, by
    simp only [levelOps]
    rw [if_neg (by omega)]⟩
  res_lvl w w1 h := by
    simp only [levelOps] at h
    split_ifs at h with h0
    cases h
    omega
  res_fail w h := by
    simp only [levelOps]
    rw [if_pos h]
  new_lvl _ := rfl

theorem contractOps_contract (accMin : Bool) (Δ : Nat) :
    LevelContract (contractOps accMin Δ) Ct.level where
  mul_ok u v hu hv := ⟨⟨min u.level v.level, u.scale * v.scale⟩, by
    simp only [contractOps]
    rw [if_neg (by omega)]⟩
  mul_lvl u v w h := by
    simp only [contractOps] at h
    split_ifs at h
    cases h
    rfl
  mul_fail u v h := by
    simp only [contractOps]
    rw [if_pos h]
  res_ok w hw := ⟨⟨w.level - 1, Δ⟩, by
    simp only [contractOps]
    rw [if_neg (by omega)]⟩
  res_lvl w w1 h := by
    simp only [contractOps] at h
    split_ifs at h with h0
    cases h
    simp only []
    omega
  res_fail w h := by
    simp only [contractOps]
    rw [if_pos h]
  new_lvl _ := rfl

/-- One multiply-and-rescale step of `computePowerBasis` on levels. -/
theorem level_step {α : Type} (ops : Ops α) (lvl : α → Nat) (hc : LevelContract ops lvl)
    (lv n : Nat) (u v w w1 : α) (h2 : 2 ≤ n)
    (hG : n < 2 ^ 53 ∨ ∃ i, i < 64 ∧ n = 2 ^ i)
    (hu : lvl u + Nat.clog 2 (ceilHalf n) = lv) (hv : lvl v + Nat.clog 2 (n >>> 1) = lv)
    (hm : ops.mulRelin u v = .ok w) (hr : ops.rescale w = .ok w1) :
    lvl w1 + Nat.clog 2 n = lv := by
  obtain ⟨hc1, hc2⟩ := clog_ceilHalf n h2 hG
  have h1 := hc.mul_lvl u v w hm
  have h2 := hc.res_lvl w w1 hr
  have hmin : min (lvl u) (lvl v) = lvl u := Nat.min_eq_left (by omega)
  omega

theorem level_fail {α : Type} (ops : Ops α) (lvl : α → Nat) (hc : LevelContract ops lvl)
    (lv n : Nat) (u v : α) (oe : OpErr) (h2 : 2 ≤ n)
    (hG : n < 2 ^ 53 ∨ ∃ i, i < 64 ∧ n = 2 ^ i)
    (hu : lvl u + Nat.clog 2 (ceilHalf n) = lv) (hv : lvl v + Nat.clog 2 (n >>> 1) = lv)
    (hf : ops.mulRelin u v = .error oe ∨
      ∃ w, ops.mulRelin u v = .ok w ∧ ops.rescale w = .error oe) :
    oe = .insufficientLevel ∧ lv < Nat.clog 2 n := by
  obtain ⟨hc1, hc2⟩ := clog_ceilHalf n h2 hG
  rcases hf with hm | ⟨w, hm, hr⟩
  · have hz : lvl u = 0 ∨ lvl v = 0 := by
      by_contra hne
      obtain ⟨w, hw⟩ := hc.mul_ok u v (by omega) (by omega)
      rw [hw] at hm
      cases hm
    have he := hc.mul_fail u v hz
    rw [he] at hm
    cases hm
    exact ⟨rfl, by omega⟩
  · have h1 := hc.mul_lvl u v w hm
    have hz : lvl w = 0 := by
      by_contra hne
      obtain ⟨w1, hw1⟩ := hc.res_ok w (by omega)
      rw [hw1] at hr
      cases hr
    have he := hc.res_fail w hz
    rw [he] at hr
    cases hr
    have hmin : min (lvl u) (lvl v) = lvl u := Nat.min_eq_left (by omega)
    exact ⟨rfl, by omega⟩

/-- The two loops of the entry points on levels: either every entry `k` of the
map sits `⌈log2 k⌉` levels below the input, or the loops stop with
`InsufficientLevel` at an exponent that needs more levels than the input has. -/
theorem buildPowerBasis_level {α : Type} (ops : Ops α) (lvl : α → Nat)
    (hc : LevelContract ops lvl) (fuel : Nat) (hfuel : 2 ^ 64 ≤ fuel) (ct : α) (L M : Nat)
    (hL : L ≤ 32) (hM : M ≤ 64) :
    (∃ s, buildPowerBasis ops fuel ct L M = .ok s ∧
      s.C.get? 1 = some ct ∧
      (∀ n, 1 ≤ n → n ≤ 2 ^ L → ∃ v, s.C.get? n = some v) ∧
      (∀ i, L < i → i < M → ∃ v, s.C.get? (2 ^ i) = some v) ∧
      (∀ k v, s.C.get? k = some v → lvl v + Nat.clog 2 k = lvl ct)) ∨
    (buildPowerBasis ops fuel ct L M = .error (.op .insufficientLevel) ∧
      ∃ m, (m ≤ 2 ^ L ∨ ∃ i, L < i ∧ i < M ∧ m ≤ 2 ^ i) ∧ lvl ct < Nat.clog 2 m) := by
  have hL53 : 2 ^ L < 2 ^ 53 := Nat.pow_lt_pow_right (by norm_num) (by omega)
  rcases buildPowerBasis_spec ops (fun k v => lvl v + Nat.clog 2 k = lvl ct)
      (fun n => n < 2 ^ 53 ∨ ∃ i, i < 64 ∧ n = 2 ^ i)
      (fun n h2 hG => (ceilHalf_add_half n h2 hG).2)
      (fun n u v w w1 h2 hG hu hv hm hr => level_step ops lvl hc _ n u v w w1 h2 hG hu hv hm hr)
      (fun m oe => oe = .insufficientLevel ∧ lvl ct < Nat.clog 2 m)
      (fun n u v oe h2 hG hu hv hf => level_fail ops lvl hc _ n u v oe h2 hG hu hv hf)
      fuel ct L M hfuel (by omega) hM (by simp)
      (fun n _ hn => Or.inl (by omega))
      (fun i _ hi => Or.inr ⟨i, by omega, rfl⟩) with
    ⟨s, e, hs1, hsd, hss, hsInv, _, _⟩ | ⟨oe, e, m, hm, hoe, hlt⟩
  · exact Or.inl ⟨s, e, hs1, hsd, hss, hsInv⟩
  · right
    rw [hoe] at e
    exact ⟨e, m, hm, hlt⟩

/-- C15. Under the level contracts of section 6 for `MulRelin` and `Rescale`:
an entry `n ≥ 2` that a call of `computePowerBasis` creates (the map had none)
is exactly one level below the lower of its two operands `PowerBasis[⌈n/2⌉]`
and `PowerBasis[⌊n/2⌋]`; a call on a map whose entries `k` all sit
`⌈log2 k⌉` levels below `PowerBasis[1]` returns a map with the same property;
and so every entry `k` of the basis that an entry point builds from the seed
has level `level(PowerBasis[1]) - ⌈log2 k⌉`; that basis is built whenever the
input has `max(L, M - 1)` levels. -/
theorem computePowerBasis_entry_level {α : Type} (ops : Ops α) (lvl : α → Nat)
    (hc : LevelContract ops lvl) (fuel n : Nat) (hrecv : Receivable n) (h2 : 2 ≤ n) :
    (∀ s s1 : PowerBasis α, s.C.get? n = none →
        computePowerBasis ops (fuel + 1) n s = .ok s1 →
        ∃ s2 ca cb cn,
          (computePowerBasis ops fuel ((n + 1) / 2) s >>= fun t =>
            computePowerBasis ops fuel (n / 2) t) = .ok s2 ∧
          s2.C.get? ((n + 1) / 2) = some ca ∧ s2.C.get? (n / 2) = some cb ∧
          s1.C.get? n = some cn ∧ lvl cn + 1 = min (lvl ca) (lvl cb)) ∧
      (∀ (s s1 : PowerBasis α) (c1 : α), n ≤ fuel → s.C.get? 1 = some c1 →
        (s.C.map Prod.fst).Nodup →
        (∀ k v, s.C.get? k = some v → lvl v + Nat.clog 2 k = lvl c1) →
        computePowerBasis ops fuel n s = .ok s1 →
        ∀ k v, s1.C.get? k = some v → lvl v + Nat.clog 2 k = lvl c1) ∧
      (∀ (ct : α) (L M : Nat), 2 ^ 64 ≤ fuel → L ≤ 32 → M ≤ 64 →
        (∀ s, buildPowerBasis ops fuel ct L M = .ok s →
          s.C.get? 1 = some ct ∧
            ∀ k v, s.C.get? k = some v → lvl v + Nat.clog 2 k = lvl ct) ∧
        (max L (M - 1) ≤ lvl ct → ∃ s, buildPowerBasis ops fuel ct L M = .ok s)) := by
  obtain ⟨ha, hb, _, _, _, h64⟩ := receivable_halves n hrecv h2
  refine ⟨?_, ?_, ?_⟩
  · intro s s1 hnone hrun
    rw [computePowerBasis_absent ops fuel n s hnone, ha, hb] at hrun
    cases e1 : computePowerBasis ops fuel ((n + 1) / 2) s with
    | error e =>
      rw [e1] at hrun
      cases hrun
    | ok t =>
      rw [e1, bind_ok_eq] at hrun
      cases e2 : computePowerBasis ops fuel (n / 2) t with
      | error e =>
        rw [e2] at hrun
        cases hrun
      | ok s2 =>
        rw [e2, bind_ok_eq] at hrun
        cases ea : s2.C.get? ((n + 1) / 2) with
        | none =>
          simp only [Basis.fetch, ea] at hrun
          cases hrun
        | some ca =>
          cases eb : s2.C.get? (n / 2) with
          | none =>
            simp only [Basis.fetch, ea, eb, bind_ok_eq] at hrun
            cases hrun
          | some cb =>
            rw [Basis.fetch_of_get? _ _ ca ea, bind_ok_eq, Basis.fetch_of_get? _ _ cb eb,
              bind_ok_eq] at hrun
            cases em : ops.mulRelin ca cb with
            | error e =>
              rw [em] at hrun
              cases hrun
            | ok w =>
              rw [em, liftOp_ok, bind_ok_eq] at hrun
              cases er : ops.rescale w with
              | error e =>
                rw [er] at hrun
                cases hrun
              | ok cn =>
                rw [er, liftOp_ok, bind_ok_eq] at hrun
                cases hrun
                refine ⟨s2, ca, cb, cn, by rw [bind_ok_eq, e2], ea, eb, ?_, ?_⟩
                · simp [Basis.get?_set]
                · have h1 := hc.mul_lvl ca cb w em
                  have h3 := hc.res_lvl w cn er
                  omega
  · intro s s1 c1 hfuel h1 hnd hinv hrun
    rcases computePowerBasis_spec ops (fun k v => lvl v + Nat.clog 2 k = lvl c1)
        (fun n => n < 2 ^ 53 ∨ ∃ i, i < 64 ∧ n = 2 ^ i)
        (fun n h2 hG => (ceilHalf_add_half n h2 hG).2)
        (fun n u v w w1 h2 hG hu hv hm hr =>
          level_step ops lvl hc _ n u v w w1 h2 hG hu hv hm hr)
        (fun _ _ => True) (fun _ _ _ _ _ _ _ _ _ => trivial)
        fuel n s (by omega) hfuel h64 (receivable_good n hrecv) ⟨c1, h1⟩ hinv hnd with
      ⟨t, e, _, _, hInv1, _, _, _⟩ | ⟨oe, e, _⟩
    · rw [e] at hrun
      cases hrun
      exact hInv1
    · rw [e] at hrun
      cases hrun
  · intro ct L M hfuel hL hM
    rcases buildPowerBasis_level ops lvl hc fuel hfuel ct L M hL hM with
      ⟨t, e, ht1, _, _, hInv⟩ | ⟨e, m, hm, hlt⟩
    · refine ⟨fun s hrun => ?_, fun _ => ⟨t, e⟩⟩
      rw [e] at hrun
      cases hrun
      exact ⟨ht1, hInv⟩
    · refine ⟨fun s hrun => ?_, fun hmax => ?_⟩
      · rw [e] at hrun
        cases hrun
      · exfalso
        have h1 := Nat.le_max_left L (M - 1)
        have h3 := Nat.le_max_right L (M - 1)
        rcases hm with h | ⟨i, hi1, hi2, h⟩
        · have : Nat.clog 2 m ≤ L := (Nat.le_pow_iff_clog_le (by norm_num)).mp h
          omega
        · have : Nat.clog 2 m ≤ i := (Nat.le_pow_iff_clog_le (by norm_num)).mp h
          omega

theorem computePowerBasis_entry_level_witness :
    (∀ s s1 : PowerBasis Ct, s.C.get? 5 = none →
        computePowerBasis (contractOps true 2) (2 ^ 64 + 1) 5 s = .ok s1 →
        ∃ s2 ca cb cn,
          (computePowerBasis (contractOps true 2) (2 ^ 64) ((5 + 1) / 2) s >>= fun t =>
            computePowerBasis (contractOps true 2) (2 ^ 64) (5 / 2) t) = .ok s2 ∧
          s2.C.get? ((5 + 1) / 2) = some ca ∧ s2.C.get? (5 / 2) = some cb ∧
          s1.C.get? 5 = some cn ∧ cn.level + 1 = min ca.level cb.level) ∧
      (∀ (s s1 : PowerBasis Ct) (c1 : Ct), 5 ≤ 2 ^ 64 → s.C.get? 1 = some c1 →
        (s.C.map Prod.fst).Nodup →
        (∀ k v, s.C.get? k = some v → v.level + Nat.clog 2 k = c1.level) →
        computePowerBasis (contractOps true 2) (2 ^ 64) 5 s = .ok s1 →
        ∀ k v, s1.C.get? k = some v → v.level + Nat.clog 2 k = c1.level) ∧
      (∀ (ct : Ct) (L M : Nat), 2 ^ 64 ≤ 2 ^ 64 → L ≤ 32 → M ≤ 64 →
        (∀ s, buildPowerBasis (contractOps true 2) (2 ^ 64) ct L M = .ok s →
          s.C.get? 1 = some ct ∧
            ∀ k v, s.C.get? k = some v → v.level + Nat.clog 2 k = ct.level) ∧
        (max L (M - 1) ≤ ct.level →
          ∃ s, buildPowerBasis (contractOps true 2) (2 ^ 64) ct L M = .ok s)) :=
  computePowerBasis_entry_level (contractOps true 2) Ct.level (contractOps_contract true 2)
    (2 ^ 64) 5 (Receivable.dense 3 5 (by norm_num) (by norm_num) (by decide)) (by norm_num)

/-! ## Levels in the evaluation -/

theorem levelOps_constFree : ConstFree levelOps (fun l => l) :=
  ⟨fun _ _ => rfl, fun _ _ _ => rfl⟩

theorem levelOps_addLevel : AddLevel levelOps (fun l => l) False := by
  constructor
  · intro u v w h
    simp only [levelOps] at h
    split_ifs at h with huv
    cases h
    show u = min u v
    rw [huv, Nat.min_self]
  · intro u v h
    rcases h with h | h
    · exact ⟨u, by
        simp only [levelOps]
        rw [if_pos h]⟩
    · exact absurd h id

/-- The base case on levels when the constant operations cost no level: the
result is one level below `C[1]`, and there is a result exactly when `C[1]` has
a level to give. -/
theorem evaluatePolyFromPowerBasis_level {α : Type} (ops : Ops α) (lvl : α → Nat)
    (hc : LevelContract ops lvl) (hk : ConstFree ops lvl) (cs : List Cplx) (C : Basis α)
    (c1 : α) (hne : cs ≠ []) (hlen : cs.length < 2 ^ 64) (h1 : C.get? 1 = some c1)
    (hC : ∀ k, 1 ≤ k → k < cs.length → ∃ v, C.get? k = some v) :
    (∀ r, evaluatePolyFromPowerBasis ops cs C = .ok r → lvl r + 1 = lvl c1) ∧
      (1 ≤ lvl c1 → ∃ r, evaluatePolyFromPowerBasis ops cs C = .ok r) ∧
      (lvl c1 = 0 →
        evaluatePolyFromPowerBasis ops cs C = .error (.op .insufficientLevel)) := by
  have hpos : 0 < cs.length := List.length_pos.mpr hne
  rw [evaluatePolyFromPowerBasis_eq ops cs C c1 h1 hne hlen]
  obtain ⟨acc, hacc, hq⟩ := accumulate_spec ops cs C (fun _ res => lvl res = lvl c1)
    (by
      intro key res c ck _ _ hq
      show lvl (if significant c then ops.multByConstAndAdd ck c res else res) = lvl c1
      split_ifs
      · rw [hk.2, hq]
      · exact hq)
    (cs.length - 1)
    (if significant (cs.getD 0 0) then ops.addConst (ops.newCiphertext c1) (cs.getD 0 0)
      else ops.newCiphertext c1)
    (by omega) (fun k hk1 hk2 => hC k hk1 (by omega))
    (by
      show lvl (if significant (cs.getD 0 0) then
        ops.addConst (ops.newCiphertext c1) (cs.getD 0 0) else ops.newCiphertext c1) = lvl c1
      split_ifs
      · rw [hk.1, hc.new_lvl]
      · exact hc.new_lvl c1)
  rw [hacc, bind_ok_eq]
  refine ⟨fun r hr => ?_, fun h => ?_, fun h => ?_⟩
  · cases hres : ops.rescale acc with
    | error e =>
      rw [hres] at hr
      cases hr
    | ok r1 =>
      have h3 := hc.res_lvl acc r1 hres
      rw [hres] at hr
      cases hr
      omega
  · obtain ⟨r, hr⟩ := hc.res_ok acc (by omega)
    exact ⟨r, by rw [hr]; rfl⟩
  · rw [hc.res_fail acc (by omega)]
    rfl

theorem levelCost_le (L len M : Nat) (hL : 1 ≤ L) (hLM : L ≤ M) (hM : M ≤ 64)
    (hlen : len - 1 ≤ 2 ^ M) : 1 ≤ levelCost L len M ∧ levelCost L len M ≤ M := by
  unfold levelCost
  by_cases h : len ≤ 2 ^ L + 1
  · rw [if_pos h]
    omega
  · rw [if_neg h]
    obtain ⟨h1, _, h3, _, _, _⟩ := shrinkM_facts (len - 1) L M hM hlen (by omega)
    omega

theorem levelCost_full (m : Nat) (hm : m ≤ 64) (hm1 : 1 ≤ m) : levelCost 1 (2 ^ m) m = m := by
  unfold levelCost
  have hpow : 2 ^ m = 2 * 2 ^ (m - 1) := by
    have : m = (m - 1) + 1 := by omega
    conv_lhs => rw [this, pow_succ]
    omega
  have hpos : 0 < 2 ^ (m - 1) := Nat.pow_pos (by norm_num)
  by_cases hm2 : m = 1
  · subst hm2
    rfl
  · have h2 : 2 ^ 1 ≤ 2 ^ (m - 1) := Nat.pow_le_pow_right (by norm_num) (by omega)
    rw [if_neg (by omega)]
    exact shrinkM_eq _ m hm hm1 (by omega)

/-- The combine step on levels.  With the sub-results `costH` and `costL`
levels below `C[1]` and the power `C[d]` `m` levels below it, a result is one
level below the lowest of the three; with that many levels every primitive
succeeds, provided `Add` accepts its operands (they have equal level, or `Add`
is lenient). -/
theorem combine_level {α : Type} (ops : Ops α) (lvl : α → Nat) (lenient : Prop)
    (hc : LevelContract ops lvl) (ha : AddLevel ops lvl lenient) (lv m costH costL : Nat)
    (rH rL : Except Err α) (cd : α) (hcd : lvl cd + m = lv) (G : Prop)
    (hH : (∀ r, rH = .ok r → lvl r + costH = lv) ∧ (G → costH ≤ lv → ∃ r, rH = .ok r))
    (hLo : (∀ r, rL = .ok r → lvl r + costL = lv) ∧ (G → costL ≤ lv → ∃ r, rL = .ok r)) :
    (∀ r, (rH >>= fun res => rL >>= fun tmp =>
        liftOp (ops.mulRelin res cd) >>= fun w =>
          liftOp (ops.add w tmp) >>= fun w2 => liftOp (ops.rescale w2)) = .ok r →
        lvl r + (max costH (max m costL) + 1) = lv) ∧
      (G → max costH m = costL ∨ lenient → max costH (max m costL) + 1 ≤ lv →
        ∃ r, (rH >>= fun res => rL >>= fun tmp =>
          liftOp (ops.mulRelin res cd) >>= fun w =>
            liftOp (ops.add w tmp) >>= fun w2 => liftOp (ops.rescale w2)) = .ok r) := by
  constructor
  · intro r hr
    cases rH with
    | error e => cases hr
    | ok h =>
      cases rL with
      | error e => cases hr
      | ok l =>
        rw [bind_ok_eq, bind_ok_eq] at hr
        have hh := hH.1 h rfl
        have hl := hLo.1 l rfl
        cases em : ops.mulRelin h cd with
        | error e =>
          rw [em] at hr
          cases hr
        | ok w =>
          rw [em, liftOp_ok, bind_ok_eq] at hr
          cases ea : ops.add w l with
          | error e =>
            rw [ea] at hr
            cases hr
          | ok w2 =>
            rw [ea, liftOp_ok, bind_ok_eq] at hr
            cases er : ops.rescale w2 with
            | error e =>
              rw [er] at hr
              cases hr
            | ok r1 =>
              have h3 := hc.res_lvl w2 r1 er
              rw [er] at hr
              cases hr
              have h1 := hc.mul_lvl h cd w em
              have h2 := ha.1 w l w2 ea
              simp only [Nat.max_def, Nat.min_def] at h1 h2 ⊢
              split_ifs at h1 h2 ⊢ <;> omega
  · intro hG hacc hlv
    have hle1 : costH ≤ max costH (max m costL) := Nat.le_max_left _ _
    have hle2 : m ≤ max costH (max m costL) :=
      le_trans (Nat.le_max_left _ _) (Nat.le_max_right _ _)
    have hle3 : costL ≤ max costH (max m costL) :=
      le_trans (Nat.le_max_right _ _) (Nat.le_max_right _ _)
    obtain ⟨h, hh⟩ := hH.2 hG (by omega)
    obtain ⟨l, hl⟩ := hLo.2 hG (by omega)
    have hhl := hH.1 h hh
    have hll := hLo.1 l hl
    obtain ⟨w, hw⟩ := hc.mul_ok h cd (by omega) (by omega)
    have h1 := hc.mul_lvl h cd w hw
    obtain ⟨w2, hw2⟩ := ha.2 w l (by
      rcases hacc with h | h
      · left
        simp only [Nat.max_def, Nat.min_def] at h h1
        split_ifs at h h1 <;> omega
      · exact Or.inr h)
    have h2 := ha.1 w l w2 hw2
    obtain ⟨r, hr⟩ := hc.res_ok w2 (by
      simp only [Nat.max_def, Nat.min_def] at h1 h2 hlv
      split_ifs at h1 h2 hlv <;> omega)
    exact ⟨r, by rw [hh, hl, bind_ok_eq, bind_ok_eq, hw, liftOp_ok, bind_ok_eq, hw2, liftOp_ok,
      bind_ok_eq, hr, liftOp_ok]⟩

/-- The levels of `recurse` for `L ≥ 1` when the constant operations cost no
level: a result is `levelCost` levels below `C[1]`; and there is a result when
`C[1]` has that many levels, for `L = 1` or when `Add` accepts operands of
different level. -/
theorem recurse_level {α : Type} (ops : Ops α) (lvl : α → Nat) (lenient : Prop)
    (hc : LevelContract ops lvl) (hk : ConstFree ops lvl) (ha : AddLevel ops lvl lenient)
    (C : Basis α) (c1 : α) (L M0 : Nat) (hL1 : 1 ≤ L) (hL : L ≤ 32) (hM0 : M0 ≤ 64)
    (h1 : C.get? 1 = some c1)
    (hdense : ∀ k, 1 ≤ k → k ≤ 2 ^ L → ∃ v, C.get? k = some v)
    (hsparse : ∀ i, L < i → i < M0 → ∃ v, C.get? (2 ^ i) = some v)
    (hInv : ∀ k v, C.get? k = some v → lvl v + Nat.clog 2 k = lvl c1)
    (fuel n M : Nat) (coeffs : List Cplx) (hM : M ≤ M0) (hf : M < fuel) (hn : n ≤ 2 ^ M)
    (hlen : coeffs.length = n + 1) (h64 : n + 1 < 2 ^ 63) :
    (∀ r, recurse ops fuel n L M coeffs C = .ok r →
        lvl r + levelCost L coeffs.length M = lvl c1) ∧
      (L = 1 ∨ lenient → levelCost L coeffs.length M ≤ lvl c1 →
        ∃ r, recurse ops fuel n L M coeffs C = .ok r) := by
  have hLpos : 0 < 2 ^ L := Nat.pow_pos (by norm_num)
  have hL32 : 2 ^ L ≤ 2 ^ 32 := Nat.pow_le_pow_right (by norm_num) hL
  have hmain := recurse_spec ops C L M0 (by omega) hM0
    (fun M cs r => (∀ v, r = .ok v → lvl v + levelCost L cs.length M = lvl c1) ∧
      (L = 1 ∨ lenient → levelCost L cs.length M ≤ lvl c1 → ∃ v, r = .ok v))
    (hdense _ hLpos (le_refl _)) hsparse
    (by
      intro M cs hne hclen
      obtain ⟨hb1, hb2, _⟩ := evaluatePolyFromPowerBasis_level ops lvl hc hk cs C c1 hne
        (by omega) h1 (fun k hk1 hk2 => hdense k hk1 (by omega))
      have hcost : levelCost L cs.length M = 1 := by
        unfold levelCost
        rw [if_pos hclen]
      rw [hcost]
      exact ⟨hb1, fun _ h => hb2 h⟩)
    (by
      intro n M cs rH rL cd hMM0 hn hLn hclen hH hLo hcd
      obtain ⟨hM1, hLM, hs1, hdn, hdbl, hdpos⟩ := shrinkM_facts n L M (by omega) hn hLn
      have hcdl := hInv _ _ hcd
      rw [Nat.clog_pow 2 _ (by norm_num)] at hcdl
      have hlenH : (cs.drop (2 ^ (shrinkM n M - 1))).length = n - 2 ^ (shrinkM n M - 1) + 1 := by
        rw [List.length_drop]
        omega
      have hlenL : (cs.take (2 ^ (shrinkM n M - 1))).length = 2 ^ (shrinkM n M - 1) := by
        rw [List.length_take]
        omega
      rw [hlenH] at hH
      rw [hlenL] at hLo
      obtain ⟨_, hcH⟩ := levelCost_le L (n - 2 ^ (shrinkM n M - 1) + 1) (shrinkM n M - 1) hL1
        (by omega) (by omega) (by omega)
      obtain ⟨_, hcL⟩ := levelCost_le L (2 ^ (shrinkM n M - 1)) (shrinkM n M - 1) hL1
        (by omega) (by omega) (by omega)
      have hnode : levelCost L cs.length M = shrinkM n M - 1 + 1 := by
        unfold levelCost
        rw [hclen, Nat.add_sub_cancel, if_neg (by omega)]
        omega
      rw [hnode]
      obtain ⟨hc1, hc2⟩ := combine_level ops lvl lenient hc ha (lvl c1) (shrinkM n M - 1) _ _
        rH rL cd hcdl (L = 1 ∨ lenient) hH hLo
      have hmax : max (levelCost L (n - 2 ^ (shrinkM n M - 1) + 1) (shrinkM n M - 1))
          (max (shrinkM n M - 1) (levelCost L (2 ^ (shrinkM n M - 1)) (shrinkM n M - 1)))
          = shrinkM n M - 1 := by
        rw [Nat.max_eq_left hcL, Nat.max_eq_right hcH]
      rw [hmax] at hc1 hc2
      refine ⟨hc1, fun hG hlv => hc2 hG ?_ hlv⟩
      rcases hG with h | h
      · left
        rw [Nat.max_eq_right hcH]
        rw [h] at hLM
        rw [h]
        exact (levelCost_full _ (by omega) (by omega)).symm
      · exact Or.inr h)
    fuel n M coeffs hM hf hn hlen h64
  exact hmain

/-- The levels of `recurse` for `L = 0`, which the Fast strategy takes for
degree 1 and 2: a result is one level below `C[1]` in the base case and two
levels below it otherwise, and there is one when `C[1]` has that many levels. -/
theorem recurse_level_zero {α : Type} (ops : Ops α) (lvl : α → Nat) (lenient : Prop)
    (hc : LevelContract ops lvl) (hk : ConstFree ops lvl) (ha : AddLevel ops lvl lenient)
    (C : Basis α) (c1 : α) (h1 : C.get? 1 = some c1)
    (fuel n M : Nat) (coeffs : List Cplx) (hM : M ≤ 1) (hf : M < fuel) (hn : n ≤ 2 ^ M)
    (hlen : coeffs.length = n + 1) :
    (∀ r, recurse ops fuel n 0 M coeffs C = .ok r →
        lvl r + (if coeffs.length ≤ 2 then 1 else 2) = lvl c1) ∧
      ((if coeffs.length ≤ 2 then 1 else 2) ≤ lvl c1 →
        ∃ r, recurse ops fuel n 0 M coeffs C = .ok r) := by
  have hn2 : n ≤ 2 := by
    have : 2 ^ M ≤ 2 ^ 1 := Nat.pow_le_pow_right (by norm_num) hM
    omega
  exact recurse_spec ops C 0 1 (by norm_num) (by norm_num)
    (fun _ cs r => (∀ v, r = .ok v → lvl v + (if cs.length ≤ 2 then 1 else 2) = lvl c1) ∧
      ((if cs.length ≤ 2 then 1 else 2) ≤ lvl c1 → ∃ v, r = .ok v))
    ⟨c1, h1⟩ (fun i hi1 hi2 => by omega)
    (by
      intro M cs hne hclen
      norm_num at hclen
      have hpos : 0 < cs.length := List.length_pos.mpr hne
      obtain ⟨hb1, hb2, _⟩ := evaluatePolyFromPowerBasis_level ops lvl hc hk cs C c1 hne
        (by omega) h1 (fun k hk1 hk2 => ⟨c1, by
          have : k = 1 := by omega
          rw [this]
          exact h1⟩)
      rw [if_pos hclen]
      exact ⟨hb1, hb2⟩)
    (by
      intro n M cs rH rL cd hMM0 hn hLn hclen hH hLo hcd
      have hM1 : M = 1 := by
        by_contra hne1
        have : M = 0 := by omega
        rw [this] at hn
        norm_num at hn hLn
        omega
      subst hM1
      have hn2 : n = 2 := by
        norm_num at hn hLn
        omega
      subst hn2
      have hsh : shrinkM 2 1 = 1 := rfl
      have hdl : (cs.drop 1).length = 2 := by
        rw [List.length_drop]
        omega
      have htl : (cs.take 1).length = 1 := by
        rw [List.length_take]
        omega
      simp only [hsh, Nat.sub_self, pow_zero, hdl, htl] at hH hLo hcd
      norm_num at hH hLo
      have hcd1 : cd = c1 := by
        rw [h1] at hcd
        exact (Option.some.inj hcd).symm
      rw [hclen, if_neg (by omega)]
      obtain ⟨hc1, hc2⟩ := combine_level ops lvl lenient hc ha (lvl c1) 0 1 1 rH rL cd
        (by rw [hcd1, Nat.add_zero]) True ⟨hH.1, fun _ h => hH.2 h⟩ ⟨hLo.1, fun _ h => hLo.2 h⟩
      exact ⟨hc1, fun h => hc2 trivial (Or.inl rfl) h⟩)
    fuel n M coeffs hM hf hn hlen (by
      have : (3 : Nat) < 2 ^ 63 := by norm_num
      omega)

/-- The Economical strategy on levels, for degree at least 1. -/
theorem evaluatePolyEco_level {α : Type} (ops : Ops α) (lvl : α → Nat) (lenient : Prop)
    (hc : LevelContract ops lvl) (hk : ConstFree ops lvl) (ha : AddLevel ops lvl lenient)
    (fuel : Nat) (hfuel : 2 ^ 64 ≤ fuel) (ct : α) (arg : CoeffsArg) (deg : Nat)
    (cs : List Cplx) (hconv : convertCoeffs arg = .ok (deg, cs)) (hne : cs ≠ [])
    (hlen : cs.length < 2 ^ 63) (hdeg : 1 ≤ deg) :
    (∀ r, EvaluatePolyEco ops fuel ct arg = .ok r →
        lvl r + max 1 (Nat.clog 2 deg) = lvl ct) ∧
      (max 1 (Nat.clog 2 deg) ≤ lvl ct → ∃ r, EvaluatePolyEco ops fuel ct arg = .ok r) := by
  obtain ⟨hlen1, h64, hM, hdM, hsub, _⟩ := degree_facts arg deg cs hconv hne hlen
  have hMc : len64 (sub64 deg 1) = Nat.clog 2 deg := by
    rw [hsub hdeg]
    exact len64_pred_eq_clog deg hdeg (by omega)
  rw [evaluatePolyEco_eq ops fuel ct arg deg cs hconv, hMc]
  rw [hMc] at hM hdM
  have hcost : levelCost 1 cs.length (Nat.clog 2 deg) = max 1 (Nat.clog 2 deg) := by
    unfold levelCost
    rw [hlen1, Nat.add_sub_cancel]
    by_cases h2 : deg ≤ 2
    · rw [if_pos (by norm_num; omega)]
      have : Nat.clog 2 deg ≤ 1 := (Nat.le_pow_iff_clog_le (by norm_num)).mp (by omega)
      rw [Nat.max_eq_left this]
    · rw [if_neg (by norm_num; omega)]
      have hge : 2 ≤ Nat.clog 2 deg := by
        have : 1 < Nat.clog 2 deg := (Nat.pow_lt_iff_lt_clog (by norm_num)).mp (by omega)
        omega
      have hlo := @Nat.pow_pred_clog_lt_self 2 (by norm_num) deg (by omega)
      rw [Nat.pred_eq_sub_one] at hlo
      rw [shrinkM_eq deg _ hM (by omega) (by omega), Nat.max_eq_right (by omega)]
  rcases buildPowerBasis_level ops lvl hc fuel hfuel ct 1 (Nat.clog 2 deg) (by norm_num) hM with
    ⟨s, e, hs1, hsd, hss, hsInv⟩ | ⟨e, m, hm, hlt⟩
  · rw [e, bind_ok_eq]
    have hrec := recurse_level ops lvl lenient hc hk ha s.C ct 1 (Nat.clog 2 deg) (le_refl _)
      (by norm_num) hM hs1 hsd hss hsInv fuel deg _ cs (le_refl _) (by omega) hdM hlen1 h64
    rw [hcost] at hrec
    exact ⟨hrec.1, fun h => hrec.2 (Or.inl rfl) h⟩
  · rw [e, bind_error_eq]
    refine ⟨fun r h => (by cases h), fun h => ?_⟩
    exfalso
    have h1 := Nat.le_max_left 1 (Nat.clog 2 deg)
    have h3 := Nat.le_max_right 1 (Nat.clog 2 deg)
    rcases hm with h | ⟨i, hi1, hi2, h⟩
    · have : Nat.clog 2 m ≤ 1 := (Nat.le_pow_iff_clog_le (by norm_num)).mp h
      omega
    · have : Nat.clog 2 m ≤ i := (Nat.le_pow_iff_clog_le (by norm_num)).mp h
      omega

/-- The Fast strategy on levels, for degree at least 1: a result is `deg`
levels below the input for degree 1 and 2 and `⌈log2 deg⌉` levels below it from
degree 3 on. -/
theorem evaluatePolyFast_level {α : Type} (ops : Ops α) (lvl : α → Nat) (lenient : Prop)
    (hc : LevelContract ops lvl) (hk : ConstFree ops lvl) (ha : AddLevel ops lvl lenient)
    (fuel : Nat) (hfuel : 2 ^ 64 ≤ fuel) (ct : α) (arg : CoeffsArg) (deg : Nat)
    (cs : List Cplx) (hconv : convertCoeffs arg = .ok (deg, cs)) (hne : cs ≠ [])
    (hlen : cs.length < 2 ^ 63) (hdeg : 1 ≤ deg) :
    (∀ r, EvaluatePolyFast ops fuel ct arg = .ok r →
        lvl r + (if deg ≤ 2 then deg else Nat.clog 2 deg) = lvl ct) ∧
      (deg ≤ 8 ∨ lenient → (if deg ≤ 2 then deg else Nat.clog 2 deg) ≤ lvl ct →
        ∃ r, EvaluatePolyFast ops fuel ct arg = .ok r) := by
  obtain ⟨hlen1, h64, hM, hdM, hsub, _⟩ := degree_facts arg deg cs hconv hne hlen
  rw [evaluatePolyFast_eq ops fuel ct arg deg cs hconv]
  by_cases h2 : deg ≤ 2
  · have hM1 : len64 (sub64 deg 1) ≤ 1 := by
      interval_cases deg <;> decide
    have hL : len64 (sub64 deg 1) >>> 1 = 0 := by
      interval_cases deg <;> rfl
    rw [hL, if_pos h2]
    rcases buildPowerBasis_level ops lvl hc fuel hfuel ct 0 (len64 (sub64 deg 1)) (by norm_num)
        hM with ⟨s, e, hs1, hsd, hss, hsInv⟩ | ⟨e, m, hm, hlt⟩
    · rw [e, bind_ok_eq]
      have hrec := recurse_level_zero ops lvl lenient hc hk ha s.C ct hs1 fuel deg _ cs hM1
        (by omega) hdM hlen1
      have hcost : (if cs.length ≤ 2 then 1 else 2) = deg := by
        rw [hlen1]
        interval_cases deg <;> rfl
      rw [hcost] at hrec
      exact ⟨hrec.1, fun _ h => hrec.2 h⟩
    · rw [e, bind_error_eq]
      refine ⟨fun r h => (by cases h), fun _ h => ?_⟩
      exfalso
      rcases hm with h | ⟨i, hi1, hi2, _⟩
      · have : Nat.clog 2 m ≤ 0 := (Nat.le_pow_iff_clog_le (by norm_num)).mp h
        omega
      · omega
  · rw [if_neg h2]
    have hMc : len64 (sub64 deg 1) = Nat.clog 2 deg := by
      rw [hsub hdeg]
      exact len64_pred_eq_clog deg hdeg (by omega)
    rw [hMc]
    rw [hMc] at hM hdM
    have hge : 2 ≤ Nat.clog 2 deg := by
      have : 1 < Nat.clog 2 deg := (Nat.pow_lt_iff_lt_clog (by norm_num)).mp (by omega)
      omega
    have hlo := @Nat.pow_pred_clog_lt_self 2 (by norm_num) deg (by omega)
    rw [Nat.pred_eq_sub_one] at hlo
    have hLdef : Nat.clog 2 deg >>> 1 = Nat.clog 2 deg / 2 := by
      rw [Nat.shiftRight_eq_div_pow, pow_one]
    rw [hLdef]
    have hLM : Nat.clog 2 deg / 2 ≤ Nat.clog 2 deg - 1 := by omega
    have hpowL : 2 ^ (Nat.clog 2 deg / 2) ≤ 2 ^ (Nat.clog 2 deg - 1) :=
      Nat.pow_le_pow_right (by norm_num) hLM
    have hcost : levelCost (Nat.clog 2 deg / 2) cs.length (Nat.clog 2 deg) = Nat.clog 2 deg := by
      unfold levelCost
      rw [hlen1, Nat.add_sub_cancel, if_neg (by omega)]
      exact shrinkM_eq deg _ hM (by omega) (by omega)
    rcases buildPowerBasis_level ops lvl hc fuel hfuel ct (Nat.clog 2 deg / 2) (Nat.clog 2 deg)
        (by omega) hM with ⟨s, e, hs1, hsd, hss, hsInv⟩ | ⟨e, m, hm, hlt⟩
    · rw [e, bind_ok_eq]
      have hrec := recurse_level ops lvl lenient hc hk ha s.C ct (Nat.clog 2 deg / 2)
        (Nat.clog 2 deg) (by omega) (by omega) hM hs1 hsd hss hsInv fuel deg _ cs (le_refl _)
        (by omega) hdM hlen1 h64
      rw [hcost] at hrec
      refine ⟨hrec.1, fun hG h => hrec.2 ?_ h⟩
      rcases hG with h8 | hl
      · left
        have : Nat.clog 2 deg ≤ 3 := (Nat.le_pow_iff_clog_le (by norm_num)).mp (by omega)
        omega
      · exact Or.inr hl
    · rw [e, bind_error_eq]
      refine ⟨fun r h => (by cases h), fun _ h => ?_⟩
      exfalso
      rcases hm with h | ⟨i, hi1, hi2, h⟩
      · have : Nat.clog 2 m ≤ Nat.clog 2 deg / 2 :=
          (Nat.le_pow_iff_clog_le (by norm_num)).mp h
        omega
      · have : Nat.clog 2 m ≤ i := (Nat.le_pow_iff_clog_le (by norm_num)).mp h
        omega

/-! ## Levels under the weakest reading of the constant operations -/

theorem constFree_between {α : Type} (ops : Ops α) (lvl : α → Nat) (hk : ConstFree ops lvl) :
    ConstBetween ops lvl :=
  ⟨hk.1, fun c k acc => by
    rw [hk.2]
    exact ⟨Nat.min_le_right _ _, le_refl _⟩⟩

theorem contractOps_between (accMin : Bool) (Δ : Nat) :
    ConstBetween (contractOps accMin Δ) Ct.level := by
  refine ⟨fun _ _ => rfl, fun c k acc => ?_⟩
  cases accMin
  · exact ⟨Nat.min_le_right _ _, le_refl _⟩
  · exact ⟨le_refl _, Nat.min_le_right _ _⟩

/-- The base case on levels under `ConstBetween`: a result is at least one
level below `C[1]` and at most one level below the lowest power the list can
reach; there is a result when `C[1]` has that many levels. -/
theorem evaluatePolyFromPowerBasis_between {α : Type} (ops : Ops α) (lvl : α → Nat)
    (hc : LevelContract ops lvl) (hb : ConstBetween ops lvl) (cs : List Cplx) (C : Basis α)
    (c1 : α) (hne : cs ≠ []) (hlen : cs.length < 2 ^ 64) (h1 : C.get? 1 = some c1)
    (hC : ∀ k, 1 ≤ k → k < cs.length → ∃ v, C.get? k = some v)
    (hInv : ∀ k v, C.get? k = some v → lvl v + Nat.clog 2 k = lvl c1) :
    (∀ r, evaluatePolyFromPowerBasis ops cs C = .ok r →
        lvl r + 1 ≤ lvl c1 ∧ lvl c1 ≤ lvl r + (Nat.clog 2 (cs.length - 1) + 1)) ∧
      (Nat.clog 2 (cs.length - 1) + 1 ≤ lvl c1 →
        ∃ r, evaluatePolyFromPowerBasis ops cs C = .ok r) := by
  have hpos : 0 < cs.length := List.length_pos.mpr hne
  rw [evaluatePolyFromPowerBasis_eq ops cs C c1 h1 hne hlen]
  obtain ⟨acc, hacc, hq1, hq2⟩ := accumulate_spec ops cs C
    (fun _ res => lvl res ≤ lvl c1 ∧ lvl c1 ≤ lvl res + Nat.clog 2 (cs.length - 1))
    (by
      intro key res c ck hcg hck hq
      show lvl (if significant c then ops.multByConstAndAdd ck c res else res) ≤ lvl c1 ∧
        lvl c1 ≤ lvl (if significant c then ops.multByConstAndAdd ck c res else res)
          + Nat.clog 2 (cs.length - 1)
      obtain ⟨hq1, hq2⟩ := hq
      split_ifs
      · obtain ⟨hm1, hm2⟩ := hb.2 ck c res
        have hkl : key + 1 < cs.length := by
          by_contra hge
          rw [List.getElem?_eq_none (by omega)] at hcg
          cases hcg
        have hmono : Nat.clog 2 (key + 1) ≤ Nat.clog 2 (cs.length - 1) :=
          Nat.clog_mono_right 2 (by omega)
        have hlv := hInv _ _ hck
        have hmc := min_choice (lvl ck) (lvl res)
        constructor
        · omega
        · rcases hmc with h | h <;> omega
      · exact ⟨hq1, hq2⟩)
    (cs.length - 1)
    (if significant (cs.getD 0 0) then ops.addConst (ops.newCiphertext c1) (cs.getD 0 0)
      else ops.newCiphertext c1)
    (by omega) (fun k hk1 hk2 => hC k hk1 (by omega))
    (by
      show lvl (if significant (cs.getD 0 0) then
          ops.addConst (ops.newCiphertext c1) (cs.getD 0 0) else ops.newCiphertext c1) ≤ lvl c1 ∧
        lvl c1 ≤ lvl (if significant (cs.getD 0 0) then
          ops.addConst (ops.newCiphertext c1) (cs.getD 0 0) else ops.newCiphertext c1)
            + Nat.clog 2 (cs.length - 1)
      split_ifs
      · rw [hb.1, hc.new_lvl]
        omega
      · rw [hc.new_lvl]
        omega)
  rw [hacc, bind_ok_eq]
  refine ⟨fun r hr => ?_, fun h => ?_⟩
  · cases hres : ops.rescale acc with
    | error e =>
      rw [hres] at hr
      cases hr
    | ok r1 =>
      have h3 := hc.res_lvl acc r1 hres
      rw [hres] at hr
      cases hr
      omega
  · obtain ⟨r, hr⟩ := hc.res_ok acc (by omega)
    exact ⟨r, by rw [hr]; rfl⟩

theorem levelCostMax_le (L len m : Nat) (hm : m ≤ 64) (hlen : len - 1 ≤ 2 ^ m) :
    levelCostMax L len m ≤ m + 1 := by
  unfold levelCostMax
  split_ifs
  · have : Nat.clog 2 (len - 1) ≤ m := (Nat.le_pow_iff_clog_le (by norm_num)).mp hlen
    omega
  · have := (shrinkM_spec (len - 1) m hm hlen).1
    omega

/-- The combine step on levels under `ConstBetween`: the result is `m + 1` or
`m + 2` levels below `C[1]` when the power `C[d]` is `m` levels below it. -/
theorem combine_between {α : Type} (ops : Ops α) (lvl : α → Nat) (lenient : Prop)
    (hc : LevelContract ops lvl) (ha : AddLevel ops lvl lenient) (lv m hiH hiL : Nat)
    (rH rL : Except Err α) (cd : α) (hcd : lvl cd + m = lv) (hhH : hiH ≤ m + 1)
    (hhL : hiL ≤ m + 1)
    (hH : (∀ r, rH = .ok r → lv ≤ lvl r + hiH) ∧ (lenient → hiH ≤ lv → ∃ r, rH = .ok r))
    (hLo : (∀ r, rL = .ok r → lv ≤ lvl r + hiL) ∧ (lenient → hiL ≤ lv → ∃ r, rL = .ok r)) :
    (∀ r, (rH >>= fun res => rL >>= fun tmp =>
        liftOp (ops.mulRelin res cd) >>= fun w =>
          liftOp (ops.add w tmp) >>= fun w2 => liftOp (ops.rescale w2)) = .ok r →
        lvl r + (m + 1) ≤ lv ∧ lv ≤ lvl r + (m + 2)) ∧
      (lenient → m + 2 ≤ lv →
        ∃ r, (rH >>= fun res => rL >>= fun tmp =>
          liftOp (ops.mulRelin res cd) >>= fun w =>
            liftOp (ops.add w tmp) >>= fun w2 => liftOp (ops.rescale w2)) = .ok r) := by
  constructor
  · intro r hr
    cases rH with
    | error e => cases hr
    | ok h =>
      cases rL with
      | error e => cases hr
      | ok l =>
        rw [bind_ok_eq, bind_ok_eq] at hr
        have hh := hH.1 h rfl
        have hl := hLo.1 l rfl
        cases em : ops.mulRelin h cd with
        | error e =>
          rw [em] at hr
          cases hr
        | ok w =>
          rw [em, liftOp_ok, bind_ok_eq] at hr
          cases ea : ops.add w l with
          | error e =>
            rw [ea] at hr
            cases hr
          | ok w2 =>
            rw [ea, liftOp_ok, bind_ok_eq] at hr
            cases er : ops.rescale w2 with
            | error e =>
              rw [er] at hr
              cases hr
            | ok r1 =>
              have h3 := hc.res_lvl w2 r1 er
              rw [er] at hr
              cases hr
              have h1 := hc.mul_lvl h cd w em
              have h2 := ha.1 w l w2 ea
              simp only [Nat.min_def] at h1 h2
              split_ifs at h1 h2 <;> omega
  · intro hlen hlv
    obtain ⟨h, hh⟩ := hH.2 hlen (by omega)
    obtain ⟨l, hl⟩ := hLo.2 hlen (by omega)
    have hhl := hH.1 h hh
    have hll := hLo.1 l hl
    obtain ⟨w, hw⟩ := hc.mul_ok h cd (by omega) (by omega)
    have h1 := hc.mul_lvl h cd w hw
    obtain ⟨w2, hw2⟩ := ha.2 w l (Or.inr hlen)
    have h2 := ha.1 w l w2 hw2
    obtain ⟨r, hr⟩ := hc.res_ok w2 (by
      simp only [Nat.min_def] at h1 h2
      split_ifs at h1 h2 <;> omega)
    exact ⟨r, by rw [hh, hl, bind_ok_eq, bind_ok_eq, hw, liftOp_ok, bind_ok_eq, hw2, liftOp_ok,
      bind_ok_eq, hr, liftOp_ok]⟩

/-- The levels of `recurse` under `ConstBetween`, for every `L`: a result is
between `levelCost` and `levelCostMax` levels below `C[1]`, and there is a
result when `C[1]` has `levelCostMax` levels and `Add` accepts operands of
different level. -/
theorem recurse_between {α : Type} (ops : Ops α) (lvl : α → Nat) (lenient : Prop)
    (hc : LevelContract ops lvl) (hb : ConstBetween ops lvl) (ha : AddLevel ops lvl lenient)
    (C : Basis α) (c1 : α) (L M0 : Nat) (hL : L ≤ 32) (hM0 : M0 ≤ 64)
    (h1 : C.get? 1 = some c1)
    (hdense : ∀ k, 1 ≤ k → k ≤ 2 ^ L → ∃ v, C.get? k = some v)
    (hsparse : ∀ i, L < i → i < M0 → ∃ v, C.get? (2 ^ i) = some v)
    (hInv : ∀ k v, C.get? k = some v → lvl v + Nat.clog 2 k = lvl c1)
    (fuel n M : Nat) (coeffs : List Cplx) (hM : M ≤ M0) (hf : M < fuel) (hn : n ≤ 2 ^ M)
    (hlen : coeffs.length = n + 1) (h64 : n + 1 < 2 ^ 63) :
    (∀ r, recurse ops fuel n L M coeffs C = .ok r →
        lvl r + levelCost L coeffs.length M ≤ lvl c1 ∧
          lvl c1 ≤ lvl r + levelCostMax L coeffs.length M) ∧
      (lenient → levelCostMax L coeffs.length M ≤ lvl c1 →
        ∃ r, recurse ops fuel n L M coeffs C = .ok r) := by
  have hLpos : 0 < 2 ^ L := Nat.pow_pos (by norm_num)
  have hL32 : 2 ^ L ≤ 2 ^ 32 := Nat.pow_le_pow_right (by norm_num) hL
  exact recurse_spec ops C L M0 (by omega) hM0
    (fun M cs r => (∀ v, r = .ok v → lvl v + levelCost L cs.length M ≤ lvl c1 ∧
        lvl c1 ≤ lvl v + levelCostMax L cs.length M) ∧
      (lenient → levelCostMax L cs.length M ≤ lvl c1 → ∃ v, r = .ok v))
    (hdense _ hLpos (le_refl _)) hsparse
    (by
      intro M cs hne hclen
      obtain ⟨hb1, hb2⟩ := evaluatePolyFromPowerBasis_between ops lvl hc hb cs C c1 hne
        (by omega) h1 (fun k hk1 hk2 => hdense k hk1 (by omega)) hInv
      have hlo : levelCost L cs.length M = 1 := by
        unfold levelCost
        rw [if_pos hclen]
      have hhi : levelCostMax L cs.length M = Nat.clog 2 (cs.length - 1) + 1 := by
        unfold levelCostMax
        rw [if_pos hclen]
      rw [hlo, hhi]
      exact ⟨hb1, fun _ h => hb2 h⟩)
    (by
      intro n M cs rH rL cd hMM0 hn hLn hclen hH hLo hcd
      obtain ⟨hM1, hLM, hs1, hdn, hdbl, hdpos⟩ := shrinkM_facts n L M (by omega) hn hLn
      have hcdl := hInv _ _ hcd
      rw [Nat.clog_pow 2 _ (by norm_num)] at hcdl
      have hlenH : (cs.drop (2 ^ (shrinkM n M - 1))).length = n - 2 ^ (shrinkM n M - 1) + 1 := by
        rw [List.length_drop]
        omega
      have hlenL : (cs.take (2 ^ (shrinkM n M - 1))).length = 2 ^ (shrinkM n M - 1) := by
        rw [List.length_take]
        omega
      rw [hlenH] at hH
      rw [hlenL] at hLo
      have hhH := levelCostMax_le L (n - 2 ^ (shrinkM n M - 1) + 1) (shrinkM n M - 1)
        (by omega) (by omega)
      have hhL := levelCostMax_le L (2 ^ (shrinkM n M - 1)) (shrinkM n M - 1) (by omega)
        (by omega)
      have hlo : levelCost L cs.length M = shrinkM n M - 1 + 1 := by
        unfold levelCost
        rw [hclen, Nat.add_sub_cancel, if_neg (by omega)]
        omega
      have hhi : levelCostMax L cs.length M = shrinkM n M - 1 + 2 := by
        unfold levelCostMax
        rw [hclen, Nat.add_sub_cancel, if_neg (by omega)]
        omega
      rw [hlo, hhi]
      exact combine_between ops lvl lenient hc ha (lvl c1) (shrinkM n M - 1) _ _ rH rL cd hcdl
        hhH hhL ⟨fun r hr => (hH.1 r hr).2, hH.2⟩ ⟨fun r hr => (hLo.1 r hr).2, hLo.2⟩)
    fuel n M coeffs hM hf hn hlen h64

/-- The parameters of the top call of `recurse`, for degree at least 1: the
number of levels it uses is at least `max 1 ⌈log2 deg⌉` and at most
`⌈log2 deg⌉ + 1`, for either strategy. -/
theorem levelCost_top (deg L : Nat) (hdeg : 1 ≤ deg) (h64 : deg < 2 ^ 63)
    (hL : L = 1 ∨ L = Nat.clog 2 deg >>> 1) :
    levelCost L (deg + 1) (Nat.clog 2 deg) = max 1 (Nat.clog 2 deg) ∧
      levelCostMax L (deg + 1) (Nat.clog 2 deg) = Nat.clog 2 deg + 1 ∧
      L ≤ Nat.clog 2 deg + 1 ∧ L ≤ 32 := by
  have hM : Nat.clog 2 deg ≤ 64 := (Nat.le_pow_iff_clog_le (by norm_num)).mp (by
    have : (2 : Nat) ^ 63 < 2 ^ 64 := by norm_num
    omega)
  have hshift : Nat.clog 2 deg >>> 1 = Nat.clog 2 deg / 2 := by
    rw [Nat.shiftRight_eq_div_pow, pow_one]
  have hL32 : L ≤ 32 := by
    rcases hL with h | h <;> omega
  have hLle : L ≤ Nat.clog 2 deg + 1 := by
    rcases hL with h | h <;> omega
  unfold levelCost levelCostMax
  rw [Nat.add_sub_cancel]
  by_cases h1 : deg = 1
  · subst h1
    rw [Nat.clog_one_right] at hshift hLle ⊢
    have hLpos : 0 < 2 ^ L := Nat.pow_pos (by norm_num)
    rw [if_pos (by omega), if_pos (by omega)]
    exact ⟨by simp, rfl, hLle, hL32⟩
  · have hge : 1 ≤ Nat.clog 2 deg := Nat.clog_pos (by norm_num) (by omega)
    have hlo := @Nat.pow_pred_clog_lt_self 2 (by norm_num) deg (by omega)
    rw [Nat.pred_eq_sub_one] at hlo
    rw [Nat.max_eq_right hge]
    by_cases hb : deg + 1 ≤ 2 ^ L + 1
    · have hcl : Nat.clog 2 deg ≤ L := (Nat.le_pow_iff_clog_le (by norm_num)).mp (by omega)
      have hL1 : L = 1 := by
        rcases hL with h | h <;> omega
      rw [if_pos hb, if_pos hb]
      exact ⟨by omega, rfl, hLle, hL32⟩
    · rw [if_neg hb, if_neg hb, shrinkM_eq deg _ hM (by omega) (by omega)]
      exact ⟨rfl, rfl, hLle, hL32⟩

/-- Either strategy on levels under `ConstBetween`. -/
theorem evaluatePoly_between {α : Type} (ops : Ops α) (lvl : α → Nat) (lenient : Prop)
    (hc : LevelContract ops lvl) (hb : ConstBetween ops lvl) (ha : AddLevel ops lvl lenient)
    (fuel : Nat) (hfuel : 2 ^ 64 ≤ fuel) (ct : α) (arg : CoeffsArg) (deg : Nat)
    (cs : List Cplx) (hconv : convertCoeffs arg = .ok (deg, cs)) (hne : cs ≠ [])
    (hlen : cs.length < 2 ^ 63) (hdeg : 1 ≤ deg) (L : Nat)
    (hL : L = 1 ∨ L = len64 (sub64 deg 1) >>> 1) :
    (∀ r, (buildPowerBasis ops fuel ct L (len64 (sub64 deg 1)) >>= fun s =>
          recurse ops fuel deg L (len64 (sub64 deg 1)) cs s.C) = .ok r →
        lvl r + max 1 (Nat.clog 2 deg) ≤ lvl ct ∧ lvl ct ≤ lvl r + (Nat.clog 2 deg + 1)) ∧
      (lenient → Nat.clog 2 deg + 1 ≤ lvl ct →
        ∃ r, (buildPowerBasis ops fuel ct L (len64 (sub64 deg 1)) >>= fun s =>
          recurse ops fuel deg L (len64 (sub64 deg 1)) cs s.C) = .ok r) := by
  obtain ⟨hlen1, h64, hM, hdM, hsub, _⟩ := degree_facts arg deg cs hconv hne hlen
  have hMc : len64 (sub64 deg 1) = Nat.clog 2 deg := by
    rw [hsub hdeg]
    exact len64_pred_eq_clog deg hdeg (by omega)
  rw [hMc] at hL hM hdM ⊢
  obtain ⟨hlo, hhi, hLle, hL32⟩ := levelCost_top deg L hdeg (by omega) hL
  rcases buildPowerBasis_level ops lvl hc fuel hfuel ct L (Nat.clog 2 deg) hL32 hM with
    ⟨s, e, hs1, hsd, hss, hsInv⟩ | ⟨e, m, hm, hlt⟩
  · rw [e, bind_ok_eq]
    have hrec := recurse_between ops lvl lenient hc hb ha s.C ct L (Nat.clog 2 deg) hL32 hM hs1
      hsd hss hsInv fuel deg _ cs (le_refl _) (by omega) hdM hlen1 h64
    rw [hlen1, hlo, hhi] at hrec
    exact hrec
  · rw [e, bind_error_eq]
    refine ⟨fun r h => (by cases h), fun _ h => ?_⟩
    exfalso
    rcases hm with h | ⟨i, hi1, hi2, h⟩
    · have : Nat.clog 2 m ≤ L := (Nat.le_pow_iff_clog_le (by norm_num)).mp h
      omega
    · have : Nat.clog 2 m ≤ i := (Nat.le_pow_iff_clog_le (by norm_num)).mp h
      omega

theorem lenientOps_contract : LevelContract lenientOps (fun l => l) where
  mul_ok u v hu hv := ⟨min u v, by
    simp only [lenientOps]
    rw [if_neg (by omega)]⟩
  mul_lvl u v w h := by
    simp only [lenientOps] at h
    split_ifs at h
    cases h
    rfl
  mul_fail u v h := by
    simp only [lenientOps]
    rw [if_pos h]
  res_ok w hw := ⟨w - 1, by
    simp only [lenientOps]
    rw [if_neg (by omega)]⟩
  res_lvl w w1 h := by
    simp only [lenientOps] at h
    split_ifs at h with h0
    cases h
    omega
  res_fail w h := by
    simp only [lenientOps]
    rw [if_pos h]
  new_lvl _ := rfl

theorem lenientOps_between : ConstBetween lenientOps (fun l => l) :=
  ⟨fun _ _ => rfl, fun _ _ _ => ⟨le_refl _, Nat.min_le_right _ _⟩⟩

theorem lenientOps_addLevel : AddLevel lenientOps (fun l => l) True := by
  refine ⟨fun u v w h => ?_, fun u v _ => ⟨min u v, rfl⟩⟩
  simp only [lenientOps] at h
  cases h
  rfl

/-! ## Claims on levels -/

/-- C2 (amended). Tracking only levels, for primitives with the contracts of
section 6 (`MulRelin` yields the minimum of its operands' levels, `Rescale`
lowers the level by exactly 1, both fail at level 0 only), an `Add` whose sum,
when there is one, is at the lower of its operands' levels, and constant
operations that cost no level (`MultByConstAndAdd` leaves the accumulator at
its level or lowers it no further than the level of the ciphertext multiplied
in): for every polynomial of degree `deg ≥ 1`, every result of
`EvaluatePolyEco` and every result of `EvaluatePolyFast` is at least
`max 1 ⌈log2 deg⌉` and at most `⌈log2 deg⌉ + 1` levels below the input; both
return a result when the input has `⌈log2 deg⌉ + 1` levels and `Add` accepts
operands of different level.  When moreover `MultByConstAndAdd` leaves the
accumulator's level unchanged, every result of `EvaluatePolyEco` is exactly
`max 1 ⌈log2 deg⌉` levels below the input (one level, not zero, for degree 1),
`EvaluatePolyEco` returns a result whenever the input has that many levels, and
`EvaluatePolyFast` returns one for degree at most 8 whenever the input has
`⌈log2 deg⌉ + 1` levels. -/
theorem evaluatePoly_depth {α : Type} (ops : Ops α) (lvl : α → Nat) (lenient : Prop)
    (hc : LevelContract ops lvl) (hb : ConstBetween ops lvl) (ha : AddLevel ops lvl lenient)
    (fuel : Nat) (hfuel : 2 ^ 64 ≤ fuel) (ct : α) (arg : CoeffsArg) (deg : Nat)
    (cs : List Cplx) (hconv : convertCoeffs arg = .ok (deg, cs)) (hne : cs ≠ [])
    (hlen : cs.length < 2 ^ 63) (hdeg : 1 ≤ deg) :
    (∀ r, EvaluatePolyEco ops fuel ct arg = .ok r →
        lvl r + max 1 (Nat.clog 2 deg) ≤ lvl ct ∧ lvl ct ≤ lvl r + (Nat.clog 2 deg + 1)) ∧
      (∀ r, EvaluatePolyFast ops fuel ct arg = .ok r →
        lvl r + max 1 (Nat.clog 2 deg) ≤ lvl ct ∧ lvl ct ≤ lvl r + (Nat.clog 2 deg + 1)) ∧
      (lenient → Nat.clog 2 deg + 1 ≤ lvl ct →
        (∃ r, EvaluatePolyEco ops fuel ct arg = .ok r) ∧
          ∃ r, EvaluatePolyFast ops fuel ct arg = .ok r) ∧
      (ConstFree ops lvl →
        (∀ r, EvaluatePolyEco ops fuel ct arg = .ok r →
          lvl r + max 1 (Nat.clog 2 deg) = lvl ct) ∧
        (max 1 (Nat.clog 2 deg) ≤ lvl ct → ∃ r, EvaluatePolyEco ops fuel ct arg = .ok r) ∧
        (deg ≤ 8 → Nat.clog 2 deg + 1 ≤ lvl ct →
          ∃ r, EvaluatePolyFast ops fuel ct arg = .ok r)) := by
  have hE := evaluatePoly_between ops lvl lenient hc hb ha fuel hfuel ct arg deg cs hconv hne
    hlen hdeg 1 (Or.inl rfl)
  have hF := evaluatePoly_between ops lvl lenient hc hb ha fuel hfuel ct arg deg cs hconv hne
    hlen hdeg _ (Or.inr rfl)
  rw [← evaluatePolyEco_eq ops fuel ct arg deg cs hconv] at hE
  rw [← evaluatePolyFast_eq ops fuel ct arg deg cs hconv] at hF
  refine ⟨hE.1, hF.1, fun hl h => ⟨hE.2 hl h, hF.2 hl h⟩, fun hk => ?_⟩
  obtain ⟨hE1, hE2⟩ := evaluatePolyEco_level ops lvl lenient hc hk ha fuel hfuel ct arg deg cs
    hconv hne hlen hdeg
  obtain ⟨_, hF2⟩ := evaluatePolyFast_level ops lvl lenient hc hk ha fuel hfuel ct arg deg cs
    hconv hne hlen hdeg
  refine ⟨hE1, hE2, fun h8 h => hF2 (Or.inl h8) ?_⟩
  by_cases h2 : deg ≤ 2
  · rw [if_pos h2]
    by_cases h1 : deg = 1
    · omega
    · have : 0 < Nat.clog 2 deg := Nat.clog_pos (by norm_num) (by omega)
      omega
  · rw [if_neg h2]
    omega

theorem evaluatePoly_depth_witness :
    ((∀ r, EvaluatePolyEco levelOps (2 ^ 64) 7 (.floats [1, 2, 3, 4, 5, 6]) = .ok r →
        r + max 1 (Nat.clog 2 5) ≤ 7 ∧ 7 ≤ r + (Nat.clog 2 5 + 1)) ∧
      (∀ r, EvaluatePolyFast levelOps (2 ^ 64) 7 (.floats [1, 2, 3, 4, 5, 6]) = .ok r →
        r + max 1 (Nat.clog 2 5) ≤ 7 ∧ 7 ≤ r + (Nat.clog 2 5 + 1)) ∧
      (False → Nat.clog 2 5 + 1 ≤ 7 →
        (∃ r, EvaluatePolyEco levelOps (2 ^ 64) 7 (.floats [1, 2, 3, 4, 5, 6]) = .ok r) ∧
          ∃ r, EvaluatePolyFast levelOps (2 ^ 64) 7 (.floats [1, 2, 3, 4, 5, 6]) = .ok r) ∧
      (ConstFree levelOps (fun l => l) →
        (∀ r, EvaluatePolyEco levelOps (2 ^ 64) 7 (.floats [1, 2, 3, 4, 5, 6]) = .ok r →
          r + max 1 (Nat.clog 2 5) = 7) ∧
        (max 1 (Nat.clog 2 5) ≤ 7 →
          ∃ r, EvaluatePolyEco levelOps (2 ^ 64) 7 (.floats [1, 2, 3, 4, 5, 6]) = .ok r) ∧
        (5 ≤ 8 → Nat.clog 2 5 + 1 ≤ 7 →
          ∃ r, EvaluatePolyFast levelOps (2 ^ 64) 7 (.floats [1, 2, 3, 4, 5, 6]) = .ok r))) ∧
    ((∀ r, EvaluatePolyEco lenientOps (2 ^ 64) 7 (.floats [1, 2, 3, 4, 5, 6, 7, 8, 9, 10]) = .ok r →
        r + max 1 (Nat.clog 2 9) ≤ 7 ∧ 7 ≤ r + (Nat.clog 2 9 + 1)) ∧
      (∀ r, EvaluatePolyFast lenientOps (2 ^ 64) 7 (.floats [1, 2, 3, 4, 5, 6, 7, 8, 9, 10]) = .ok r →
        r + max 1 (Nat.clog 2 9) ≤ 7 ∧ 7 ≤ r + (Nat.clog 2 9 + 1)) ∧
      (True → Nat.clog 2 9 + 1 ≤ 7 →
        (∃ r, EvaluatePolyEco lenientOps (2 ^ 64) 7 (.floats [1, 2, 3, 4, 5, 6, 7, 8, 9, 10]) = .ok r) ∧
          ∃ r, EvaluatePolyFast lenientOps (2 ^ 64) 7 (.floats [1, 2, 3, 4, 5, 6, 7, 8, 9, 10]) = .ok r) ∧
      (ConstFree lenientOps (fun l => l) →
        (∀ r, EvaluatePolyEco lenientOps (2 ^ 64) 7 (.floats [1, 2, 3, 4, 5, 6, 7, 8, 9, 10]) = .ok r →
          r + max 1 (Nat.clog 2 9) = 7) ∧
        (max 1 (Nat.clog 2 9) ≤ 7 →
          ∃ r, EvaluatePolyEco lenientOps (2 ^ 64) 7 (.floats [1, 2, 3, 4, 5, 6, 7, 8, 9, 10]) = .ok r) ∧
        (9 ≤ 8 → Nat.clog 2 9 + 1 ≤ 7 →
          ∃ r, EvaluatePolyFast lenientOps (2 ^ 64) 7 (.floats [1, 2, 3, 4, 5, 6, 7, 8, 9, 10]) = .ok r))) :=
  ⟨evaluatePoly_depth levelOps (fun l => l) False levelOps_contract
      (constFree_between levelOps (fun l => l) levelOps_constFree) levelOps_addLevel (2 ^ 64)
      (le_refl _) 7 (.floats [1, 2, 3, 4, 5, 6]) 5
      ([1, 2, 3, 4, 5, 6].map (fun r => (⟨r, 0⟩ : Cplx)))
      (convertCoeffs_floats _ (by simp) (by norm_num)) (by simp) (by norm_num) (by norm_num),
    evaluatePoly_depth lenientOps (fun l => l) True lenientOps_contract
      lenientOps_between lenientOps_addLevel (2 ^ 64)
      (le_refl _) 7 (.floats [1, 2, 3, 4, 5, 6, 7, 8, 9, 10]) 9
      ([1, 2, 3, 4, 5, 6, 7, 8, 9, 10].map (fun r => (⟨r, 0⟩ : Cplx)))
      (convertCoeffs_floats _ (by simp) (by norm_num)) (by simp) (by norm_num) (by norm_num)⟩

/-- C2, counterexample. For the degree-1 polynomial `1 + x` on an input of
level 5 the Economical strategy returns level 4: with the primitives that keep
level and scale, under either reading of `MultByConstAndAdd`, and with the
level-only primitives, strict or lenient.  One level is used, while
`⌈log2 1⌉ = 0`. -/
theorem evaluatePolyEco_degree_one_uses_a_level :
    EvaluatePolyEco (contractOps true 2) (2 ^ 64) ⟨5, 2⟩ (.floats [1, 1]) = .ok ⟨4, 2⟩ ∧
      EvaluatePolyEco (contractOps false 2) (2 ^ 64) ⟨5, 2⟩ (.floats [1, 1]) = .ok ⟨4, 2⟩ ∧
      EvaluatePolyEco lenientOps (2 ^ 64) 5 (.floats [1, 1]) = .ok 4 ∧
      EvaluatePolyEco levelOps (2 ^ 64) 5 (.floats [1, 1]) = .ok 4 ∧
      ¬ (5 - 4 ≤ Nat.clog 2 1) :=
  ⟨rfl, rfl, rfl, rfl, by rw [Nat.clog_one_right]; decide⟩

/-- The two readings of `MultByConstAndAdd` set apart.  For the degree-2
polynomial `1 + 2x + 3x²` on an input of level 5, `EvaluatePolyEco` returns
level 3 when the accumulator drops to the level of the ciphertext multiplied in
and level 4 when it keeps its level; for degree 4 the lenient record returns
level 2 and the strict one level 3, while `⌈log2 4⌉ = 2`.  For degree 9 on an
input of level 7, `EvaluatePolyFast` returns level 2 with the lenient record,
`⌈log2 9⌉ + 1` levels below the input, and fails at an `Add` with the strict
one. -/
theorem evaluatePoly_readings_differ :
    EvaluatePolyEco (contractOps true 2) (2 ^ 64) ⟨5, 2⟩ (.floats [1, 2, 3]) = .ok ⟨3, 2⟩ ∧
      EvaluatePolyEco (contractOps false 2) (2 ^ 64) ⟨5, 2⟩ (.floats [1, 2, 3]) = .ok ⟨4, 2⟩ ∧
      EvaluatePolyEco lenientOps (2 ^ 64) 5 (.floats [1, 2, 3, 4, 5]) = .ok 2 ∧
      EvaluatePolyEco levelOps (2 ^ 64) 5 (.floats [1, 2, 3, 4, 5]) = .ok 3 ∧
      EvaluatePolyFast lenientOps (2 ^ 64) 7 (.floats [1, 2, 3, 4, 5, 6, 7, 8, 9, 10]) = .ok 2 ∧
      EvaluatePolyFast levelOps (2 ^ 64) 7 (.floats [1, 2, 3, 4, 5, 6, 7, 8, 9, 10])
        = .error (.op .levelScaleMismatch) :=
  ⟨rfl, rfl, rfl, rfl, rfl, rfl⟩

/-! ## Scales at the addition of `recurse` -/

theorem contractOps_scale (accMin : Bool) : ScaleContract (contractOps accMin 2) Ct.scale 2 where
  res_scale w w1 h := by
    simp only [contractOps] at h
    split_ifs at h
    cases h
    rfl
  mul_scale u v w hu hv h := by
    simp only [contractOps] at h
    split_ifs at h
    cases h
    show u.scale * v.scale ≠ 2
    rw [hu, hv]
    decide
  add_scale u v w h := by
    simp only [contractOps] at h
    split_ifs at h with hh
    exact hh.2
  add_err u v e h := by
    simp only [contractOps] at h
    split_ifs at h
    cases h
    rfl

/-- Every entry of the power basis is at the ambient scale when the input is. -/
theorem buildPowerBasis_scale {α σ : Type} (ops : Ops α) (scale : α → σ) (Δ : σ)
    (hs : ScaleContract ops scale Δ) (fuel : Nat) (hfuel : 2 ^ 64 ≤ fuel) (ct : α)
    (hct : scale ct = Δ) (L M : Nat) (hL : L < 64) (hM : M ≤ 64) (s : PowerBasis α)
    (e : buildPowerBasis ops fuel ct L M = .ok s) :
    ∀ k v, s.C.get? k = some v → scale v = Δ := by
  rcases buildPowerBasis_spec ops (fun _ v => scale v = Δ) (fun _ => True)
      (fun _ _ _ => ⟨trivial, trivial⟩)
      (fun _ _ _ w w1 _ _ _ _ _ hr => hs.res_scale w w1 hr)
      (fun _ _ => True) (fun _ _ _ _ _ _ _ _ _ => trivial)
      fuel ct L M hfuel hL hM hct (fun _ _ _ => trivial) (fun _ _ _ => trivial) with
    ⟨s1, e1, _, _, _, hInv, _, _⟩ | ⟨oe, e1, _⟩
  · rw [e] at e1
    cases e1
    exact hInv
  · rw [e] at e1
    cases e1

/-- The result of the base case is a rescaled accumulator. -/
theorem evaluatePolyFromPowerBasis_rescaled {α : Type} (ops : Ops α) (coeffs : List Cplx)
    (C : Basis α) (c1 : α) (h1 : C.get? 1 = some c1) (hne : coeffs ≠ [])
    (hlen : coeffs.length < 2 ^ 64) (v : α)
    (h : evaluatePolyFromPowerBasis ops coeffs C = .ok v) :
    ∃ acc, ops.rescale acc = .ok v := by
  rw [evaluatePolyFromPowerBasis_eq ops coeffs C c1 h1 hne hlen] at h
  cases ha : accumulate ops coeffs C (coeffs.length - 1)
      (if significant (coeffs.getD 0 0) then ops.addConst (ops.newCiphertext c1)
        (coeffs.getD 0 0) else ops.newCiphertext c1) with
  | error e =>
    rw [ha] at h
    cases h
  | ok acc =>
    rw [ha, bind_ok_eq] at h
    refine ⟨acc, ?_⟩
    cases hr : ops.rescale acc with
    | error e =>
      rw [hr] at h
      cases h
    | ok w =>
      rw [hr] at h
      cases h
      rfl

/-- The combine step of `recurse` on two results at the ambient scale: the
product is not at the ambient scale, the low part is, so `Add` returns no sum;
when the multiplication succeeds the step fails with `LevelScaleMismatch`. -/
theorem combine_scale {α σ : Type} (ops : Ops α) (scale : α → σ) (Δ : σ)
    (hs : ScaleContract ops scale Δ) (res tmp cd : α) (hres : scale res = Δ)
    (htmp : scale tmp = Δ) (hcd : scale cd = Δ) :
    (∀ v, (liftOp (ops.mulRelin res cd) >>= fun w =>
        liftOp (ops.add w tmp) >>= fun w2 => liftOp (ops.rescale w2)) ≠ .ok v) ∧
      ((∃ w, ops.mulRelin res cd = .ok w) →
        (liftOp (ops.mulRelin res cd) >>= fun w =>
          liftOp (ops.add w tmp) >>= fun w2 => liftOp (ops.rescale w2))
            = .error (.op .levelScaleMismatch)) := by
  cases hm : ops.mulRelin res cd with
  | error e =>
    refine ⟨fun v h => (by cases h), fun h => ?_⟩
    obtain ⟨w, hw⟩ := h
    cases hw
  | ok w =>
    have hw := hs.mul_scale res cd w hres hcd hm
    simp only [liftOp_ok, bind_ok_eq]
    cases hadd : ops.add w tmp with
    | ok w2 =>
      exact absurd ((hs.add_scale w tmp w2 hadd).trans htmp) hw
    | error e =>
      have he := hs.add_err w tmp e hadd
      rw [he]
      exact ⟨fun v h => (by cases h), fun _ => rfl⟩

/-- With the scale contracts, a call of `recurse` that returns a result is a
base case, and its result is at the ambient scale. -/
theorem recurse_scale {α σ : Type} (ops : Ops α) (scale : α → σ) (Δ : σ)
    (hs : ScaleContract ops scale Δ) (C : Basis α) (c1 : α) (L M0 : Nat) (hL : L < 64)
    (hM0 : M0 ≤ 64) (h1 : C.get? 1 = some c1)
    (hdense : ∃ v, C.get? (2 ^ L) = some v)
    (hsparse : ∀ i, L < i → i < M0 → ∃ v, C.get? (2 ^ i) = some v)
    (hInv : ∀ k v, C.get? k = some v → scale v = Δ)
    (fuel n M : Nat) (coeffs : List Cplx) (hM : M ≤ M0) (hf : M < fuel) (hn : n ≤ 2 ^ M)
    (hlen : coeffs.length = n + 1) (hn63 : n + 1 < 2 ^ 63) (v : α)
    (h : recurse ops fuel n L M coeffs C = .ok v) :
    scale v = Δ ∧ coeffs.length ≤ 2 ^ L + 1 := by
  have hLlt : 2 ^ L ≤ 2 ^ 63 := Nat.pow_le_pow_right (by norm_num) (by omega)
  exact recurse_spec ops C L M0 hL hM0
    (fun _ cs r => ∀ v, r = .ok v → scale v = Δ ∧ cs.length ≤ 2 ^ L + 1) hdense hsparse
    (by
      intro M cs hne hl v hv
      obtain ⟨acc, hacc⟩ := evaluatePolyFromPowerBasis_rescaled ops cs C c1 h1 hne (by omega) v hv
      exact ⟨hs.res_scale acc v hacc, hl⟩)
    (by
      intro n M cs rH rL cd _ _ _ _ hH hLo hcd v hv
      exfalso
      cases rH with
      | error e => cases hv
      | ok res =>
        cases rL with
        | error e => cases hv
        | ok tmp =>
          rw [bind_ok_eq, bind_ok_eq] at hv
          exact (combine_scale ops scale Δ hs res tmp cd (hH res rfl).1 (hLo tmp rfl).1
            (hInv _ cd hcd)).1 v hv)
    fuel n M coeffs hM hf hn hlen hn63 v h

/-- With the scale and the level contracts and enough levels, a call of
`recurse` either is a base case and returns a result at the ambient scale, or
fails with `LevelScaleMismatch`. -/
theorem recurse_mismatch {α σ : Type} (ops : Ops α) (scale : α → σ) (Δ : σ) (lvl : α → Nat)
    (hs : ScaleContract ops scale Δ) (hc : LevelContract ops lvl) (hb : ConstBetween ops lvl)
    (C : Basis α) (c1 : α) (L M0 : Nat) (hL : L ≤ 32) (hM0 : M0 ≤ 64)
    (h1 : C.get? 1 = some c1)
    (hdense : ∀ k, 1 ≤ k → k ≤ 2 ^ L → ∃ v, C.get? k = some v)
    (hsparse : ∀ i, L < i → i < M0 → ∃ v, C.get? (2 ^ i) = some v)
    (hInv : ∀ k v, C.get? k = some v → lvl v + Nat.clog 2 k = lvl c1)
    (hScale : ∀ k v, C.get? k = some v → scale v = Δ)
    (hlvl : L + 2 ≤ lvl c1 ∧ M0 ≤ lvl c1)
    (fuel n M : Nat) (coeffs : List Cplx) (hM : M ≤ M0) (hf : M < fuel) (hn : n ≤ 2 ^ M)
    (hlen : coeffs.length = n + 1) (hn63 : n + 1 < 2 ^ 63) :
    recurse ops fuel n L M coeffs C = .error (.op .levelScaleMismatch) ∨
      (coeffs.length ≤ 2 ^ L + 1 ∧ ∃ v, recurse ops fuel n L M coeffs C = .ok v ∧
        scale v = Δ ∧ lvl c1 ≤ lvl v + (L + 1)) := by
  have hLpos : 0 < 2 ^ L := Nat.pow_pos (by norm_num)
  have hL32 : 2 ^ L ≤ 2 ^ 32 := Nat.pow_le_pow_right (by norm_num) hL
  exact recurse_spec ops C L M0 (by omega) hM0
    (fun _ cs r => r = .error (.op .levelScaleMismatch) ∨
      (cs.length ≤ 2 ^ L + 1 ∧ ∃ v, r = .ok v ∧ scale v = Δ ∧ lvl c1 ≤ lvl v + (L + 1)))
    (hdense _ hLpos (le_refl _)) hsparse
    (by
      intro M cs hne hl
      right
      obtain ⟨hb1, hb2⟩ := evaluatePolyFromPowerBasis_between ops lvl hc hb cs C c1 hne
        (by omega) h1 (fun k hk1 hk2 => hdense k hk1 (by omega)) hInv
      have hcl : Nat.clog 2 (cs.length - 1) ≤ L :=
        (Nat.le_pow_iff_clog_le (by norm_num)).mp (by omega)
      obtain ⟨v, hv⟩ := hb2 (by omega)
      obtain ⟨acc, hacc⟩ := evaluatePolyFromPowerBasis_rescaled ops cs C c1 h1 hne (by omega) v hv
      have := (hb1 v hv).2
      exact ⟨hl, v, hv, hs.res_scale acc v hacc, by omega⟩)
    (by
      intro n M cs rH rL cd hMM hn hLn hlen hH hLo hcd
      left
      rcases hH with hH | ⟨_, res, hres, hsres, hlres⟩
      · rw [hH]
        rfl
      · rw [hres, bind_ok_eq]
        rcases hLo with hLo | ⟨_, tmp, htmp, hstmp, _⟩
        · rw [hLo]
          rfl
        · rw [htmp, bind_ok_eq]
          obtain ⟨hs1, _, hs3, _, _, _⟩ := shrinkM_facts n L M (by omega) hn hLn
          have hcdl := hInv _ cd hcd
          rw [Nat.clog_pow 2 _ (by norm_num)] at hcdl
          exact (combine_scale ops scale Δ hs res tmp cd hsres hstmp (hScale _ cd hcd)).2
            (hc.mul_ok res cd (by omega) (by omega)))
    fuel n M coeffs hM hf hn hlen hn63

/-- The base case never fails with `LevelScaleMismatch` when `MulRelin` and
`Rescale` follow the level contracts: it executes no `Add`. -/
theorem base_no_mismatch {α : Type} (ops : Ops α) (lvl : α → Nat) (hc : LevelContract ops lvl)
    (fuel : Nat) (hfuel : 2 ^ 64 ≤ fuel) (ct : α) (L M : Nat) (hL : L ≤ 32) (hM : M ≤ 64)
    (cs : List Cplx) (hne : cs ≠ []) (hl : cs.length ≤ 2 ^ L + 1) :
    (buildPowerBasis ops fuel ct L M >>= fun s => evaluatePolyFromPowerBasis ops cs s.C)
      ≠ .error (.op .levelScaleMismatch) := by
  have hL32 : 2 ^ L ≤ 2 ^ 32 := Nat.pow_le_pow_right (by norm_num) hL
  have hpos : 0 < cs.length := List.length_pos.mpr hne
  rcases buildPowerBasis_level ops lvl hc fuel hfuel ct L M hL hM with
    ⟨s, e, hs1, hsd, _, _⟩ | ⟨e, _⟩
  · rw [e, bind_ok_eq, evaluatePolyFromPowerBasis_eq ops cs s.C ct hs1 hne (by omega)]
    obtain ⟨acc, hacc, _⟩ := accumulate_spec ops cs s.C (fun _ _ => True)
      (fun _ _ _ _ _ _ _ => trivial) (cs.length - 1)
      (if significant (cs.getD 0 0) then ops.addConst (ops.newCiphertext ct) (cs.getD 0 0)
        else ops.newCiphertext ct) (by omega) (fun k hk1 hk2 => hsd k hk1 (by omega)) trivial
    rw [hacc, bind_ok_eq]
    by_cases h0 : lvl acc = 0
    · rw [hc.res_fail acc h0]
      intro h
      cases h
    · obtain ⟨w, hw⟩ := hc.res_ok acc (by omega)
      rw [hw]
      intro h
      cases h
  · rw [e]
    intro h
    cases h

/-! ## Claim on the additions of `recurse` -/

/-- C3 (amended). `recurse` adds the product `MulRelin(resHigh, PowerBasis[d])`,
which has not been rescaled, to `resLow`, which has.  For primitives with the
scale contracts (`Rescale` normalizes the scale to the ambient scale, a product
of two ciphertexts at the ambient scale is not at the ambient scale, `Add`
requires equal scales and fails with `LevelScaleMismatch` only) and an input at
the ambient scale: no evaluation that reaches the recursive case returns a
result, that is `EvaluatePolyEco` for degree at least 3 and `EvaluatePolyFast`
for degree at least 2; with the level contracts and an input of at least
`⌈log2 deg⌉ + 2` levels, so that no multiplication or rescale fails before, the
outcome is the failure `LevelScaleMismatch`.  The evaluations that stay in the
base case (`EvaluatePolyEco` for degree 1 and 2, `EvaluatePolyFast` for degree
1) execute no `Add` and never fail with `LevelScaleMismatch`. -/
theorem evaluatePoly_add_scale_mismatch {α σ : Type} (ops : Ops α) (scale : α → σ) (Δ : σ)
    (hs : ScaleContract ops scale Δ) (fuel : Nat) (hfuel : 2 ^ 64 ≤ fuel) (ct : α)
    (hct : scale ct = Δ) (arg : CoeffsArg) (deg : Nat) (cs : List Cplx)
    (hconv : convertCoeffs arg = .ok (deg, cs)) (hne : cs ≠ []) (hlen : cs.length < 2 ^ 63)
    (hdeg : 1 ≤ deg) :
    (3 ≤ deg → ∀ r, EvaluatePolyEco ops fuel ct arg ≠ .ok r) ∧
      (2 ≤ deg → ∀ r, EvaluatePolyFast ops fuel ct arg ≠ .ok r) ∧
      (∀ lvl : α → Nat, LevelContract ops lvl → ConstBetween ops lvl →
        Nat.clog 2 deg + 2 ≤ lvl ct →
        (3 ≤ deg → EvaluatePolyEco ops fuel ct arg = .error (.op .levelScaleMismatch)) ∧
          (2 ≤ deg → EvaluatePolyFast ops fuel ct arg = .error (.op .levelScaleMismatch))) ∧
      (∀ lvl : α → Nat, LevelContract ops lvl →
        (deg ≤ 2 → EvaluatePolyEco ops fuel ct arg ≠ .error (.op .levelScaleMismatch)) ∧
          (deg = 1 → EvaluatePolyFast ops fuel ct arg ≠ .error (.op .levelScaleMismatch))) := by
  obtain ⟨hlen1, h64, hM, hdM, hsub, _⟩ := degree_facts arg deg cs hconv hne hlen
  have hMc : len64 (sub64 deg 1) = Nat.clog 2 deg := by
    rw [hsub hdeg]
    exact len64_pred_eq_clog deg hdeg (by omega)
  have hshift : Nat.clog 2 deg >>> 1 = Nat.clog 2 deg / 2 := by
    rw [Nat.shiftRight_eq_div_pow, pow_one]
  rw [hMc] at hM hdM
  have hfpos : ∃ f, fuel = f + 1 := ⟨fuel - 1, by
    have : 0 < 2 ^ 64 := Nat.pow_pos (by norm_num)
    omega⟩
  -- the recursive case is reached
  have hrecE : 3 ≤ deg → 2 ^ 1 < deg := fun h => by omega
  have hrecF : 2 ≤ deg → 2 ^ (Nat.clog 2 deg / 2) < deg := by
    intro h2
    have hge : 1 ≤ Nat.clog 2 deg := Nat.clog_pos (by norm_num) (by omega)
    have hlo := @Nat.pow_pred_clog_lt_self 2 (by norm_num) deg (by omega)
    rw [Nat.pred_eq_sub_one] at hlo
    have : 2 ^ (Nat.clog 2 deg / 2) ≤ 2 ^ (Nat.clog 2 deg - 1) :=
      Nat.pow_le_pow_right (by norm_num) (by omega)
    omega
  -- no result in the recursive case
  have hno : ∀ L, L ≤ 32 → 2 ^ L < deg → ∀ r,
      (buildPowerBasis ops fuel ct L (Nat.clog 2 deg) >>= fun s =>
        recurse ops fuel deg L (Nat.clog 2 deg) cs s.C) ≠ .ok r := by
    intro L hL hLd r hr
    cases e : buildPowerBasis ops fuel ct L (Nat.clog 2 deg) with
    | error err =>
      rw [e] at hr
      cases hr
    | ok s =>
      rw [e, bind_ok_eq] at hr
      have hLpos : 0 < 2 ^ L := Nat.pow_pos (by norm_num)
      rcases buildPowerBasis_spec ops (fun _ _ => True) (fun _ => True)
          (fun _ _ _ => ⟨trivial, trivial⟩) (fun _ _ _ _ _ _ _ _ _ _ _ => trivial)
          (fun _ _ => True) (fun _ _ _ _ _ _ _ _ _ => trivial)
          fuel ct L (Nat.clog 2 deg) hfuel (by omega) hM trivial
          (fun _ _ _ => trivial) (fun _ _ _ => trivial) with
        ⟨s1, e1, hs1, hsd, hss, _, _, _⟩ | ⟨oe, e1, _⟩
      · rw [e] at e1
        cases e1
        have := (recurse_scale ops scale Δ hs s.C ct L (Nat.clog 2 deg) (by omega) hM hs1
          (hsd _ hLpos (le_refl _)) hss
          (buildPowerBasis_scale ops scale Δ hs fuel hfuel ct hct L (Nat.clog 2 deg) (by omega)
            hM s e)
          fuel deg (Nat.clog 2 deg) cs (le_refl _) (by omega) hdM hlen1 h64 r hr).2
        omega
      · rw [e] at e1
        cases e1
  -- the failure is a mismatch when the levels suffice
  have hmis : ∀ lvl : α → Nat, LevelContract ops lvl → ConstBetween ops lvl →
      Nat.clog 2 deg + 2 ≤ lvl ct → ∀ L, L ≤ 32 → L ≤ Nat.clog 2 deg → 2 ^ L < deg →
      (buildPowerBasis ops fuel ct L (Nat.clog 2 deg) >>= fun s =>
        recurse ops fuel deg L (Nat.clog 2 deg) cs s.C) = .error (.op .levelScaleMismatch) := by
    intro lvl hc hb hl L hL hLM hLd
    rcases buildPowerBasis_level ops lvl hc fuel hfuel ct L (Nat.clog 2 deg) hL hM with
      ⟨s, e, hs1, hsd, hss, hsInv⟩ | ⟨e, m, hm, hlt⟩
    · rw [e, bind_ok_eq]
      rcases recurse_mismatch ops scale Δ lvl hs hc hb s.C ct L (Nat.clog 2 deg) hL hM hs1 hsd
          hss hsInv
          (buildPowerBasis_scale ops scale Δ hs fuel hfuel ct hct L (Nat.clog 2 deg) (by omega)
            hM s e)
          ⟨by omega, by omega⟩ fuel deg (Nat.clog 2 deg) cs (le_refl _) (by omega) hdM hlen1
          h64 with h | ⟨h, _⟩
      · exact h
      · omega
    · exfalso
      rcases hm with h | ⟨i, hi1, hi2, h⟩
      · have : Nat.clog 2 m ≤ L := (Nat.le_pow_iff_clog_le (by norm_num)).mp h
        omega
      · have : Nat.clog 2 m ≤ i := (Nat.le_pow_iff_clog_le (by norm_num)).mp h
        omega
  have hEeq := evaluatePolyEco_eq ops fuel ct arg deg cs hconv
  have hFeq := evaluatePolyFast_eq ops fuel ct arg deg cs hconv
  rw [hMc] at hEeq hFeq
  rw [hshift] at hFeq
  refine ⟨fun h3 r => ?_, fun h2 r => ?_, fun lvl hc hb hl => ⟨fun h3 => ?_, fun h2 => ?_⟩,
    fun lvl hc => ⟨fun h2 => ?_, fun h1 => ?_⟩⟩
  · rw [hEeq]
    exact hno 1 (by omega) (hrecE h3) r
  · rw [hFeq]
    exact hno _ (by omega) (hrecF h2) r
  · rw [hEeq]
    have hge : 2 ≤ Nat.clog 2 deg := by
      by_contra hlt
      have : deg ≤ 2 ^ 1 := (Nat.le_pow_iff_clog_le (by norm_num)).mpr (by omega)
      omega
    exact hmis lvl hc hb hl 1 (by omega) (by omega) (hrecE h3)
  · rw [hFeq]
    exact hmis lvl hc hb hl _ (by omega) (by omega) (hrecF h2)
  · rw [hEeq]
    obtain ⟨f, hf⟩ := hfpos
    have hbase : ∀ s : PowerBasis α, recurse ops fuel deg 1 (Nat.clog 2 deg) cs s.C
        = evaluatePolyFromPowerBasis ops cs s.C := by
      intro s
      rw [hf]
      exact recurse_base ops f deg 1 _ cs s.C (by rw [shl64_one 1 (by norm_num)]; omega)
    simp only [hbase]
    exact base_no_mismatch ops lvl hc fuel hfuel ct 1 _ (by omega) hM cs hne (by omega)
  · rw [hFeq]
    obtain ⟨f, hf⟩ := hfpos
    have hbase : ∀ s : PowerBasis α,
        recurse ops fuel deg (Nat.clog 2 deg / 2) (Nat.clog 2 deg) cs s.C
          = evaluatePolyFromPowerBasis ops cs s.C := by
      intro s
      rw [hf]
      exact recurse_base ops f deg _ _ cs s.C (by
        rw [shl64_one _ (by omega)]
        have : 0 < 2 ^ (Nat.clog 2 deg / 2) := Nat.pow_pos (by norm_num)
        omega)
    simp only [hbase]
    exact base_no_mismatch ops lvl hc fuel hfuel ct _ _ (by omega) hM cs hne (by
      have : 0 < 2 ^ (Nat.clog 2 deg / 2) := Nat.pow_pos (by norm_num)
      omega)

theorem evaluatePoly_add_scale_mismatch_witness :
    ((3 ≤ 3 → ∀ r, EvaluatePolyEco (contractOps true 2) (2 ^ 64) ⟨5, 2⟩ (.floats [1, 2, 3, 4])
        ≠ .ok r) ∧
      (2 ≤ 3 → ∀ r, EvaluatePolyFast (contractOps true 2) (2 ^ 64) ⟨5, 2⟩ (.floats [1, 2, 3, 4])
        ≠ .ok r) ∧
      (∀ lvl : Ct → Nat, LevelContract (contractOps true 2) lvl →
        ConstBetween (contractOps true 2) lvl → Nat.clog 2 3 + 2 ≤ lvl ⟨5, 2⟩ →
        (3 ≤ 3 → EvaluatePolyEco (contractOps true 2) (2 ^ 64) ⟨5, 2⟩ (.floats [1, 2, 3, 4])
          = .error (.op .levelScaleMismatch)) ∧
          (2 ≤ 3 → EvaluatePolyFast (contractOps true 2) (2 ^ 64) ⟨5, 2⟩ (.floats [1, 2, 3, 4])
            = .error (.op .levelScaleMismatch))) ∧
      (∀ lvl : Ct → Nat, LevelContract (contractOps true 2) lvl →
        (3 ≤ 2 → EvaluatePolyEco (contractOps true 2) (2 ^ 64) ⟨5, 2⟩ (.floats [1, 2, 3, 4])
          ≠ .error (.op .levelScaleMismatch)) ∧
          (3 = 1 → EvaluatePolyFast (contractOps true 2) (2 ^ 64) ⟨5, 2⟩ (.floats [1, 2, 3, 4])
            ≠ .error (.op .levelScaleMismatch)))) ∧
    ((3 ≤ 1 → ∀ r, EvaluatePolyEco (contractOps true 2) (2 ^ 64) ⟨5, 2⟩ (.floats [1, 2])
        ≠ .ok r) ∧
      (2 ≤ 1 → ∀ r, EvaluatePolyFast (contractOps true 2) (2 ^ 64) ⟨5, 2⟩ (.floats [1, 2])
        ≠ .ok r) ∧
      (∀ lvl : Ct → Nat, LevelContract (contractOps true 2) lvl →
        ConstBetween (contractOps true 2) lvl → Nat.clog 2 1 + 2 ≤ lvl ⟨5, 2⟩ →
        (3 ≤ 1 → EvaluatePolyEco (contractOps true 2) (2 ^ 64) ⟨5, 2⟩ (.floats [1, 2])
          = .error (.op .levelScaleMismatch)) ∧
          (2 ≤ 1 → EvaluatePolyFast (contractOps true 2) (2 ^ 64) ⟨5, 2⟩ (.floats [1, 2])
            = .error (.op .levelScaleMismatch))) ∧
      (∀ lvl : Ct → Nat, LevelContract (contractOps true 2) lvl →
        (1 ≤ 2 → EvaluatePolyEco (contractOps true 2) (2 ^ 64) ⟨5, 2⟩ (.floats [1, 2])
          ≠ .error (.op .levelScaleMismatch)) ∧
          (1 = 1 → EvaluatePolyFast (contractOps true 2) (2 ^ 64) ⟨5, 2⟩ (.floats [1, 2])
            ≠ .error (.op .levelScaleMismatch)))) :=
  ⟨evaluatePoly_add_scale_mismatch (contractOps true 2) Ct.scale 2 (contractOps_scale true)
      (2 ^ 64) (le_refl _) ⟨5, 2⟩ rfl (.floats [1, 2, 3, 4]) 3
      ([1, 2, 3, 4].map (fun r => (⟨r, 0⟩ : Cplx)))
      (convertCoeffs_floats _ (by simp) (by norm_num)) (by simp) (by norm_num) (by norm_num),
    evaluatePoly_add_scale_mismatch (contractOps true 2) Ct.scale 2 (contractOps_scale true)
      (2 ^ 64) (le_refl _) ⟨5, 2⟩ rfl (.floats [1, 2]) 1
      ([1, 2].map (fun r => (⟨r, 0⟩ : Cplx)))
      (convertCoeffs_floats _ (by simp) (by norm_num)) (by simp) (by norm_num) (by norm_num)⟩

/-- C3, counterexample. The degree-3 polynomial `1 + 2x + 3x² + 4x³` on an input
of level 5 at the ambient scale, with the primitives that keep level and scale
(either reading of `MultByConstAndAdd`): no multiplication or rescale fails,
and the first `Add` of `recurse` receives a product of scale `2 * 2` and a low
part of scale `2`, so that both strategies fail with `LevelScaleMismatch`. -/
theorem evaluatePoly_degree_three_scale_mismatch :
    EvaluatePolyEco (contractOps true 2) (2 ^ 64) ⟨5, 2⟩ (.floats [1, 2, 3, 4])
        = .error (.op .levelScaleMismatch) ∧
      EvaluatePolyEco (contractOps false 2) (2 ^ 64) ⟨5, 2⟩ (.floats [1, 2, 3, 4])
        = .error (.op .levelScaleMismatch) ∧
      EvaluatePolyFast (contractOps true 2) (2 ^ 64) ⟨5, 2⟩ (.floats [1, 2, 3, 4])
        = .error (.op .levelScaleMismatch) ∧
      EvaluatePolyFast (contractOps false 2) (2 ^ 64) ⟨5, 2⟩ (.floats [1, 2, 3, 4])
        = .error (.op .levelScaleMismatch) ∧
      (contractOps true 2).mulRelin ⟨4, 2⟩ ⟨4, 2⟩ = .ok ⟨4, 4⟩ ∧
      (contractOps true 2).add ⟨4, 4⟩ ⟨4, 2⟩ = .error .levelScaleMismatch :=
  ⟨rfl, rfl, rfl, rfl, rfl, rfl⟩

/-! ## Inputs with too few levels -/

/-- With the level contracts, `MulRelin` and `Rescale` fail with
`InsufficientLevel` only. -/
theorem levelContract_errors {α : Type} (ops : Ops α) (lvl : α → Nat)
    (hc : LevelContract ops lvl) :
    (∀ u v e, ops.mulRelin u v = .error e → e = .insufficientLevel) ∧
      ∀ w e, ops.rescale w = .error e → e = .insufficientLevel := by
  refine ⟨fun u v e h => ?_, fun w e h => ?_⟩
  · by_cases h0 : lvl u = 0 ∨ lvl v = 0
    · rw [hc.mul_fail u v h0] at h
      cases h
      rfl
    · obtain ⟨w, hw⟩ := hc.mul_ok u v (by omega) (by omega)
      rw [hw] at h
      cases h
  · by_cases h0 : lvl w = 0
    · rw [hc.res_fail w h0] at h
      cases h
      rfl
    · obtain ⟨w1, hw⟩ := hc.res_ok w (by omega)
      rw [hw] at h
      cases h

/-- The power basis is not built when the input has fewer than `max L (M - 1)`
levels: a multiplication fails with `InsufficientLevel`. -/
theorem buildPowerBasis_low {α : Type} (ops : Ops α) (lvl : α → Nat)
    (hc : LevelContract ops lvl) (fuel : Nat) (hfuel : 2 ^ 64 ≤ fuel) (ct : α) (L M : Nat)
    (hL : L ≤ 32) (hM : M ≤ 64) (hlow : lvl ct < max L (M - 1)) :
    buildPowerBasis ops fuel ct L M = .error (.op .insufficientLevel) := by
  rcases buildPowerBasis_level ops lvl hc fuel hfuel ct L M hL hM with
    ⟨s, e, hs1, hsd, hss, hsInv⟩ | ⟨e, _⟩
  · exfalso
    have hLpos : 0 < 2 ^ L := Nat.pow_pos (by norm_num)
    obtain ⟨v, hv⟩ := hsd (2 ^ L) hLpos (le_refl _)
    have h1 := hsInv _ v hv
    rw [Nat.clog_pow 2 _ (by norm_num)] at h1
    by_cases hLM : L < M - 1
    · obtain ⟨w, hw⟩ := hss (M - 1) hLM (by omega)
      have h2 := hsInv _ w hw
      rw [Nat.clog_pow 2 _ (by norm_num)] at h2
      rw [Nat.max_eq_right (by omega)] at hlow
      omega
    · rw [Nat.max_eq_left (by omega)] at hlow
      omega
  · exact e

/-- A top call of `recurse` in the recursive case on a basis whose first entry
has `M - 1` levels returns no result: `PowerBasis[2^(M-1)]` is at level 0 and
the multiplication by it fails, if nothing failed before. -/
theorem recurse_top_low {α : Type} (ops : Ops α) (lvl : α → Nat) (hc : LevelContract ops lvl)
    (C : Basis α) (c1 : α) (L M0 : Nat) (hL : L ≤ 32) (hM0 : M0 ≤ 64) (hLM : L < M0)
    (hdense : ∃ v, C.get? (2 ^ L) = some v)
    (hsparse : ∀ i, L < i → i < M0 → ∃ v, C.get? (2 ^ i) = some v)
    (hInv : ∀ k v, C.get? k = some v → lvl v + Nat.clog 2 k = lvl c1)
    (hlvl : lvl c1 + 1 = M0) (fuel n : Nat) (coeffs : List Cplx) (hf : M0 < fuel)
    (hn : n ≤ 2 ^ M0) (hlo : 2 ^ (M0 - 1) < n) (hlen : coeffs.length = n + 1)
    (hn63 : n + 1 < 2 ^ 63) (v : α) :
    recurse ops fuel n L M0 coeffs C ≠ .ok v := by
  have hmono : 2 ^ L ≤ 2 ^ (M0 - 1) := Nat.pow_le_pow_right (by norm_num) (by omega)
  exact recurse_spec ops C L M0 (by omega) hM0
    (fun M cs r => M = M0 → 2 ^ (M0 - 1) + 1 < cs.length → ∀ v, r ≠ .ok v) hdense hsparse
    (by
      intro M cs _ hl _ hlong
      omega)
    (by
      intro n M cs rH rL cd _ hn _ hlen _ _ hcd hMM hlong v hv
      subst hMM
      have hsh : shrinkM n M = M := shrinkM_eq n M hM0 (by omega) (by omega)
      rw [hsh] at hcd
      have hcdl := hInv _ cd hcd
      rw [Nat.clog_pow 2 _ (by norm_num)] at hcdl
      cases rH with
      | error e => cases hv
      | ok res =>
        cases rL with
        | error e => cases hv
        | ok tmp =>
          rw [bind_ok_eq, bind_ok_eq, hc.mul_fail res cd (Or.inr (by omega))] at hv
          cases hv)
    fuel n M0 coeffs (le_refl _) hf hn hlen hn63 rfl (by omega) v

/-- With the level contracts, a call of `recurse` on a complete basis returns a
result, fails with `InsufficientLevel`, or fails with the failure of an
`Add`. -/
theorem recurse_failure_kind {α : Type} (ops : Ops α) (lvl : α → Nat)
    (hc : LevelContract ops lvl) (C : Basis α) (c1 : α) (L M0 : Nat) (hL : L ≤ 32)
    (hM0 : M0 ≤ 64) (h1 : C.get? 1 = some c1)
    (hdense : ∀ k, 1 ≤ k → k ≤ 2 ^ L → ∃ v, C.get? k = some v)
    (hsparse : ∀ i, L < i → i < M0 → ∃ v, C.get? (2 ^ i) = some v)
    (fuel n M : Nat) (coeffs : List Cplx) (hM : M ≤ M0) (hf : M < fuel) (hn : n ≤ 2 ^ M)
    (hlen : coeffs.length = n + 1) (hn63 : n + 1 < 2 ^ 63) :
    (∃ v, recurse ops fuel n L M coeffs C = .ok v) ∨
      recurse ops fuel n L M coeffs C = .error (.op .insufficientLevel) ∨
      ∃ u v e, ops.add u v = .error e ∧ recurse ops fuel n L M coeffs C = .error (.op e) := by
  have hLpos : 0 < 2 ^ L := Nat.pow_pos (by norm_num)
  have hL32 : 2 ^ L ≤ 2 ^ 32 := Nat.pow_le_pow_right (by norm_num) hL
  obtain ⟨hmul, hres⟩ := levelContract_errors ops lvl hc
  exact recurse_spec ops C L M0 (by omega) hM0
    (fun _ _ r => (∃ v, r = .ok v) ∨ r = .error (.op .insufficientLevel) ∨
      ∃ u v e, ops.add u v = .error e ∧ r = .error (.op e))
    (hdense _ hLpos (le_refl _)) hsparse
    (by
      intro M cs hne hl
      have hpos : 0 < cs.length := List.length_pos.mpr hne
      rw [evaluatePolyFromPowerBasis_eq ops cs C c1 h1 hne (by omega)]
      obtain ⟨acc, hacc, _⟩ := accumulate_spec ops cs C (fun _ _ => True)
        (fun _ _ _ _ _ _ _ => trivial) (cs.length - 1)
        (if significant (cs.getD 0 0) then ops.addConst (ops.newCiphertext c1) (cs.getD 0 0)
          else ops.newCiphertext c1) (by omega) (fun k hk1 hk2 => hdense k hk1 (by omega))
        trivial
      rw [hacc, bind_ok_eq]
      cases hr : ops.rescale acc with
      | ok w => exact Or.inl ⟨w, rfl⟩
      | error e =>
        rw [hres acc e hr]
        exact Or.inr (Or.inl rfl))
    (by
      intro n M cs rH rL cd _ _ _ _ hH hLo hcd
      rcases hH with ⟨res, rfl⟩ | rfl | ⟨u, v, e, hadd, rfl⟩
      · rw [bind_ok_eq]
        rcases hLo with ⟨tmp, rfl⟩ | rfl | ⟨u, v, e, hadd, rfl⟩
        · rw [bind_ok_eq]
          cases hm : ops.mulRelin res cd with
          | error e =>
            rw [hmul res cd e hm]
            exact Or.inr (Or.inl rfl)
          | ok w =>
            rw [liftOp_ok, bind_ok_eq]
            cases ha : ops.add w tmp with
            | error e => exact Or.inr (Or.inr ⟨w, tmp, e, ha, rfl⟩)
            | ok w2 =>
              rw [liftOp_ok, bind_ok_eq]
              cases hr : ops.rescale w2 with
              | ok w3 => exact Or.inl ⟨w3, rfl⟩
              | error e =>
                rw [hres w2 e hr]
                exact Or.inr (Or.inl rfl)
        · exact Or.inr (Or.inl rfl)
        · exact Or.inr (Or.inr ⟨u, v, e, hadd, rfl⟩)
      · exact Or.inr (Or.inl rfl)
      · exact Or.inr (Or.inr ⟨u, v, e, hadd, rfl⟩))
    fuel n M coeffs hM hf hn hlen hn63

/-- Either strategy on an input with fewer than `⌈log2 deg⌉` levels. -/
theorem evaluatePoly_low {α : Type} (ops : Ops α) (lvl : α → Nat) (hc : LevelContract ops lvl)
    (fuel : Nat) (hfuel : 2 ^ 64 ≤ fuel) (ct : α) (arg : CoeffsArg) (deg : Nat)
    (cs : List Cplx) (hconv : convertCoeffs arg = .ok (deg, cs)) (hne : cs ≠ [])
    (hlen : cs.length < 2 ^ 63) (hlow : lvl ct < Nat.clog 2 deg) (L : Nat)
    (hL : L = 1 ∨ L = len64 (sub64 deg 1) >>> 1) :
    (∀ r, (buildPowerBasis ops fuel ct L (len64 (sub64 deg 1)) >>= fun s =>
        recurse ops fuel deg L (len64 (sub64 deg 1)) cs s.C) ≠ .ok r) ∧
      (lvl ct + 1 < Nat.clog 2 deg →
        (buildPowerBasis ops fuel ct L (len64 (sub64 deg 1)) >>= fun s =>
          recurse ops fuel deg L (len64 (sub64 deg 1)) cs s.C)
            = .error (.op .insufficientLevel)) ∧
      ((buildPowerBasis ops fuel ct L (len64 (sub64 deg 1)) >>= fun s =>
          recurse ops fuel deg L (len64 (sub64 deg 1)) cs s.C)
            = .error (.op .insufficientLevel) ∨
        ∃ u v e, ops.add u v = .error e ∧
          (buildPowerBasis ops fuel ct L (len64 (sub64 deg 1)) >>= fun s =>
            recurse ops fuel deg L (len64 (sub64 deg 1)) cs s.C) = .error (.op e)) := by
  obtain ⟨hlen1, h64, hM, hdM, hsub, _⟩ := degree_facts arg deg cs hconv hne hlen
  have hdeg : 2 ≤ deg := by
    by_contra hlt
    have : Nat.clog 2 deg ≤ 0 := (Nat.le_pow_iff_clog_le (by norm_num)).mp (by
      rw [pow_zero]
      omega)
    omega
  have hMc : len64 (sub64 deg 1) = Nat.clog 2 deg := by
    rw [hsub (by omega)]
    exact len64_pred_eq_clog deg (by omega) (by omega)
  rw [hMc] at hL hM hdM ⊢
  have hshift : Nat.clog 2 deg >>> 1 = Nat.clog 2 deg / 2 := by
    rw [Nat.shiftRight_eq_div_pow, pow_one]
  have hL32 : L ≤ 32 := by
    rcases hL with h | h <;> omega
  have hlo := @Nat.pow_pred_clog_lt_self 2 (by norm_num) deg (by omega)
  rw [Nat.pred_eq_sub_one] at hlo
  have hno : ∀ r, (buildPowerBasis ops fuel ct L (Nat.clog 2 deg) >>= fun s =>
      recurse ops fuel deg L (Nat.clog 2 deg) cs s.C) ≠ .ok r := by
    intro r hr
    by_cases hb : lvl ct < max L (Nat.clog 2 deg - 1)
    · rw [buildPowerBasis_low ops lvl hc fuel hfuel ct L _ hL32 hM hb] at hr
      cases hr
    · have hmax : max L (Nat.clog 2 deg - 1) ≤ lvl ct := by omega
      have hLle : L ≤ lvl ct := le_trans (Nat.le_max_left _ _) hmax
      have hMle : Nat.clog 2 deg - 1 ≤ lvl ct := le_trans (Nat.le_max_right _ _) hmax
      rcases buildPowerBasis_level ops lvl hc fuel hfuel ct L (Nat.clog 2 deg) hL32 hM with
        ⟨s, e, hs1, hsd, hss, hsInv⟩ | ⟨e, _⟩
      · rw [e, bind_ok_eq] at hr
        have hLpos : 0 < 2 ^ L := Nat.pow_pos (by norm_num)
        exact recurse_top_low ops lvl hc s.C ct L (Nat.clog 2 deg) hL32 hM (by omega)
          (hsd _ hLpos (le_refl _)) hss hsInv (by omega) fuel deg cs (by omega) hdM hlo hlen1
          h64 r hr
      · rw [e] at hr
        cases hr
  refine ⟨hno, fun h2 => ?_, ?_⟩
  · rw [buildPowerBasis_low ops lvl hc fuel hfuel ct L _ hL32 hM
      (lt_of_lt_of_le (by omega) (Nat.le_max_right _ _))]
    rfl
  · rcases buildPowerBasis_level ops lvl hc fuel hfuel ct L (Nat.clog 2 deg) hL32 hM with
      ⟨s, e, hs1, hsd, hss, hsInv⟩ | ⟨e, _⟩
    · have hk := recurse_failure_kind ops lvl hc s.C ct L (Nat.clog 2 deg) hL32 hM hs1 hsd hss
        fuel deg (Nat.clog 2 deg) cs (le_refl _) (by omega) hdM hlen1 h64
      have hno1 := hno
      rw [e] at hno1 ⊢
      simp only [bind_ok_eq] at hno1 ⊢
      rcases hk with ⟨v, hv⟩ | hk | hk
      · exact absurd hv (hno1 v)
      · exact Or.inl hk
      · exact Or.inr hk
    · rw [e]
      exact Or.inl rfl

/-! ## Claim on inputs with too few levels -/

/-- C5 (amended). For primitives with the level contracts of section 6
(`MulRelin` yields the minimum level and fails with `InsufficientLevel` exactly
when an operand is at level 0, `Rescale` lowers the level by 1 and fails with
`InsufficientLevel` exactly at level 0) and an input whose level is less than
`⌈log2 deg⌉`: neither strategy returns a result; when the level is less than
`⌈log2 deg⌉ - 1` both fail with `InsufficientLevel`, while the power basis is
built; in every case the failure is `InsufficientLevel` or the failure of an
`Add` (which comes first for some inputs whose level is `⌈log2 deg⌉ - 1`), so
that it is `InsufficientLevel` whenever `Add` does not fail. -/
theorem evaluatePoly_insufficient_level {α : Type} (ops : Ops α) (lvl : α → Nat)
    (hc : LevelContract ops lvl) (fuel : Nat) (hfuel : 2 ^ 64 ≤ fuel) (ct : α)
    (arg : CoeffsArg) (deg : Nat) (cs : List Cplx) (hconv : convertCoeffs arg = .ok (deg, cs))
    (hne : cs ≠ []) (hlen : cs.length < 2 ^ 63) (hlow : lvl ct < Nat.clog 2 deg) :
    ((∀ r, EvaluatePolyEco ops fuel ct arg ≠ .ok r) ∧
        ∀ r, EvaluatePolyFast ops fuel ct arg ≠ .ok r) ∧
      (lvl ct + 1 < Nat.clog 2 deg →
        EvaluatePolyEco ops fuel ct arg = .error (.op .insufficientLevel) ∧
          EvaluatePolyFast ops fuel ct arg = .error (.op .insufficientLevel)) ∧
      ((EvaluatePolyEco ops fuel ct arg = .error (.op .insufficientLevel) ∨
          ∃ u v e, ops.add u v = .error e ∧ EvaluatePolyEco ops fuel ct arg = .error (.op e)) ∧
        (EvaluatePolyFast ops fuel ct arg = .error (.op .insufficientLevel) ∨
          ∃ u v e, ops.add u v = .error e ∧
            EvaluatePolyFast ops fuel ct arg = .error (.op e))) ∧
      ((∀ u v, ∃ w, ops.add u v = .ok w) →
        EvaluatePolyEco ops fuel ct arg = .error (.op .insufficientLevel) ∧
          EvaluatePolyFast ops fuel ct arg = .error (.op .insufficientLevel)) := by
  have hE := evaluatePoly_low ops lvl hc fuel hfuel ct arg deg cs hconv hne hlen hlow 1
    (Or.inl rfl)
  have hF := evaluatePoly_low ops lvl hc fuel hfuel ct arg deg cs hconv hne hlen hlow _
    (Or.inr rfl)
  rw [← evaluatePolyEco_eq ops fuel ct arg deg cs hconv] at hE
  rw [← evaluatePolyFast_eq ops fuel ct arg deg cs hconv] at hF
  refine ⟨⟨hE.1, hF.1⟩, fun h => ⟨hE.2.1 h, hF.2.1 h⟩, ⟨hE.2.2, hF.2.2⟩, fun hadd => ⟨?_, ?_⟩⟩
  · rcases hE.2.2 with h | ⟨u, v, e, ha, _⟩
    · exact h
    · obtain ⟨w, hw⟩ := hadd u v
      rw [hw] at ha
      cases ha
  · rcases hF.2.2 with h | ⟨u, v, e, ha, _⟩
    · exact h
    · obtain ⟨w, hw⟩ := hadd u v
      rw [hw] at ha
      cases ha

theorem evaluatePoly_insufficient_level_witness :
    (((∀ r, EvaluatePolyEco (contractOps false 2) (2 ^ 64) ⟨1, 2⟩ (.floats [1, 2, 3, 4, 5, 6]) ≠ .ok r) ∧
        ∀ r, EvaluatePolyFast (contractOps false 2) (2 ^ 64) ⟨1, 2⟩ (.floats [1, 2, 3, 4, 5, 6]) ≠ .ok r) ∧
      ((⟨1, 2⟩ : Ct).level + 1 < Nat.clog 2 5 →
        EvaluatePolyEco (contractOps false 2) (2 ^ 64) ⟨1, 2⟩ (.floats [1, 2, 3, 4, 5, 6])
            = .error (.op .insufficientLevel) ∧
          EvaluatePolyFast (contractOps false 2) (2 ^ 64) ⟨1, 2⟩ (.floats [1, 2, 3, 4, 5, 6])
            = .error (.op .insufficientLevel)) ∧
      ((EvaluatePolyEco (contractOps false 2) (2 ^ 64) ⟨1, 2⟩ (.floats [1, 2, 3, 4, 5, 6])
            = .error (.op .insufficientLevel) ∨
          ∃ u v e, (contractOps false 2).add u v = .error e ∧
            EvaluatePolyEco (contractOps false 2) (2 ^ 64) ⟨1, 2⟩ (.floats [1, 2, 3, 4, 5, 6]) = .error (.op e)) ∧
        (EvaluatePolyFast (contractOps false 2) (2 ^ 64) ⟨1, 2⟩ (.floats [1, 2, 3, 4, 5, 6])
            = .error (.op .insufficientLevel) ∨
          ∃ u v e, (contractOps false 2).add u v = .error e ∧
            EvaluatePolyFast (contractOps false 2) (2 ^ 64) ⟨1, 2⟩ (.floats [1, 2, 3, 4, 5, 6]) = .error (.op e))) ∧
      ((∀ u v, ∃ w, (contractOps false 2).add u v = .ok w) →
        EvaluatePolyEco (contractOps false 2) (2 ^ 64) ⟨1, 2⟩ (.floats [1, 2, 3, 4, 5, 6])
            = .error (.op .insufficientLevel) ∧
          EvaluatePolyFast (contractOps false 2) (2 ^ 64) ⟨1, 2⟩ (.floats [1, 2, 3, 4, 5, 6])
            = .error (.op .insufficientLevel))) ∧
    (((∀ r, EvaluatePolyEco lenientOps (2 ^ 64) 2 (.floats [1, 2, 3, 4, 5, 6]) ≠ .ok r) ∧
        ∀ r, EvaluatePolyFast lenientOps (2 ^ 64) 2 (.floats [1, 2, 3, 4, 5, 6]) ≠ .ok r) ∧
      (2 + 1 < Nat.clog 2 5 →
        EvaluatePolyEco lenientOps (2 ^ 64) 2 (.floats [1, 2, 3, 4, 5, 6])
            = .error (.op .insufficientLevel) ∧
          EvaluatePolyFast lenientOps (2 ^ 64) 2 (.floats [1, 2, 3, 4, 5, 6])
            = .error (.op .insufficientLevel)) ∧
      ((EvaluatePolyEco lenientOps (2 ^ 64) 2 (.floats [1, 2, 3, 4, 5, 6])
            = .error (.op .insufficientLevel) ∨
          ∃ u v e, lenientOps.add u v = .error e ∧
            EvaluatePolyEco lenientOps (2 ^ 64) 2 (.floats [1, 2, 3, 4, 5, 6]) = .error (.op e)) ∧
        (EvaluatePolyFast lenientOps (2 ^ 64) 2 (.floats [1, 2, 3, 4, 5, 6])
            = .error (.op .insufficientLevel) ∨
          ∃ u v e, lenientOps.add u v = .error e ∧
            EvaluatePolyFast lenientOps (2 ^ 64) 2 (.floats [1, 2, 3, 4, 5, 6]) = .error (.op e))) ∧
      ((∀ u v, ∃ w, lenientOps.add u v = .ok w) →
        EvaluatePolyEco lenientOps (2 ^ 64) 2 (.floats [1, 2, 3, 4, 5, 6])
            = .error (.op .insufficientLevel) ∧
          EvaluatePolyFast lenientOps (2 ^ 64) 2 (.floats [1, 2, 3, 4, 5, 6])
            = .error (.op .insufficientLevel))) :=
  ⟨evaluatePoly_insufficient_level (contractOps false 2) Ct.level (contractOps_contract false 2) (2 ^ 64)
      (le_refl _) ⟨1, 2⟩ (.floats [1, 2, 3, 4, 5, 6]) 5
      ([1, 2, 3, 4, 5, 6].map (fun r => (⟨r, 0⟩ : Cplx)))
      (convertCoeffs_floats _ (by simp) (by norm_num)) (by simp) (by norm_num)
      ((Nat.pow_lt_iff_lt_clog (by norm_num)).mp (by norm_num)),
    evaluatePoly_insufficient_level lenientOps (fun l => l) lenientOps_contract (2 ^ 64)
      (le_refl _) 2 (.floats [1, 2, 3, 4, 5, 6]) 5
      ([1, 2, 3, 4, 5, 6].map (fun r => (⟨r, 0⟩ : Cplx)))
      (convertCoeffs_floats _ (by simp) (by norm_num)) (by simp) (by norm_num)
      ((Nat.pow_lt_iff_lt_clog (by norm_num)).mp (by norm_num))⟩

/-- C5, counterexample. The degree-5 polynomial `1 + 2x + ... + 6x⁵` on an
input of level 2, below `⌈log2 5⌉ = 3`, with the primitives that keep level and
scale (either reading of `MultByConstAndAdd`): both strategies fail with
`LevelScaleMismatch`, not with `InsufficientLevel`.  The power basis is built
(`PowerBasis[4]` at level 0) and the first failing primitive is the `Add` of an
inner call. -/
theorem evaluatePoly_low_level_mismatch :
    (⟨2, 2⟩ : Ct).level < Nat.clog 2 5 ∧
      EvaluatePolyEco (contractOps true 2) (2 ^ 64) ⟨2, 2⟩ (.floats [1, 2, 3, 4, 5, 6])
        = .error (.op .levelScaleMismatch) ∧
      EvaluatePolyEco (contractOps false 2) (2 ^ 64) ⟨2, 2⟩ (.floats [1, 2, 3, 4, 5, 6])
        = .error (.op .levelScaleMismatch) ∧
      EvaluatePolyFast (contractOps true 2) (2 ^ 64) ⟨2, 2⟩ (.floats [1, 2, 3, 4, 5, 6])
        = .error (.op .levelScaleMismatch) ∧
      EvaluatePolyFast (contractOps false 2) (2 ^ 64) ⟨2, 2⟩ (.floats [1, 2, 3, 4, 5, 6])
        = .error (.op .levelScaleMismatch) :=
  ⟨(Nat.pow_lt_iff_lt_clog (by norm_num)).mp (by norm_num), rfl, rfl, rfl, rfl⟩

/-! ## The size of the power basis -/

/-- With primitives that do not fail, the two loops of the entry points build a
map whose keys are exactly `1, ..., 2^L` and `2^i` for `L < i < M`, with one
`MulRelinNew` call for each key but `1`. -/
theorem buildPowerBasis_count {α : Type} (ops : Ops α) (fuel : Nat) (hfuel : 2 ^ 64 ≤ fuel)
    (ct : α) (L M : Nat) (hL : L ≤ 32) (hM : M ≤ 64)
    (hmul : ∀ u v, ∃ w, ops.mulRelin u v = .ok w) (hres : ∀ w, ∃ w1, ops.rescale w = .ok w1) :
    ∃ s, buildPowerBasis ops fuel ct L M = .ok s ∧
      s.muls + 1 = 2 ^ L + (M - (L + 1)) ∧
      (∀ k, s.C.get? k ≠ none ↔ (1 ≤ k ∧ k ≤ 2 ^ L) ∨ ∃ i, L < i ∧ i < M ∧ k = 2 ^ i) ∧
      s.C.get? 1 = some ct := by
  have hLpos : 0 < 2 ^ L := Nat.pow_pos (by norm_num)
  have hL32 : 2 ^ L ≤ 2 ^ 32 := Nat.pow_le_pow_right (by norm_num) hL
  have hclose : ∀ n, 2 ≤ n → ((1 ≤ n ∧ n ≤ 2 ^ L) ∨ ∃ i, L < i ∧ i < M ∧ n = 2 ^ i) →
      ((1 ≤ ceilHalf n ∧ ceilHalf n ≤ 2 ^ L) ∨ ∃ i, L < i ∧ i < M ∧ ceilHalf n = 2 ^ i) ∧
        ((1 ≤ n >>> 1 ∧ n >>> 1 ≤ 2 ^ L) ∨ ∃ i, L < i ∧ i < M ∧ n >>> 1 = 2 ^ i) := by
    intro n h2 hG
    rw [Nat.shiftRight_eq_div_pow, pow_one]
    rcases hG with ⟨_, hn⟩ | ⟨i, hi1, hi2, hn⟩
    · rw [ceilHalf_small n (by omega)]
      exact ⟨Or.inl ⟨by omega, by omega⟩, Or.inl ⟨by omega, by omega⟩⟩
    · have hpow : 2 ^ i = 2 * 2 ^ (i - 1) := by
        have : i = (i - 1) + 1 := by omega
        conv_lhs => rw [this, pow_succ]
        omega
      rw [hn, ceilHalf_pow i (by omega) (by omega)]
      have hdiv : 2 ^ i / 2 = 2 ^ (i - 1) := by omega
      rw [hdiv]
      by_cases hiL : i - 1 = L
      · rw [hiL]
        exact ⟨Or.inl ⟨hLpos, le_refl _⟩, Or.inl ⟨hLpos, le_refl _⟩⟩
      · exact ⟨Or.inr ⟨i - 1, by omega, by omega, rfl⟩, Or.inr ⟨i - 1, by omega, by omega, rfl⟩⟩
  rcases buildPowerBasis_spec ops
      (fun k _ => (1 ≤ k ∧ k ≤ 2 ^ L) ∨ ∃ i, L < i ∧ i < M ∧ k = 2 ^ i)
      (fun n => (1 ≤ n ∧ n ≤ 2 ^ L) ∨ ∃ i, L < i ∧ i < M ∧ n = 2 ^ i) hclose
      (fun n _ _ _ _ _ hG _ _ _ _ => hG)
      (fun _ _ => False)
      (by
        intro n u v oe _ _ _ _ hf
        rcases hf with huv | ⟨w, _, hw⟩
        · obtain ⟨w, hw⟩ := hmul u v
          rw [hw] at huv
          cases huv
        · obtain ⟨w1, hw1⟩ := hres w
          rw [hw1] at hw
          cases hw)
      fuel ct L M hfuel (by omega) hM (Or.inl ⟨le_refl _, hLpos⟩)
      (fun n h2 hn => Or.inl ⟨by omega, hn⟩)
      (fun i h1 h2 => Or.inr ⟨i, h1, h2, rfl⟩) with
    ⟨s, e, hs1, hsd, hss, hsInv, hnd, hlen⟩ | ⟨_, _, _, _, hf⟩
  · have hkeys : ∀ k, s.C.get? k ≠ none ↔
        (1 ≤ k ∧ k ≤ 2 ^ L) ∨ ∃ i, L < i ∧ i < M ∧ k = 2 ^ i := by
      intro k
      constructor
      · intro hk
        cases hv : s.C.get? k with
        | none => exact absurd hv hk
        | some v => exact hsInv k v hv
      · rintro (⟨h1, h2⟩ | ⟨i, hi1, hi2, rfl⟩)
        · obtain ⟨v, hv⟩ := hsd k h1 h2
          rw [hv]
          exact fun h => by cases h
        · obtain ⟨v, hv⟩ := hss i hi1 hi2
          rw [hv]
          exact fun h => by cases h
    have hmem : ∀ k, k ∈ List.range' 1 (2 ^ L) ++
        (List.range' (L + 1) (M - (L + 1))).map (fun i => 2 ^ i) ↔
        (1 ≤ k ∧ k ≤ 2 ^ L) ∨ ∃ i, L < i ∧ i < M ∧ k = 2 ^ i := by
      intro k
      rw [List.mem_append, List.mem_range'_1, List.mem_map]
      constructor
      · rintro (⟨h1, h2⟩ | ⟨i, hi, rfl⟩)
        · exact Or.inl ⟨h1, by omega⟩
        · rw [List.mem_range'_1] at hi
          exact Or.inr ⟨i, by omega, by omega, rfl⟩
      · rintro (⟨h1, h2⟩ | ⟨i, hi1, hi2, rfl⟩)
        · exact Or.inl ⟨h1, by omega⟩
        · exact Or.inr ⟨i, List.mem_range'_1.mpr ⟨by omega, by omega⟩, rfl⟩
    have hnd2 : (List.range' 1 (2 ^ L) ++
        (List.range' (L + 1) (M - (L + 1))).map (fun i => 2 ^ i)).Nodup := by
      rw [List.nodup_append]
      refine ⟨List.nodup_range' 1 (2 ^ L), ?_, ?_⟩
      · exact (List.nodup_range' (L + 1) (M - (L + 1))).map
          (fun a b h => Nat.pow_right_injective (le_refl 2) h)
      · intro k hk1 hk2
        rw [List.mem_range'_1] at hk1
        obtain ⟨i, hi, rfl⟩ := List.mem_map.mp hk2
        rw [List.mem_range'_1] at hi
        have : 2 ^ (L + 1) ≤ 2 ^ i := Nat.pow_le_pow_right (by norm_num) (by omega)
        rw [pow_succ] at this
        omega
    have hsub1 : List.range' 1 (2 ^ L) ++
        (List.range' (L + 1) (M - (L + 1))).map (fun i => 2 ^ i) ⊆ s.C.map Prod.fst := by
      intro k hk
      by_contra hnot
      exact (hkeys k).mpr ((hmem k).mp hk) (Basis.get?_none_of_not_mem s.C _ hnot)
    have hsub2 : s.C.map Prod.fst ⊆ List.range' 1 (2 ^ L) ++
        (List.range' (L + 1) (M - (L + 1))).map (fun i => 2 ^ i) := by
      intro k hk
      have hne : s.C.get? k ≠ none := fun h => Basis.not_mem_of_get?_none s.C k h hk
      exact (hmem k).mpr ((hkeys k).mp hne)
    have hle1 := (List.subperm_of_subset hnd2 hsub1).length_le
    have hle2 := (List.subperm_of_subset hnd hsub2).length_le
    simp only [List.length_map, List.length_append, List.length_range'] at hle1 hle2
    exact ⟨s, e, by omega, hkeys, hs1⟩
  · exact absurd hf id

/-! ## Empty input -/

theorem splitCoeffs_make_fails (coeffs : List Cplx) (d maxDegree : Nat) (hd : 2 ^ 63 ≤ d) :
    splitCoeffs coeffs d maxDegree = .error .makeSliceLen := by
  unfold splitCoeffs
  rw [makeSlice_of_ge d hd]
  rfl

/-- The top call of `recurse` for an empty coefficient list: the split at
`2^63` asks `make` for `2^63` entries. -/
theorem recurse_nil {α : Type} (ops : Ops α) (fuel L : Nat) (hfuel : 1 ≤ fuel) (hL : L ≤ 32)
    (C : Basis α) : recurse ops fuel (2 ^ 64 - 1) L 64 [] C = .error .makeSliceLen := by
  obtain ⟨f, rfl⟩ : ∃ f, fuel = f + 1 := ⟨fuel - 1, by omega⟩
  have hLpow : shl64 1 L = 2 ^ L := shl64_one L (by omega)
  have hL32 : 2 ^ L ≤ 2 ^ 32 := Nat.pow_le_pow_right (by norm_num) hL
  have hnb : ¬ (2 ^ 64 - 1 ≤ shl64 1 L) := by
    rw [hLpow]
    have : (2 : Nat) ^ 32 < 2 ^ 64 - 1 := by norm_num
    omega
  rw [recurse_step ops f (2 ^ 64 - 1) L 64 [] C hnb,
    shrinkM_eq (2 ^ 64 - 1) 64 (le_refl _) (by norm_num) (by norm_num),
    sub64_eq 64 1 (by norm_num) (by norm_num), shl64_one (64 - 1) (by norm_num),
    splitCoeffs_make_fails _ _ _ (by norm_num), bind_error_eq]

theorem len64_wrapped : len64 (sub64 (2 ^ 64 - 1) 1) = 64 ∧ (64 : Nat) >>> 1 = 32 := by
  decide

/-- A run of either entry point on an empty coefficient list.  No run returns a
result; with primitives that do not fail the power basis is built in full, with
`2^L + 62 - L` multiplications, and the run ends in `recurse` at the `make` of
`splitCoeffs`. -/
theorem evaluatePoly_empty_run {α : Type} (ops : Ops α) (fuel : Nat) (hfuel : 2 ^ 64 ≤ fuel)
    (ct : α) (L : Nat) (hL : L ≤ 32) :
    (∀ r, (buildPowerBasis ops fuel ct L 64 >>= fun s =>
        recurse ops fuel (2 ^ 64 - 1) L 64 [] s.C) ≠ .ok r) ∧
      ((∀ u v, ∃ w, ops.mulRelin u v = .ok w) → (∀ w, ∃ w1, ops.rescale w = .ok w1) →
        ∃ s, buildPowerBasis ops fuel ct L 64 = .ok s ∧ s.muls + 1 = 2 ^ L + (64 - (L + 1)) ∧
          recurse ops fuel (2 ^ 64 - 1) L 64 [] s.C = .error .makeSliceLen) := by
  constructor
  · intro r hr
    cases e : buildPowerBasis ops fuel ct L 64 with
    | error err =>
      rw [e] at hr
      cases hr
    | ok s =>
      rw [e, bind_ok_eq, recurse_nil ops fuel L (by omega) hL s.C] at hr
      cases hr
  · intro hmul hres
    obtain ⟨s, e, hcount, _, _⟩ :=
      buildPowerBasis_count ops fuel hfuel ct L 64 hL (le_refl _) hmul hres
    exact ⟨s, e, hcount, recurse_nil ops fuel L (by omega) hL s.C⟩

theorem evaluatePolyRun_empty {α : Type} (ops : Ops α) (fuel : Nat) (hfuel : 2 ^ 64 ≤ fuel)
    (ct : α) (hmul : ∀ u v, ∃ w, ops.mulRelin u v = .ok w)
    (hres : ∀ w, ∃ w1, ops.rescale w = .ok w1) :
    (∃ s, EvaluatePolyEcoRun ops fuel ct (.floats []) = .ok (s, .error .makeSliceLen) ∧
        s.muls = 63) ∧
      ∃ s, EvaluatePolyFastRun ops fuel ct (.floats []) = .ok (s, .error .makeSliceLen) ∧
        s.muls = 2 ^ 32 + 30 := by
  have hconv : convertCoeffs (.floats []) = .ok (2 ^ 64 - 1, []) := rfl
  obtain ⟨hM, hLs⟩ := len64_wrapped
  constructor
  · obtain ⟨s, e, hcount, hrec⟩ :=
      (evaluatePoly_empty_run ops fuel hfuel ct 1 (by norm_num)).2 hmul hres
    refine ⟨s, ?_, by omega⟩
    simp only [EvaluatePolyEcoRun, hconv, bind_ok_eq, hM, e, hrec]
  · obtain ⟨s, e, hcount, hrec⟩ :=
      (evaluatePoly_empty_run ops fuel hfuel ct 32 (le_refl _)).2 hmul hres
    refine ⟨s, ?_, by omega⟩
    simp only [EvaluatePolyFastRun, hconv, bind_ok_eq, hM, hLs, e, hrec]

/-- C6 (amended). A zero-length coefficient sequence is not rejected by a
check, and the source has no `EmptyPolynomial` error.  `convertCoeffs` returns
it with `degree = 2^64 - 1` (the `uint64` subtraction wraps), both entry points
take `M = 64` and build the power basis first, and no run returns a result.
With primitives that do not fail the run of `EvaluatePolyEco` makes 63
multiplications and that of `EvaluatePolyFast` `2^32 + 30`, and each then stops
in `recurse`, at the call `make([]complex128, 1 << 63)` of `splitCoeffs`. -/
theorem evaluatePoly_empty_input {α : Type} (ops : Ops α) (fuel : Nat) (hfuel : 2 ^ 64 ≤ fuel)
    (ct : α) :
    convertCoeffs (.floats []) = .ok (2 ^ 64 - 1, []) ∧
      (∀ r, EvaluatePolyEco ops fuel ct (.floats []) ≠ .ok r) ∧
      (∀ r, EvaluatePolyFast ops fuel ct (.floats []) ≠ .ok r) ∧
      ((∀ u v, ∃ w, ops.mulRelin u v = .ok w) → (∀ w, ∃ w1, ops.rescale w = .ok w1) →
        (∃ s, EvaluatePolyEcoRun ops fuel ct (.floats []) = .ok (s, .error .makeSliceLen) ∧
          s.muls = 63) ∧
        (∃ s, EvaluatePolyFastRun ops fuel ct (.floats []) = .ok (s, .error .makeSliceLen) ∧
          s.muls = 2 ^ 32 + 30) ∧
        EvaluatePolyEco ops fuel ct (.floats []) = .error .makeSliceLen ∧
        EvaluatePolyFast ops fuel ct (.floats []) = .error .makeSliceLen) := by
  have hconv : convertCoeffs (.floats []) = .ok (2 ^ 64 - 1, []) := rfl
  obtain ⟨hM, hLs⟩ := len64_wrapped
  have hE := evaluatePolyEco_eq ops fuel ct (.floats []) (2 ^ 64 - 1) [] hconv
  have hF := evaluatePolyFast_eq ops fuel ct (.floats []) (2 ^ 64 - 1) [] hconv
  rw [hM] at hE hF
  rw [hLs] at hF
  refine ⟨hconv, ?_, ?_, fun hmul hres => ?_⟩
  · rw [hE]
    exact (evaluatePoly_empty_run ops fuel hfuel ct 1 (by norm_num)).1
  · rw [hF]
    exact (evaluatePoly_empty_run ops fuel hfuel ct 32 (le_refl _)).1
  · obtain ⟨⟨s, hs, hsn⟩, ⟨t, ht, htn⟩⟩ := evaluatePolyRun_empty ops fuel hfuel ct hmul hres
    refine ⟨⟨s, hs, hsn⟩, ⟨t, ht, htn⟩, ?_, ?_⟩
    · simp only [EvaluatePolyEco, hs, bind_ok_eq]
    · simp only [EvaluatePolyFast, ht, bind_ok_eq]

theorem evaluatePoly_empty_input_witness :
    convertCoeffs (.floats []) = .ok (2 ^ 64 - 1, []) ∧
      (∀ r, EvaluatePolyEco plainOps (2 ^ 64) 3 (.floats []) ≠ .ok r) ∧
      (∀ r, EvaluatePolyFast plainOps (2 ^ 64) 3 (.floats []) ≠ .ok r) ∧
      ((∀ u v, ∃ w, plainOps.mulRelin u v = .ok w) → (∀ w, ∃ w1, plainOps.rescale w = .ok w1) →
        (∃ s, EvaluatePolyEcoRun plainOps (2 ^ 64) 3 (.floats [])
            = .ok (s, .error .makeSliceLen) ∧ s.muls = 63) ∧
        (∃ s, EvaluatePolyFastRun plainOps (2 ^ 64) 3 (.floats [])
            = .ok (s, .error .makeSliceLen) ∧ s.muls = 2 ^ 32 + 30) ∧
        EvaluatePolyEco plainOps (2 ^ 64) 3 (.floats []) = .error .makeSliceLen ∧
        EvaluatePolyFast plainOps (2 ^ 64) 3 (.floats []) = .error .makeSliceLen) :=
  evaluatePoly_empty_input plainOps (2 ^ 64) (le_refl _) 3

/-- C6, counterexample. With the counting stub for the primitives, the run of
`EvaluatePolyEco` on the empty real coefficient sequence is not stopped before
the power basis: it makes 63 multiplications, and then ends in `recurse` with
the panic of `make`, not with an `EmptyPolynomial` error. -/
theorem evaluatePolyEco_empty_not_rejected :
    (∃ s, EvaluatePolyEcoRun stubOps (2 ^ 64) () (.floats []) = .ok (s, .error .makeSliceLen) ∧
        s.muls = 63) ∧
      EvaluatePolyEco stubOps (2 ^ 64) () (.floats []) = .error .makeSliceLen :=
  ⟨(evaluatePolyRun_empty stubOps (2 ^ 64) (le_refl _) () (fun _ _ => ⟨(), rfl⟩)
      (fun _ => ⟨(), rfl⟩)).1, rfl⟩

/-! ## The constant polynomial -/

/-- C20. For a coefficient sequence of length 1 (degree 0) `degree - 1` wraps
around in `uint64`, so `M = 64` and the Fast strategy has `L = 32`.  With
primitives that do not fail, the run of `EvaluatePolyEco` builds a map whose
keys are exactly `1, 2, 4, ..., 2^63`, with exactly 63 `MulRelinNew` calls, and
returns the base-case result for the constant on that map. -/
theorem evaluatePolyEco_constant {α : Type} (ops : Ops α) (fuel : Nat) (hfuel : 2 ^ 64 ≤ fuel)
    (ct : α) (c : Cplx)
    (hmul : ∀ u v, ∃ w, ops.mulRelin u v = .ok w) (hres : ∀ w, ∃ w1, ops.rescale w = .ok w1) :
    convertCoeffs (.complexes [c]) = .ok (0, [c]) ∧ sub64 0 1 = 2 ^ 64 - 1 ∧
      len64 (sub64 0 1) = 64 ∧ len64 (sub64 0 1) >>> 1 = 32 ∧
      ∃ s, EvaluatePolyEcoRun ops fuel ct (.complexes [c])
          = .ok (s, evaluatePolyFromPowerBasis ops [c] s.C) ∧
        s.muls = 63 ∧
        (∀ k, s.C.get? k ≠ none ↔ ∃ i, i < 64 ∧ k = 2 ^ i) ∧
        EvaluatePolyEco ops fuel ct (.complexes [c]) = evaluatePolyFromPowerBasis ops [c] s.C := by
  refine ⟨rfl, rfl, rfl, rfl, ?_⟩
  obtain ⟨s, e, hcount, hkeys, _⟩ :=
    buildPowerBasis_count ops fuel hfuel ct 1 64 (by norm_num) (le_refl _) hmul hres
  have hconv : convertCoeffs (.complexes [c]) = .ok (0, [c]) := rfl
  have hM : len64 (sub64 0 1) = 64 := rfl
  obtain ⟨f, hf⟩ : ∃ f, fuel = f + 1 := ⟨fuel - 1, by omega⟩
  have hbase : recurse ops fuel 0 1 64 [c] s.C = evaluatePolyFromPowerBasis ops [c] s.C := by
    rw [hf]
    exact recurse_base ops f 0 1 64 [c] s.C (by decide)
  have hrun : EvaluatePolyEcoRun ops fuel ct (.complexes [c])
      = .ok (s, evaluatePolyFromPowerBasis ops [c] s.C) := by
    simp only [EvaluatePolyEcoRun, hconv, bind_ok_eq, hM, e, hbase]
  refine ⟨s, hrun, by omega, ?_, ?_⟩
  · intro k
    rw [hkeys k]
    constructor
    · rintro (⟨h1, h2⟩ | ⟨i, _, hi, rfl⟩)
      · by_cases hk : k = 1
        · exact ⟨0, by norm_num, by rw [hk]; rfl⟩
        · exact ⟨1, by norm_num, by omega⟩
      · exact ⟨i, hi, rfl⟩
    · rintro ⟨i, hi, rfl⟩
      by_cases h0 : i = 0
      · subst h0
        exact Or.inl ⟨by norm_num, by norm_num⟩
      · by_cases h1 : i = 1
        · subst h1
          exact Or.inl ⟨by norm_num, by norm_num⟩
        · exact Or.inr ⟨i, by omega, hi, rfl⟩
  · simp only [EvaluatePolyEco, hrun, bind_ok_eq]

theorem evaluatePolyEco_constant_witness :
    convertCoeffs (.complexes [7]) = .ok (0, [7]) ∧ sub64 0 1 = 2 ^ 64 - 1 ∧
      len64 (sub64 0 1) = 64 ∧ len64 (sub64 0 1) >>> 1 = 32 ∧
      ∃ s, EvaluatePolyEcoRun plainOps (2 ^ 64) 2 (.complexes [7])
          = .ok (s, evaluatePolyFromPowerBasis plainOps [7] s.C) ∧
        s.muls = 63 ∧
        (∀ k, s.C.get? k ≠ none ↔ ∃ i, i < 64 ∧ k = 2 ^ i) ∧
        EvaluatePolyEco plainOps (2 ^ 64) 2 (.complexes [7])
          = evaluatePolyFromPowerBasis plainOps [7] s.C :=
  evaluatePolyEco_constant plainOps (2 ^ 64) (le_refl _) 2 7 (fun u v => ⟨u * v, rfl⟩)
    (fun w => ⟨w, rfl⟩)

/-! ## The uniform sampler -/

theorem forRange_inv {σ : Type} (body : Nat → σ → Except Err σ) (Inv : Nat → σ → Prop) :
    ∀ (count start : Nat) (s s' : σ), Inv start s →
      (∀ i t t', start ≤ i → i < start + count → Inv i t → body i t = .ok t' → Inv (i + 1) t') →
      forRange body start count s = .ok s' → Inv (start + count) s' := by
  intro count
  induction count with
  | zero =>
    intro start s s' h0 _ h
    simp only [forRange] at h
    cases h
    exact h0
  | succ k ih =>
    intro start s s' h0 hstep h
    simp only [forRange] at h
    cases hb : body start s with
    | error e =>
      rw [hb] at h
      cases h
    | ok s1 =>
      rw [hb] at h
      have h1 := ih (start + 1) s1 s' (hstep start s s1 (le_refl _) (by omega) h0 hb)
        (fun i t t' h1 h2 => hstep i t t' (by omega) (by omega)) h
      rwa [show start + 1 + k = start + (k + 1) by omega] at h1

theorem getIdx_ok {β : Type} (l : List β) (i : Nat) (v : β) (h : getIdx l i = .ok v) :
    l[i]? = some v := by
  unfold getIdx at h
  cases hl : l[i]? with
  | none =>
    rw [hl] at h
    cases h
  | some w =>
    rw [hl] at h
    cases h
    rfl

theorem setIdx_ok {β : Type} (l l' : List β) (i : Nat) (v : β) (h : setIdx l i v = .ok l') :
    i < l.length ∧ l' = l.set i v := by
  unfold setIdx at h
  by_cases hi : i < l.length
  · rw [if_pos hi] at h
    cases h
    exact ⟨hi, rfl⟩
  · rw [if_neg hi] at h
    cases h

theorem prngRead_length (g : Nat → Nat) (pos n : Nat) : (prngRead g pos n).length = n := by
  simp [prngRead]

theorem samplerInv_first (u0 : UniformSampler) : SamplerInv u0 u0.refill := by
  refine ⟨rfl, rfl, prngRead_length _ _ _, 0, ?_, ?_⟩
  · simp [UniformSampler.refill]
  · simp [UniformSampler.refill]

theorem samplerInv_refill (u0 u : UniformSampler) (h : SamplerInv u0 u) :
    SamplerInv u0 u.refill := by
  obtain ⟨hg, hr, hlen, k, hpos, _⟩ := h
  refine ⟨hg, hr, ?_, k + 1, ?_, ?_⟩
  · simp only [UniformSampler.refill, prngRead_length, hlen]
  · simp only [UniformSampler.refill, hpos, hlen]
    ring
  · simp only [UniformSampler.refill, hpos, hlen, hg]

theorem sampleLoop_spec (u0 : UniformSampler) (qi mask : Nat) :
    ∀ (fuel : Nat) (u : UniformSampler) (ptr v : Nat) (u' : UniformSampler) (ptr' : Nat),
      SamplerInv u0 u → sampleLoop qi mask fuel u ptr = .ok (v, u', ptr') →
      SamplerInv u0 u' ∧ Sampled u0 qi mask v := by
  intro fuel
  induction fuel with
  | zero =>
    intro u ptr v u' ptr' _ h
    simp only [sampleLoop] at h
    cases h
  | succ f ih =>
    intro u ptr v u' ptr' hinv h
    have hinv1 : SamplerInv u0 (if ptr = u.baseRing.N then u.refill else u) := by
      split
      · exact samplerInv_refill u0 u hinv
      · exact hinv
    simp only [sampleLoop] at h
    generalize (if ptr = u.baseRing.N then u.refill else u) = u1 at h hinv1
    generalize (if ptr = u.baseRing.N then 0 else ptr) = ptr1 at h
    by_cases hb : ptr1 + 8 ≤ u1.randomBufferN.length
    · rw [if_pos hb] at h
      by_cases hq : be64 ((u1.randomBufferN.drop ptr1).take 8) &&& mask < qi
      · rw [if_pos hq] at h
        simp only [Except.ok.injEq, Prod.mk.injEq] at h
        obtain ⟨hv, hu, _⟩ := h
        subst hv hu
        refine ⟨hinv1, hq, ?_⟩
        obtain ⟨_, _, hlen, k, _, hbuf⟩ := hinv1
        exact ⟨k, ptr1, by omega, by rw [hbuf]⟩
      · rw [if_neg hq] at h
        exact ih _ _ _ _ _ hinv1 h
    · rw [if_neg hb] at h
      cases h

theorem readRow_spec (u0 : UniformSampler) (qi mask fuel : Nat) (u : UniformSampler)
    (ptr : Nat) (ptmp : List Nat) (u' : UniformSampler) (ptr' : Nat) (row : List Nat)
    (hinv : SamplerInv u0 u) (h : readRow qi mask fuel u ptr ptmp = .ok (u', ptr', row)) :
    SamplerInv u0 u' ∧ row.length = ptmp.length ∧
      ∀ i, i < u0.baseRing.N → ∃ v, row[i]? = some v ∧ Sampled u0 qi mask v := by
  have hN : u.baseRing.N = u0.baseRing.N := by rw [hinv.2.1]
  unfold readRow at h
  have key := forRange_inv _
    (fun i (s : UniformSampler × Nat × List Nat) => SamplerInv u0 s.1 ∧
      s.2.2.length = ptmp.length ∧ ∀ j, j < i → ∃ v, s.2.2[j]? = some v ∧ Sampled u0 qi mask v)
    u.baseRing.N 0 (u, ptr, ptmp) (u', ptr', row) ⟨hinv, rfl, fun j hj => absurd hj (by omega)⟩
    (by
      intro i t t' _ _ hI hbody
      obtain ⟨hI1, hI2, hI3⟩ := hI
      cases hs : sampleLoop qi mask fuel t.1 t.2.1 with
      | error e =>
        simp only [hs, bind, Except.bind] at hbody
        cases hbody
      | ok r =>
        obtain ⟨v, u1, ptr1⟩ := r
        obtain ⟨hs1, hs2⟩ := sampleLoop_spec u0 qi mask fuel _ _ _ _ _ hI1 hs
        cases hw : setIdx t.2.2 i v with
        | error e =>
          simp only [hs, hw, bind, Except.bind] at hbody
          cases hbody
        | ok row1 =>
          simp only [hs, hw, bind, Except.bind, Except.ok.injEq] at hbody
          subst hbody
          obtain ⟨hlt, hrow⟩ := setIdx_ok _ _ _ _ hw
          subst hrow
          refine ⟨hs1, by simp only [List.length_set]; exact hI2, ?_⟩
          intro j hj
          by_cases hji : j = i
          · subst hji
            exact ⟨v, by simp [List.getElem?_set, hlt], hs2⟩
          · obtain ⟨w, hw1, hw2⟩ := hI3 j (by omega)
            refine ⟨w, ?_, hw2⟩
            simp only []
            rw [List.getElem?_set_ne (fun h => hji h.symm)]
            exact hw1) h
  rw [Nat.zero_add, hN] at key
  exact key

theorem readRows_spec (u0 : UniformSampler) (fuel rows : Nat) (u : UniformSampler)
    (ptr : Nat) (coeffs : List (List Nat)) (u' : UniformSampler) (ptr' : Nat)
    (coeffs' : List (List Nat)) (hinv : SamplerInv u0 u)
    (h : readRows fuel rows u ptr coeffs = .ok (u', ptr', coeffs')) :
    SamplerInv u0 u' ∧ coeffs'.length = coeffs.length ∧
      ∀ j, j < rows → RowSampled u0 coeffs' j := by
  unfold readRows at h
  have key := forRange_inv _
    (fun j (s : UniformSampler × Nat × List (List Nat)) => SamplerInv u0 s.1 ∧
      s.2.2.length = coeffs.length ∧ ∀ i, i < j → RowSampled u0 s.2.2 i)
    rows 0 (u, ptr, coeffs) (u', ptr', coeffs') ⟨hinv, rfl, fun j hj => absurd hj (by omega)⟩
    (by
      intro j t t' _ _ hI hbody
      obtain ⟨hI1, hI2, hI3⟩ := hI
      have hR : t.1.baseRing = u0.baseRing := hI1.2.1
      cases hq : getIdx t.1.baseRing.Modulus j with
      | error e =>
        simp only [hq, bind, Except.bind] at hbody
        cases hbody
      | ok qi =>
        cases hm : getIdx t.1.baseRing.Mask j with
        | error e =>
          simp only [hq, hm, bind, Except.bind] at hbody
          cases hbody
        | ok mask =>
          cases hp : getIdx t.2.2 j with
          | error e =>
            simp only [hq, hm, hp, bind, Except.bind] at hbody
            cases hbody
          | ok ptmp =>
            cases hr : readRow qi mask fuel t.1 t.2.1 ptmp with
            | error e =>
              simp only [hq, hm, hp, hr, bind, Except.bind] at hbody
              cases hbody
            | ok r =>
              obtain ⟨u1, ptr1, row⟩ := r
              obtain ⟨hr1, _, hr3⟩ := readRow_spec u0 qi mask fuel _ _ _ _ _ _ hI1 hr
              cases hw : setIdx t.2.2 j row with
              | error e =>
                simp only [hq, hm, hp, hr, hw, bind, Except.bind] at hbody
                cases hbody
              | ok coeffs1 =>
                simp only [hq, hm, hp, hr, hw, bind, Except.bind, Except.ok.injEq] at hbody
                subst hbody
                obtain ⟨hlt, hc⟩ := setIdx_ok _ _ _ _ hw
                subst hc
                refine ⟨hr1, by simp only [List.length_set]; exact hI2, ?_⟩
                intro i hi
                by_cases hij : i = j
                · subst hij
                  rw [hR] at hq hm
                  exact ⟨qi, mask, row, getIdx_ok _ _ _ hq, getIdx_ok _ _ _ hm,
                    by simp [List.getElem?_set, hlt], hr3⟩
                · obtain ⟨qi1, mask1, row1, h1, h2, h3, h4⟩ := hI3 i (by omega)
                  refine ⟨qi1, mask1, row1, h1, h2, ?_, h4⟩
                  simp only []
                  rw [List.getElem?_set_ne (fun h => hij h.symm)]
                  exact h3) h
  rw [Nat.zero_add] at key
  exact key

theorem addInt_one (level : Int) (h1 : -(2 ^ 63) ≤ level) (h2 : level < 2 ^ 63 - 1) :
    addInt level 1 = level + 1 := by
  unfold addInt
  rw [if_neg (by omega), if_neg (by omega)]

theorem addInt_one_max : addInt (2 ^ 63 - 1) 1 = -(2 ^ 63) := by
  decide

/-- C13. Whenever `Read` returns, every row `j` of the polynomial, and whenever
`ReadLvl` returns, every row `j` that its loop `j < level+1` went through,
holds in each of its first `N` entries a value that is the big-endian 64-bit
value of eight consecutive bytes of the buffer (as some refill left it) masked
with `Mask[j]`, and that value is strictly below `Modulus[j]`.  The rows of
`ReadLvl` are the rows `j <= level`, except for `level = 2^63 - 1`, where
`level+1` wraps around, no row is gone through and the polynomial is returned
as it was.  This holds for every `N`, so in particular for `N` a multiple
of 8. -/
theorem uniformSampler_range (u : UniformSampler) (fuel : Nat) (Pol : Poly)
    (u' : UniformSampler) (Pol' : Poly) :
    (u.Read fuel Pol = .ok (u', Pol') →
        ∀ j, j < Pol.Coeffs.length → RowSampled u Pol'.Coeffs j) ∧
      (∀ level : Int, -(2 ^ 63) ≤ level → level < 2 ^ 63 →
        u.ReadLvl fuel level Pol = .ok (u', Pol') →
        (∀ j : Nat, (j : Int) < addInt level 1 → RowSampled u Pol'.Coeffs j) ∧
          (level < 2 ^ 63 - 1 → ∀ j : Nat, (j : Int) ≤ level → RowSampled u Pol'.Coeffs j) ∧
          (level = 2 ^ 63 - 1 → Pol' = Pol)) := by
  constructor
  · intro h j hj
    unfold UniformSampler.Read at h
    by_cases hlen : Pol.Coeffs.length ≤ u.baseRing.Modulus.length
    · rw [if_pos hlen] at h
      cases hr : readRows fuel Pol.Coeffs.length u.refill 0 Pol.Coeffs with
      | error e =>
        simp only [hr, bind, Except.bind] at h
        cases h
      | ok r =>
        obtain ⟨u1, ptr1, coeffs⟩ := r
        simp only [hr, bind, Except.bind, Except.ok.injEq, Prod.mk.injEq] at h
        obtain ⟨_, hP⟩ := h
        subst hP
        exact (readRows_spec u fuel _ _ _ _ _ _ _ (samplerInv_first u) hr).2.2 j hj
    · rw [if_neg hlen] at h
      cases h
  · intro level hlo hhi h
    have hrows : ∀ j : Nat, (j : Int) < addInt level 1 → RowSampled u Pol'.Coeffs j := by
      intro j hj
      unfold UniformSampler.ReadLvl at h
      cases hr : readRows fuel (addInt level 1).toNat u.refill 0 Pol.Coeffs with
      | error e =>
        simp only [hr, bind, Except.bind] at h
        cases h
      | ok r =>
        obtain ⟨u1, ptr1, coeffs⟩ := r
        simp only [hr, bind, Except.bind, Except.ok.injEq, Prod.mk.injEq] at h
        obtain ⟨_, hP⟩ := h
        subst hP
        exact (readRows_spec u fuel _ _ _ _ _ _ _ (samplerInv_first u) hr).2.2 j (by omega)
    refine ⟨hrows, fun hlt j hj => hrows j ?_, fun hmax => ?_⟩
    · rw [addInt_one level hlo hlt]
      omega
    · rw [hmax] at h
      unfold UniformSampler.ReadLvl at h
      rw [addInt_one_max] at h
      have h0 : (-(2 ^ 63) : Int).toNat = 0 := by decide
      rw [h0] at h
      simp only [readRows, forRange, bind, Except.bind, Except.ok.injEq, Prod.mk.injEq] at h
      exact h.2.symm

theorem uniformSampler_range_witness :
    (∀ j, j < 2 → RowSampled (NewUniformSampler (fun i => i / 8 * 3 + i) 0 ⟨16, [5, 200], [7, 255]⟩)
        [[2, 0, 3, 1, 4, 2, 0, 3, 1, 4, 2, 0, 3, 1, 4, 2],
          [37, 48, 59, 70, 81, 92, 103, 114, 125, 136, 147, 158, 169, 180, 191, 1, 9]] j) ∧
      ((∀ j : Nat, (j : Int) < addInt 1 1 →
        RowSampled (NewUniformSampler (fun i => i / 8 * 3 + i) 0 ⟨16, [5, 200], [7, 255]⟩)
          [[2, 0, 3, 1, 4, 2, 0, 3, 1, 4, 2, 0, 3, 1, 4, 2],
            [37, 48, 59, 70, 81, 92, 103, 114, 125, 136, 147, 158, 169, 180, 191, 1, 9]] j) ∧
        ((1 : Int) < 2 ^ 63 - 1 → ∀ j : Nat, (j : Int) ≤ 1 →
          RowSampled (NewUniformSampler (fun i => i / 8 * 3 + i) 0 ⟨16, [5, 200], [7, 255]⟩)
            [[2, 0, 3, 1, 4, 2, 0, 3, 1, 4, 2, 0, 3, 1, 4, 2],
              [37, 48, 59, 70, 81, 92, 103, 114, 125, 136, 147, 158, 169, 180, 191, 1, 9]] j) ∧
        ((1 : Int) = 2 ^ 63 - 1 →
          (⟨[[2, 0, 3, 1, 4, 2, 0, 3, 1, 4, 2, 0, 3, 1, 4, 2],
            [37, 48, 59, 70, 81, 92, 103, 114, 125, 136, 147, 158, 169, 180, 191, 1, 9]]⟩ : Poly)
            = ⟨[List.replicate 16 0, List.replicate 17 9]⟩)) ∧
      ((∀ j : Nat, (j : Int) < addInt (2 ^ 63 - 1) 1 →
        RowSampled (NewUniformSampler (fun i => i / 8 * 3 + i) 0 ⟨16, [5, 200], [7, 255]⟩)
          [List.replicate 16 0, List.replicate 17 9] j) ∧
        ((2 ^ 63 - 1 : Int) < 2 ^ 63 - 1 → ∀ j : Nat, (j : Int) ≤ 2 ^ 63 - 1 →
          RowSampled (NewUniformSampler (fun i => i / 8 * 3 + i) 0 ⟨16, [5, 200], [7, 255]⟩)
            [List.replicate 16 0, List.replicate 17 9] j) ∧
        ((2 ^ 63 - 1 : Int) = 2 ^ 63 - 1 →
          (⟨[List.replicate 16 0, List.replicate 17 9]⟩ : Poly)
            = ⟨[List.replicate 16 0, List.replicate 17 9]⟩)) :=
  ⟨(uniformSampler_range (NewUniformSampler (fun i => i / 8 * 3 + i) 0 ⟨16, [5, 200], [7, 255]⟩)
      10 ⟨[List.replicate 16 0, List.replicate 17 9]⟩
      ⟨⟨16, [5, 200], [7, 255]⟩, fun i => i / 8 * 3 + i, 384,
        [250, 251, 252, 253, 254, 255, 0, 1, 5, 6, 7, 8, 9, 10, 11, 12]⟩
      ⟨[[2, 0, 3, 1, 4, 2, 0, 3, 1, 4, 2, 0, 3, 1, 4, 2],
        [37, 48, 59, 70, 81, 92, 103, 114, 125, 136, 147, 158, 169, 180, 191, 1, 9]]⟩).1 rfl,
    (uniformSampler_range (NewUniformSampler (fun i => i / 8 * 3 + i) 0 ⟨16, [5, 200], [7, 255]⟩)
      10 ⟨[List.replicate 16 0, List.replicate 17 9]⟩
      ⟨⟨16, [5, 200], [7, 255]⟩, fun i => i / 8 * 3 + i, 384,
        [250, 251, 252, 253, 254, 255, 0, 1, 5, 6, 7, 8, 9, 10, 11, 12]⟩
      ⟨[[2, 0, 3, 1, 4, 2, 0, 3, 1, 4, 2, 0, 3, 1, 4, 2],
        [37, 48, 59, 70, 81, 92, 103, 114, 125, 136, 147, 158, 169, 180, 191, 1, 9]]⟩).2 1
      (by norm_num) (by norm_num) rfl,
    (uniformSampler_range (NewUniformSampler (fun i => i / 8 * 3 + i) 0 ⟨16, [5, 200], [7, 255]⟩)
      10 ⟨[List.replicate 16 0, List.replicate 17 9]⟩
      (NewUniformSampler (fun i => i / 8 * 3 + i) 0 ⟨16, [5, 200], [7, 255]⟩).refill
      ⟨[List.replicate 16 0, List.replicate 17 9]⟩).2 (2 ^ 63 - 1)
      (by norm_num) (by norm_num) rfl⟩

end Lattigo
